import Mathlib

/-!
Verification of the SQL-injection detection core: the fingerprinting engine
(src/fingerprint.py) and the whitelist store (src/whitelist.py).

The Python code is embedded shallowly.  Regex substitutions are realised as
explicit left-to-right scanners over `List Char` with the exact semantics of
the Python patterns on ASCII text (character classes are modelled at the
ASCII level, matching the regexes and `str` methods on ASCII input).  The
three scanners that can skip several characters after a match take an
explicit recursion bound (fuel); the bound `l.length` always suffices, which
is proved below, so the bound is invisible in the stated theorems.
-/

/-- The single-quote character, written by code to avoid literal quoting. -/
def squote : Char := Char.ofNat 39

/-- The backslash character. -/
def bslash : Char := Char.ofNat 92

/-- Python whitespace class for the regexes and str.strip and str.split:
space, tab, newline, vertical tab, form feed, carriage return (ASCII). -/
def pySpace (c : Char) : Bool :=
  c = ' ' || c = Char.ofNat 9 || c = Char.ofNat 10 ||
  c = Char.ofNat 11 || c = Char.ofNat 12 || c = Char.ofNat 13

/-- Word character for the regex word boundary anchor: letter, digit or underscore. -/
def isWordB (c : Char) : Bool :=
  c.isAlpha || c.isDigit || c = '_'

/-- Hexadecimal digit, the class 0-9a-fA-F of the hex-literal regex. -/
def isHexB (c : Char) : Bool :=
  c.isDigit || ('a' ≤ c && c ≤ 'f') || ('A' ≤ c && c ≤ 'F')

/-- The four punctuation characters of the cleanup regex in fingerprint.py
line 96: parentheses, comma, semicolon. -/
def isPunct4 (c : Char) : Bool :=
  c = '(' || c = ')' || c = ',' || c = ';'

/-- Membership in Python string.punctuation (the 32 ASCII punctuation
characters), used by str.strip(string.punctuation) in fingerprint.py line 69. -/
def pyPunct (c : Char) : Bool :=
  (33 ≤ c.toNat && c.toNat ≤ 47) || (58 ≤ c.toNat && c.toNat ≤ 64) ||
  (91 ≤ c.toNat && c.toNat ≤ 96) || (123 ≤ c.toNat && c.toNat ≤ 126)

/-- Python str.strip with no argument: drop leading and trailing whitespace. -/
def trimWs (l : List Char) : List Char :=
  ((l.dropWhile pySpace).reverse.dropWhile pySpace).reverse

/-- Worker for the whitespace-collapsing substitution: the flag records
whether the previous character belonged to a whitespace run, so that one
space is emitted at the start of each maximal run and the rest of the run
is dropped. -/
def collapseWsAux : Bool → List Char → List Char
  | _, [] => []
  | afterWs, c :: cs =>
    if pySpace c then
      if afterWs then collapseWsAux true cs
      else ' ' :: collapseWsAux true cs
    else c :: collapseWsAux false cs

/-- The substitution re.sub of one or more whitespace by a single space:
every maximal whitespace run becomes one space character. -/
def collapseWs (l : List Char) : List Char :=
  collapseWsAux false l

/-- Scan for the closing quote of a quoted literal, as the regex content
group: an escaped pair (backslash plus any character) is skipped whole, any
other character except the quote is skipped singly, the bare quote closes.
Returns the input remaining after the closing quote, or none when the
literal never closes (the unterminated-quote case leaves text untouched). -/
def qsplit (q : Char) : List Char → Option (List Char)
  | [] => none
  | c :: cs =>
    if c = q then some cs
    else if c = bslash then
      match cs with
      | [] => none
      | _ :: cs2 => qsplit q cs2
    else qsplit q cs

/-- One string-literal substitution pass (fingerprint.py lines 54 and 55):
each quoted span, with escape handling, becomes a single question mark.
Fuel bounds the recursion; `l.length` is always enough. -/
def quoteScanF (q : Char) : Nat → List Char → List Char
  | 0, l => l
  | _ + 1, [] => []
  | fuel + 1, c :: cs =>
    if c = q then
      match qsplit q cs with
      | some rest => '?' :: quoteScanF q fuel rest
      | none => c :: quoteScanF q fuel cs
    else c :: quoteScanF q fuel cs

/-- String-literal redaction pass at its sufficient fuel. -/
def quoteScan (q : Char) (l : List Char) : List Char :=
  quoteScanF q l.length l

/-- Length of the maximal digit run at the head of the input. -/
def digitRun (l : List Char) : Nat :=
  (l.takeWhile Char.isDigit).length

/-- Does the input start with a word character (for the closing word
boundary of the numeric regexes)? -/
def headIsWord : List Char → Bool
  | [] => false
  | c :: _ => isWordB c

/-- Match of the decimal-literal regex (digits, optional dot, digits, with
word boundaries) at the head of the input, assuming the boundary before the
head already holds.  Returns the matched length.  The greedy-with-backtrack
behaviour of the regex is captured case by case: a trailing word character
forces the match to retreat to the digits-then-dot form or fail. -/
def decMatch (l : List Char) : Option Nat :=
  let d1 := digitRun l
  if d1 = 0 then none
  else
    match l.drop d1 with
    | dot :: r2 =>
      if dot = '.' then
        let d2 := digitRun r2
        if 0 < d2 then
          if headIsWord (r2.drop d2) then some (d1 + 1) else some (d1 + 1 + d2)
        else
          if headIsWord r2 then some (d1 + 1) else some d1
      else if isWordB dot then none else some d1
    | [] => some d1

/-- Match of the hexadecimal-literal regex (0x or 0X prefix, one or more hex
digits, word boundaries) at the head of the input, assuming the boundary
before the head holds.  Returns the matched length. -/
def hexMatch : List Char → Option Nat
  | c0 :: c1 :: cs =>
    if c0 = '0' && (c1 = 'x' || c1 = 'X') then
      let h := (cs.takeWhile isHexB).length
      if h = 0 then none
      else if headIsWord (cs.drop h) then none
      else some (2 + h)
    else none
  | _ => none

/-- Boundary-anchored substitution scanner shared by the two numeric
redactions (fingerprint.py lines 58 and 61): a match may start only where
the previous character is not a word character; the matched span becomes a
question mark; scanning resumes after the span with the original last
matched character as boundary context, exactly as re.sub rescans the
original string.  Fuel bounds the recursion; `l.length` is always enough. -/
def bScanF (m : List Char → Option Nat) : Nat → Bool → List Char → List Char
  | 0, _, l => l
  | _ + 1, _, [] => []
  | fuel + 1, prevWord, c :: cs =>
    if prevWord then c :: bScanF m fuel (isWordB c) cs
    else
      match m (c :: cs) with
      | some k =>
          '?' :: bScanF m fuel (isWordB ((c :: cs).getD (k - 1) c)) (cs.drop (k - 1))
      | none => c :: bScanF m fuel (isWordB c) cs

/-- Numeric redaction pass at its sufficient fuel, starting at a string
edge (which is a word boundary). -/
def bScan (m : List Char → Option Nat) (l : List Char) : List Char :=
  bScanF m l.length false l

/-- Worker for Python str.split with no argument: the accumulator holds the
reversed current word; a whitespace character closes the word (empty words
are never produced), any other character extends it. -/
def splitWsAux : List Char → List Char → List (List Char)
  | acc, [] => if acc.isEmpty then [] else [acc.reverse]
  | acc, c :: cs =>
    if pySpace c then
      if acc.isEmpty then splitWsAux [] cs
      else acc.reverse :: splitWsAux [] cs
    else splitWsAux (c :: acc) cs

/-- Python str.split with no argument: split on whitespace runs, no empty
words. -/
def splitWs (l : List Char) : List (List Char) :=
  splitWsAux [] l

/-- Python single-space str.join: words concatenated with one space between
consecutive words. -/
def joinWords : List (List Char) → List Char
  | [] => []
  | [w] => w
  | w :: v :: ws => w ++ ' ' :: joinWords (v :: ws)

/-- Python str.strip(string.punctuation): drop leading and trailing ASCII
punctuation characters. -/
def stripPunct (w : List Char) : List Char :=
  ((w.dropWhile pyPunct).reverse.dropWhile pyPunct).reverse

/-- The keyword vocabulary of SQLFingerprinter.__init__, all lowercase. -/
def sqlKeywords : List (List Char) :=
  (["select", "from", "where", "insert", "into", "values", "update",
    "set", "delete", "join", "inner", "left", "right", "outer", "on",
    "and", "or", "not", "in", "like", "between", "exists", "null",
    "is", "as", "order", "by", "group", "having", "limit", "offset",
    "union", "all", "distinct", "count", "sum", "avg", "max", "min",
    "desc", "asc", "create", "table", "drop", "alter", "add", "column",
    "constraint", "primary", "key", "foreign", "references", "unique",
    "index", "view", "database", "schema", "grant", "revoke", "commit",
    "rollback", "transaction", "begin", "end", "if", "else", "case",
    "when", "then", "exec", "execute", "procedure", "function"] :
    List String).map String.toList

/-- Per-token keyword normalisation (fingerprint.py lines 67 to 91): strip
punctuation from the lowercased token; when the result is a keyword, keep
the leading and trailing non-alphabetic spans and uppercase the span
between them, or uppercase the whole token when it equals its cleaned
form; otherwise leave the token unchanged. -/
def transformWord (w : List Char) : List Char :=
  let clean := stripPunct (w.map Char.toLower)
  if sqlKeywords.contains clean then
    if w = clean then w.map Char.toUpper
    else
      let sp := (w.takeWhile (fun c => !c.isAlpha)).length
      let ep := (w.reverse.takeWhile (fun c => !c.isAlpha)).length
      w.take sp ++ ((w.drop sp).take (w.length - ep - sp)).map Char.toUpper ++
        w.drop (w.length - ep)
  else w

/-- The punctuation-cleanup substitution (fingerprint.py line 96): every
match of optional whitespace, one of the four punctuation characters, and
optional whitespace is replaced by the punctuation character alone.  A
whitespace run not followed by one of the four characters is left in
place character by character, as re.sub retries at each position.  Fuel
bounds the recursion; `l.length` is always enough. -/
def pcleanF : Nat → List Char → List Char
  | 0, l => l
  | _ + 1, [] => []
  | fuel + 1, c :: cs =>
    if pySpace c then
      match cs.dropWhile pySpace with
      | p :: rest =>
        if isPunct4 p then p :: pcleanF fuel (rest.dropWhile pySpace)
        else c :: pcleanF fuel cs
      | [] => c :: pcleanF fuel cs
    else if isPunct4 c then c :: pcleanF fuel (cs.dropWhile pySpace)
    else c :: pcleanF fuel cs

/-- Punctuation cleanup at its sufficient fuel. -/
def pclean (l : List Char) : List Char :=
  pcleanF l.length l

/-- The whitespace-normalisation opening step of fingerprint (line 50):
re.sub of whitespace runs by a single space applied to query.strip(). -/
def normWs (l : List Char) : List Char :=
  collapseWs (trimWs l)

/-- SQLFingerprinter.fingerprint on character lists, in the exact statement
order of fingerprint.py lines 46 to 99: empty guard, whitespace
normalisation, single- then double-quoted string redaction, decimal then
hexadecimal numeric redaction, per-token keyword normalisation joined by
single spaces, punctuation cleanup, whitespace re-collapse, final strip. -/
def fingerprintL (l : List Char) : List Char :=
  if l = [] then []
  else
    let n1 := normWs l
    let n2 := quoteScan squote n1
    let n3 := quoteScan (Char.ofNat 34) n2
    let n4 := bScan decMatch n3
    let n5 := bScan hexMatch n4
    let n6 := joinWords ((splitWs n5).map transformWord)
    let n7 := pclean n6
    trimWs (collapseWs n7)

/-- SQLFingerprinter.fingerprint on strings. -/
def fingerprint (s : String) : String :=
  String.mk (fingerprintL s.toList)

/-- Modelled from the spec (section 4.1 step 4): the same pipeline with the
two numeric redaction passes in the order the specification requires,
hexadecimal literals first and the remaining decimal literals second. -/
def fingerprintSpecNumOrderL (l : List Char) : List Char :=
  if l = [] then []
  else
    let n1 := normWs l
    let n2 := quoteScan squote n1
    let n3 := quoteScan (Char.ofNat 34) n2
    let n4 := bScan hexMatch n3
    let n5 := bScan decMatch n4
    let n6 := joinWords ((splitWs n5).map transformWord)
    let n7 := pclean n6
    trimWs (collapseWs n7)

/-- Spec-ordered variant on strings. -/
def fingerprintSpecNumOrder (s : String) : String :=
  String.mk (fingerprintSpecNumOrderL s.toList)

/-- A value passed to fingerprint from Python, which may fail the isinstance
str check of fingerprint.py line 46. -/
inductive PyVal where
  | str (s : String)
  | nonStr

/-- fingerprint including the non-string guard: non-string input yields the
empty fingerprint without an exception. -/
def fingerprintVal : PyVal → String
  | .str s => fingerprint s
  | .nonStr => ""

/-- The module-level convenience function fingerprint_query of
fingerprint.py line 114. -/
def fingerprint_query (q : String) : String :=
  fingerprint q

/-- The whitelist store: its in-memory set of fingerprint strings, modelled
as a duplicate-free list observed only through membership. -/
structure SQLWhitelist where
  whitelist : List String

/-- The persisted snapshot shapes load_whitelist distinguishes
(whitelist.py lines 114 to 121): the structured object with a fingerprints
field and a count field, the legacy bare list, or anything else. -/
inductive Snapshot where
  | obj (fingerprints : List String) (count : Nat)
  | bare (fingerprints : List String)
  | invalid

namespace SQLWhitelist

/-- add_fingerprint: insert the stripped fingerprint when it is non-empty
(whitelist.py lines 33 to 41). -/
def add_fingerprint (st : SQLWhitelist) (fp : String) : SQLWhitelist :=
  if fp = "" then st
  else ⟨st.whitelist.insert (String.mk (trimWs fp.toList))⟩

/-- add_query: fingerprint the query, then add_fingerprint
(whitelist.py lines 43 to 51). -/
def add_query (st : SQLWhitelist) (q : String) : SQLWhitelist :=
  st.add_fingerprint (fingerprint_query q)

/-- add_queries: add every query of the list in order
(whitelist.py lines 53 to 61). -/
def add_queries (st : SQLWhitelist) (qs : List String) : SQLWhitelist :=
  qs.foldl add_query st

/-- is_whitelisted: fingerprint the query and test set membership
(whitelist.py lines 63 to 74). -/
def is_whitelisted (st : SQLWhitelist) (q : String) : Bool :=
  st.whitelist.contains (fingerprint_query q)

/-- check_fingerprint: membership test on an already computed fingerprint
(whitelist.py lines 76 to 86). -/
def check_fingerprint (st : SQLWhitelist) (fp : String) : Bool :=
  st.whitelist.contains fp

/-- save_whitelist: the snapshot written to disk, the structured object
holding the fingerprint list and its redundant count
(whitelist.py lines 88 to 102). -/
def save_whitelist (st : SQLWhitelist) : Snapshot :=
  .obj st.whitelist st.whitelist.length

/-- load_whitelist: the in-memory set resulting from a snapshot, or from an
absent file (none).  The structured and the bare shape both become the set
of their list (set conversion modelled by dedup); any other shape and the
missing file give the empty set (whitelist.py lines 104 to 128). -/
def load_whitelist : Option Snapshot → List String
  | none => []
  | some (.obj fps _) => fps.dedup
  | some (.bare fps) => fps.dedup
  | some .invalid => []

/-- Store construction: __init__ runs load_whitelist on the backing file
content (whitelist.py lines 22 to 31). -/
def mk_store (snap : Option Snapshot) : SQLWhitelist :=
  ⟨load_whitelist snap⟩

end SQLWhitelist

/-- Every character of the list is non-whitespace. -/
def wsFree (l : List Char) : Prop :=
  ∀ c ∈ l, pySpace c = false

/-- Every whitespace character of the list is a plain space. -/
def allWsSpace (l : List Char) : Prop :=
  ∀ c ∈ l, pySpace c = true → c = ' '

/-- Adjacent-pair relation: the two characters are not both whitespace. -/
def notWsWs (a b : Char) : Prop :=
  pySpace a = false ∨ pySpace b = false

/-- Adjacent-pair relation: no whitespace directly next to one of the four
cleanup punctuation characters, on either side. -/
def noWsPunct (a b : Char) : Prop :=
  (pySpace a = false ∨ isPunct4 b = false) ∧
  (isPunct4 a = false ∨ pySpace b = false)

/-- Every keyword-shaped parse of the word (punctuation flanks around a
nonempty alphabetic core whose lowercasing is a keyword) already has an
uppercase core. -/
def WOKw (w : List Char) : Prop :=
  ∀ A M B, w = A ++ M ++ B → (∀ c ∈ A, pyPunct c = true) → (∀ c ∈ B, pyPunct c = true) →
    M ≠ [] → (∀ c ∈ M, Char.isAlpha c = true) →
    M.map Char.toLower ∈ sqlKeywords → M.map Char.toUpper = M

/-! ## Helper lemmas -/

theorem length_dropWhile_le (p : Char → Bool) (l : List Char) :
    (l.dropWhile p).length ≤ l.length :=
  (List.dropWhile_sublist p).length_le

theorem char_eq_iff_toNat {a b : Char} : a = b ↔ a.toNat = b.toNat :=
  ⟨fun h => by rw [h], fun h => Char.eq_of_val_eq (UInt32.ext h)⟩

theorem charOfNat_toNat (n : Nat) (h : n.isValidChar) : (Char.ofNat n).toNat = n := by
  simp [Char.ofNat, h, Char.ofNatAux, Char.toNat, UInt32.toNat]

theorem toUpper_toNat_lower (c : Char) (h1 : 97 ≤ c.toNat) (h2 : c.toNat ≤ 122) :
    c.toUpper.toNat = c.toNat - 32 := by
  have hv : (c.toNat - 32).isValidChar := Or.inl (by omega)
  unfold Char.toUpper
  rw [if_pos]
  · exact charOfNat_toNat _ hv
  · simp only [ge_iff_le, Bool.and_eq_true, decide_eq_true_eq]
    exact ⟨h1, h2⟩

theorem toUpper_eq_self (c : Char) (h : ¬(97 ≤ c.toNat ∧ c.toNat ≤ 122)) :
    c.toUpper = c := by
  unfold Char.toUpper
  rw [if_neg]
  simp only [ge_iff_le, Bool.and_eq_true, decide_eq_true_eq]
  exact h

theorem pySpace_iff_toNat (c : Char) :
    pySpace c = true ↔
      c.toNat = 32 ∨ c.toNat = 9 ∨ c.toNat = 10 ∨
      c.toNat = 11 ∨ c.toNat = 12 ∨ c.toNat = 13 := by
  have h32 : (' ' : Char).toNat = 32 := rfl
  have h9 : (Char.ofNat 9).toNat = 9 := rfl
  have h10 : (Char.ofNat 10).toNat = 10 := rfl
  have h11 : (Char.ofNat 11).toNat = 11 := rfl
  have h12 : (Char.ofNat 12).toNat = 12 := rfl
  have h13 : (Char.ofNat 13).toNat = 13 := rfl
  simp only [pySpace, Bool.or_eq_true, decide_eq_true_eq, char_eq_iff_toNat,
    h32, h9, h10, h11, h12, h13]
  tauto

theorem isPunct4_iff_toNat (c : Char) :
    isPunct4 c = true ↔
      c.toNat = 40 ∨ c.toNat = 41 ∨ c.toNat = 44 ∨ c.toNat = 59 := by
  have h40 : ('(' : Char).toNat = 40 := rfl
  have h41 : (')' : Char).toNat = 41 := rfl
  have h44 : (',' : Char).toNat = 44 := rfl
  have h59 : (';' : Char).toNat = 59 := rfl
  simp only [isPunct4, Bool.or_eq_true, decide_eq_true_eq, char_eq_iff_toNat,
    h40, h41, h44, h59]
  tauto

theorem pySpace_toUpper (c : Char) : pySpace c.toUpper = pySpace c := by
  by_cases h : 97 ≤ c.toNat ∧ c.toNat ≤ 122
  · have hup := toUpper_toNat_lower c h.1 h.2
    have hlow : pySpace c = false := by
      rw [← Bool.not_eq_true, pySpace_iff_toNat]
      omega
    rw [hlow, ← Bool.not_eq_true, pySpace_iff_toNat, hup]
    omega
  · rw [toUpper_eq_self c h]

theorem isPunct4_not_ws (c : Char) (h : isPunct4 c = true) : pySpace c = false := by
  rw [← Bool.not_eq_true, pySpace_iff_toNat]
  rw [isPunct4_iff_toNat] at h
  omega

theorem dropWhile_head_not (p : Char → Bool) (l : List Char) (c : Char)
    (h : (l.dropWhile p).head? = some c) : p c = false := by
  induction l with
  | nil => simp [List.dropWhile] at h
  | cons d ds ih =>
    rw [List.dropWhile_cons] at h
    by_cases hd : p d
    · rw [if_pos hd] at h
      exact ih h
    · rw [if_neg hd] at h
      simp only [List.head?_cons, Option.some_inj] at h
      subst h
      simpa using hd

theorem isPrefix_head (x y : List Char) (c : Char) (hp : x <+: y)
    (h : x.head? = some c) : y.head? = some c := by
  obtain ⟨t, rfl⟩ := hp
  cases x with
  | nil => simp at h
  | cons a x2 => simpa using h

theorem trimWs_isPrefix (l : List Char) : trimWs l <+: l.dropWhile pySpace := by
  unfold trimWs
  have h := List.reverse_prefix.mpr
    (List.dropWhile_suffix (l := (l.dropWhile pySpace).reverse) pySpace)
  rwa [List.reverse_reverse] at h

theorem trimWs_head (l : List Char) (c : Char)
    (h : (trimWs l).head? = some c) : pySpace c = false :=
  dropWhile_head_not pySpace l c (isPrefix_head _ _ c (trimWs_isPrefix l) h)

theorem trimWs_reverse_eq (l : List Char) :
    (trimWs l).reverse = (l.dropWhile pySpace).reverse.dropWhile pySpace := by
  unfold trimWs
  rw [List.reverse_reverse]

theorem trimWs_getLast (l : List Char) (c : Char)
    (h : (trimWs l).getLast? = some c) : pySpace c = false := by
  rw [← List.head?_reverse, trimWs_reverse_eq] at h
  exact dropWhile_head_not pySpace _ c h

theorem chain'_reverse_of_symm {R : Char → Char → Prop} (hs : ∀ a b, R a b → R b a)
    (l : List Char) (h : List.Chain' R l) : List.Chain' R l.reverse := by
  rw [List.chain'_reverse]
  exact h.imp (fun a b hab => hs a b hab)

theorem trimWs_chain {R : Char → Char → Prop} (hs : ∀ a b, R a b → R b a)
    (l : List Char) (h : List.Chain' R l) : List.Chain' R (trimWs l) := by
  have h1 : List.Chain' R (l.dropWhile pySpace) :=
    h.suffix (List.dropWhile_suffix pySpace)
  have h2 := chain'_reverse_of_symm hs _ h1
  have h3 := h2.suffix (List.dropWhile_suffix pySpace)
  exact chain'_reverse_of_symm hs _ h3

theorem mem_trimWs (l : List Char) (c : Char) (h : c ∈ trimWs l) : c ∈ l := by
  unfold trimWs at h
  rw [List.mem_reverse] at h
  have h2 := (List.dropWhile_sublist pySpace).subset h
  rw [List.mem_reverse] at h2
  exact (List.dropWhile_sublist pySpace).subset h2

theorem splitWsAux_words (l : List Char) : ∀ (acc : List Char), wsFree acc →
    ∀ w ∈ splitWsAux acc l, w ≠ [] ∧ wsFree w := by
  induction l with
  | nil =>
    intro acc hacc w hw
    unfold splitWsAux at hw
    by_cases he : acc.isEmpty
    · rw [if_pos he] at hw
      simp at hw
    · rw [if_neg he] at hw
      simp only [List.mem_singleton] at hw
      subst hw
      refine ⟨?_, ?_⟩
      · simp only [ne_eq, List.reverse_eq_nil_iff]
        exact fun hnil => he (by simp [hnil])
      · intro c hc
        exact hacc c (List.mem_reverse.mp hc)
  | cons d ds ih =>
    intro acc hacc w hw
    unfold splitWsAux at hw
    by_cases hd : pySpace d
    · rw [if_pos hd] at hw
      by_cases he : acc.isEmpty
      · rw [if_pos he] at hw
        exact ih [] (fun c hc => absurd hc (List.not_mem_nil c)) w hw
      · rw [if_neg he] at hw
        rcases List.mem_cons.mp hw with h1 | h2
        · subst h1
          refine ⟨?_, ?_⟩
          · simp only [ne_eq, List.reverse_eq_nil_iff]
            exact fun hnil => he (by simp [hnil])
          · intro c hc
            exact hacc c (List.mem_reverse.mp hc)
        · exact ih [] (fun c hc => absurd hc (List.not_mem_nil c)) w h2
    · rw [if_neg hd] at hw
      refine ih (d :: acc) ?_ w hw
      intro c hc
      rcases List.mem_cons.mp hc with rfl | hc2
      · simpa using hd
      · exact hacc c hc2

theorem splitWs_words (l : List Char) :
    ∀ w ∈ splitWs l, w ≠ [] ∧ wsFree w :=
  splitWsAux_words l [] (fun c hc => absurd hc (List.not_mem_nil c))

theorem transformWord_wsFree (w : List Char) (h : wsFree w) :
    wsFree (transformWord w) := by
  intro c hc
  unfold transformWord at hc
  by_cases hk : sqlKeywords.contains (stripPunct (w.map Char.toLower)) = true
  · rw [if_pos hk] at hc
    by_cases hw : w = stripPunct (w.map Char.toLower)
    · rw [if_pos hw] at hc
      rcases List.mem_map.mp hc with ⟨d, hd, rfl⟩
      rw [pySpace_toUpper]
      exact h d hd
    · rw [if_neg hw] at hc
      rcases List.mem_append.mp hc with h1 | h1
      · rcases List.mem_append.mp h1 with h2 | h2
        · exact h c (List.take_subset _ _ h2)
        · rcases List.mem_map.mp h2 with ⟨d, hd, rfl⟩
          rw [pySpace_toUpper]
          exact h d (List.drop_subset _ _ (List.take_subset _ _ hd))
      · exact h c (List.drop_subset _ _ h1)
  · rw [if_neg hk] at hc
    exact h c hc

theorem transformWord_ne_nil (w : List Char) (h : w ≠ []) :
    transformWord w ≠ [] := by
  unfold transformWord
  by_cases hk : sqlKeywords.contains (stripPunct (w.map Char.toLower)) = true
  · rw [if_pos hk]
    by_cases hw : w = stripPunct (w.map Char.toLower)
    · rw [if_pos hw]
      simpa using h
    · rw [if_neg hw]
      intro hcontra
      rcases List.append_eq_nil.mp hcontra with ⟨h1, h3⟩
      rcases List.append_eq_nil.mp h1 with ⟨hA, hB⟩
      rw [List.map_eq_nil_iff] at hB
      have hlen : w.length ≠ 0 := fun h0 => h (List.eq_nil_of_length_eq_zero h0)
      have hA2 : (List.take (List.takeWhile (fun c => !c.isAlpha) w).length w).length = 0 := by
        rw [hA]
        rfl
      have hB2 : (List.take
          (w.length - (List.takeWhile (fun c => !c.isAlpha) w.reverse).length -
            (List.takeWhile (fun c => !c.isAlpha) w).length)
          (List.drop (List.takeWhile (fun c => !c.isAlpha) w).length w)).length = 0 := by
        rw [hB]
        rfl
      have hC2 : (List.drop
          (w.length - (List.takeWhile (fun c => !c.isAlpha) w.reverse).length) w).length = 0 := by
        rw [h3]
        rfl
      rw [List.length_take, List.length_drop] at hB2
      rw [List.length_take] at hA2
      rw [List.length_drop] at hC2
      omega
  · rw [if_neg hk]
    exact h

theorem joinWords_head (v : List Char) (ws : List (List Char)) (hv : v ≠ []) :
    (joinWords (v :: ws)).head? = v.head? := by
  cases ws with
  | nil => rfl
  | cons w ws2 =>
    show (v ++ ' ' :: joinWords (w :: ws2)).head? = v.head?
    cases v with
    | nil => exact absurd rfl hv
    | cons a v2 => rfl

theorem mem_joinWords (ws : List (List Char)) (c : Char) (h : c ∈ joinWords ws) :
    c = ' ' ∨ ∃ w ∈ ws, c ∈ w := by
  induction ws with
  | nil => simp [joinWords] at h
  | cons v ws2 ih =>
    cases ws2 with
    | nil =>
      right
      exact ⟨v, by simp, h⟩
    | cons w ws3 =>
      rcases List.mem_append.mp h with h1 | h1
      · right
        exact ⟨v, by simp, h1⟩
      · rcases List.mem_cons.mp h1 with rfl | h2
        · left
          rfl
        · rcases ih h2 with h3 | ⟨u, hu, hcu⟩
          · exact Or.inl h3
          · right
            exact ⟨u, by simp [hu], hcu⟩

theorem chain'_notWsWs_of_wsFree (w : List Char) (h : wsFree w) :
    List.Chain' notWsWs w := by
  induction w with
  | nil => simp
  | cons a w2 ih =>
    rw [List.chain'_cons']
    refine ⟨fun y _ => Or.inl (h a (by simp)), ih ?_⟩
    intro c hc
    exact h c (by simp [hc])

theorem joinWords_chain (ws : List (List Char))
    (h : ∀ w ∈ ws, w ≠ [] ∧ wsFree w) : List.Chain' notWsWs (joinWords ws) := by
  induction ws with
  | nil => simp [joinWords]
  | cons v ws2 ih =>
    cases ws2 with
    | nil => exact chain'_notWsWs_of_wsFree v (h v (by simp)).2
    | cons w ws3 =>
      show List.Chain' notWsWs (v ++ ' ' :: joinWords (w :: ws3))
      rw [List.chain'_append]
      refine ⟨chain'_notWsWs_of_wsFree v (h v (by simp)).2, ?_, ?_⟩
      · rw [List.chain'_cons']
        constructor
        · intro y hy
          rw [joinWords_head w ws3 (h w (by simp)).1] at hy
          refine Or.inr ((h w (by simp)).2 y ?_)
          cases w with
          | nil => simp at hy
          | cons a w2 =>
            simp only [List.head?_cons, Option.mem_def, Option.some_inj] at hy
            subst hy
            simp
        · exact ih (fun u hu => h u (by simp [hu]))
      · intro x hx y hy
        simp only [List.head?_cons, Option.mem_def, Option.some_inj] at hy
        refine Or.inl ((h v (by simp)).2 x ?_)
        exact List.mem_of_mem_getLast? hx

theorem joinWords_allWsSpace (ws : List (List Char))
    (h : ∀ w ∈ ws, w ≠ [] ∧ wsFree w) : allWsSpace (joinWords ws) := by
  intro c hc hws
  rcases mem_joinWords ws c hc with h1 | ⟨w, hw, hcw⟩
  · exact h1
  · rw [(h w hw).2 c hcw] at hws
    cases hws

theorem pcleanF_nil (fuel : Nat) : pcleanF fuel [] = [] := by
  cases fuel <;> rfl

theorem pcleanF_head (fuel : Nat) (c : Char) (cs : List Char) (hc : pySpace c = false) :
    (pcleanF fuel (c :: cs)).head? = some c := by
  cases fuel with
  | zero => rfl
  | succ f =>
    unfold pcleanF
    rw [if_neg (by simp [hc])]
    by_cases hp : isPunct4 c = true
    · rw [if_pos hp]
      rfl
    · rw [if_neg hp]
      rfl

theorem mem_pcleanF (fuel : Nat) : ∀ (l : List Char) (c : Char),
    c ∈ pcleanF fuel l → c ∈ l := by
  induction fuel with
  | zero =>
    intro l c h
    exact h
  | succ f ih =>
    intro l c h
    cases l with
    | nil =>
      rw [pcleanF_nil] at h
      exact h
    | cons d ds =>
      unfold pcleanF at h
      by_cases hd : pySpace d = true
      · rw [if_pos hd] at h
        cases hdrop : ds.dropWhile pySpace with
        | nil =>
          rw [hdrop] at h
          rcases List.mem_cons.mp h with rfl | h2
          · exact List.mem_cons_self _ _
          · exact List.mem_cons_of_mem _ (ih ds c h2)
        | cons p rest =>
          rw [hdrop] at h
          dsimp only at h
          by_cases hp : isPunct4 p = true
          · rw [if_pos hp] at h
            rcases List.mem_cons.mp h with rfl | h2
            · have hmem : c ∈ ds.dropWhile pySpace := by
                rw [hdrop]
                exact List.mem_cons_self _ _
              exact List.mem_cons_of_mem _ ((List.dropWhile_sublist pySpace).subset hmem)
            · have h3 := ih _ c h2
              have h4 : c ∈ rest := (List.dropWhile_sublist pySpace).subset h3
              have h5 : c ∈ ds.dropWhile pySpace := by
                rw [hdrop]
                exact List.mem_cons_of_mem _ h4
              exact List.mem_cons_of_mem _ ((List.dropWhile_sublist pySpace).subset h5)
          · rw [if_neg hp] at h
            rcases List.mem_cons.mp h with rfl | h2
            · exact List.mem_cons_self _ _
            · exact List.mem_cons_of_mem _ (ih ds c h2)
      · rw [if_neg hd] at h
        by_cases hp : isPunct4 d = true
        · rw [if_pos hp] at h
          rcases List.mem_cons.mp h with rfl | h2
          · exact List.mem_cons_self _ _
          · exact List.mem_cons_of_mem _
              ((List.dropWhile_sublist pySpace).subset (ih _ c h2))
        · rw [if_neg hp] at h
          rcases List.mem_cons.mp h with rfl | h2
          · exact List.mem_cons_self _ _
          · exact List.mem_cons_of_mem _ (ih ds c h2)

theorem pcleanF_chain (fuel : Nat) : ∀ (l : List Char), l.length ≤ fuel →
    List.Chain' notWsWs l →
    List.Chain' notWsWs (pcleanF fuel l) ∧ List.Chain' noWsPunct (pcleanF fuel l) := by
  induction fuel with
  | zero =>
    intro l hl _
    have h0 : l = [] := List.eq_nil_of_length_eq_zero (Nat.le_zero.mp hl)
    subst h0
    rw [pcleanF_nil]
    exact ⟨List.chain'_nil, List.chain'_nil⟩
  | succ f ih =>
    intro l hl hchain
    cases l with
    | nil =>
      rw [pcleanF_nil]
      exact ⟨List.chain'_nil, List.chain'_nil⟩
    | cons c cs =>
      have hcslen : cs.length ≤ f := by
        simp only [List.length_cons] at hl
        omega
      unfold pcleanF
      by_cases hc : pySpace c = true
      · rw [if_pos hc]
        cases hdrop : cs.dropWhile pySpace with
        | nil =>
          have hcs : cs = [] := by
            cases cs with
            | nil => rfl
            | cons d ds =>
              have hpair := (List.chain'_cons'.mp hchain).1 d rfl
              rcases hpair with h1 | h1
              · rw [hc] at h1
                cases h1
              · rw [List.dropWhile_cons, if_neg (by simp [h1])] at hdrop
                cases hdrop
          subst hcs
          rw [pcleanF_nil]
          exact ⟨List.chain'_singleton c, List.chain'_singleton c⟩
        | cons p rest =>
          dsimp only
          by_cases hp : isPunct4 p = true
          · rw [if_pos hp]
            have hpnw : pySpace p = false := isPunct4_not_ws p hp
            have hsuf : rest.dropWhile pySpace <:+ c :: cs := by
              have q1 : rest.dropWhile pySpace <:+ rest := List.dropWhile_suffix pySpace
              have q2 : rest <:+ cs.dropWhile pySpace := by
                rw [hdrop]
                exact List.suffix_cons p rest
              have q3 : cs.dropWhile pySpace <:+ cs := List.dropWhile_suffix pySpace
              exact q1.trans (q2.trans (q3.trans (List.suffix_cons c cs)))
            have hlen2 : (rest.dropWhile pySpace).length ≤ f := by
              have q1 := length_dropWhile_le pySpace rest
              have q2 := length_dropWhile_le pySpace cs
              rw [hdrop] at q2
              simp only [List.length_cons] at q2
              omega
            obtain ⟨ih1, ih2⟩ := ih (rest.dropWhile pySpace) hlen2 (hchain.suffix hsuf)
            constructor
            · rw [List.chain'_cons']
              refine ⟨?_, ih1⟩
              intro y hy
              cases hrd : rest.dropWhile pySpace with
              | nil =>
                rw [hrd, pcleanF_nil] at hy
                cases hy
              | cons e es =>
                have he : pySpace e = false :=
                  dropWhile_head_not pySpace rest e (by rw [hrd]; rfl)
                rw [hrd, pcleanF_head f e es he] at hy
                obtain rfl : e = y := by simpa using hy
                exact Or.inr he
            · rw [List.chain'_cons']
              refine ⟨?_, ih2⟩
              intro y hy
              cases hrd : rest.dropWhile pySpace with
              | nil =>
                rw [hrd, pcleanF_nil] at hy
                cases hy
              | cons e es =>
                have he : pySpace e = false :=
                  dropWhile_head_not pySpace rest e (by rw [hrd]; rfl)
                rw [hrd, pcleanF_head f e es he] at hy
                obtain rfl : e = y := by simpa using hy
                exact ⟨Or.inl hpnw, Or.inr he⟩
          · rw [if_neg hp]
            cases cs with
            | nil =>
              rw [List.dropWhile_nil] at hdrop
              cases hdrop
            | cons d ds =>
              have hd : pySpace d = false := by
                have hpair := (List.chain'_cons'.mp hchain).1 d rfl
                rcases hpair with h1 | h1
                · rw [hc] at h1
                  cases h1
                · exact h1
              have hdp : p = d := by
                rw [List.dropWhile_cons, if_neg (by simp [hd])] at hdrop
                exact (List.cons_eq_cons.mp hdrop.symm).1
              have hdpunct : isPunct4 d = false := by
                rw [← hdp]
                simpa using hp
              obtain ⟨ih1, ih2⟩ := ih (d :: ds) hcslen (List.chain'_cons'.mp hchain).2
              constructor
              · rw [List.chain'_cons']
                refine ⟨?_, ih1⟩
                intro y hy
                rw [pcleanF_head f d ds hd] at hy
                obtain rfl : d = y := by simpa using hy
                exact Or.inr hd
              · rw [List.chain'_cons']
                refine ⟨?_, ih2⟩
                intro y hy
                rw [pcleanF_head f d ds hd] at hy
                obtain rfl : d = y := by simpa using hy
                exact ⟨Or.inr hdpunct, Or.inr hd⟩
      · rw [if_neg hc]
        have hcnw : pySpace c = false := by simpa using hc
        by_cases hpc : isPunct4 c = true
        · rw [if_pos hpc]
          have hsuf : cs.dropWhile pySpace <:+ c :: cs :=
            (List.dropWhile_suffix pySpace).trans (List.suffix_cons c cs)
          have hlen2 : (cs.dropWhile pySpace).length ≤ f := by
            have := length_dropWhile_le pySpace cs
            omega
          obtain ⟨ih1, ih2⟩ := ih (cs.dropWhile pySpace) hlen2 (hchain.suffix hsuf)
          constructor
          · rw [List.chain'_cons']
            refine ⟨fun y _ => Or.inl hcnw, ih1⟩
          · rw [List.chain'_cons']
            refine ⟨?_, ih2⟩
            intro y hy
            cases hdw : cs.dropWhile pySpace with
            | nil =>
              rw [hdw, pcleanF_nil] at hy
              cases hy
            | cons e es =>
              have he : pySpace e = false :=
                dropWhile_head_not pySpace cs e (by rw [hdw]; rfl)
              rw [hdw, pcleanF_head f e es he] at hy
              obtain rfl : e = y := by simpa using hy
              exact ⟨Or.inl hcnw, Or.inr he⟩
        · rw [if_neg hpc]
          have hcnp : isPunct4 c = false := by simpa using hpc
          obtain ⟨ih1, ih2⟩ := ih cs hcslen (List.chain'_cons'.mp hchain).2
          constructor
          · rw [List.chain'_cons']
            exact ⟨fun y _ => Or.inl hcnw, ih1⟩
          · rw [List.chain'_cons']
            exact ⟨fun y _ => ⟨Or.inl hcnw, Or.inl hcnp⟩, ih2⟩

theorem pclean_chain (l : List Char) (hchain : List.Chain' notWsWs l) :
    List.Chain' notWsWs (pclean l) ∧ List.Chain' noWsPunct (pclean l) :=
  pcleanF_chain l.length l le_rfl hchain

theorem mem_pclean (l : List Char) (c : Char) (h : c ∈ pclean l) : c ∈ l :=
  mem_pcleanF l.length l c h

theorem collapseWsAux_true_eq_false (cs : List Char)
    (h : ∀ d, cs.head? = some d → pySpace d = false) :
    collapseWsAux true cs = collapseWsAux false cs := by
  cases cs with
  | nil => rfl
  | cons d ds =>
    have hd := h d rfl
    unfold collapseWsAux
    rw [if_neg (by simp [hd]), if_neg (by simp [hd])]

theorem collapseWsAux_false_eq_self : ∀ (l : List Char), allWsSpace l →
    List.Chain' notWsWs l → collapseWsAux false l = l := by
  intro l
  induction l with
  | nil =>
    intro _ _
    rfl
  | cons c cs ih =>
    intro hspace hchain
    have htail : collapseWsAux false cs = cs :=
      ih (fun d hd hws => hspace d (List.mem_cons_of_mem _ hd) hws)
        (List.chain'_cons'.mp hchain).2
    unfold collapseWsAux
    by_cases hc : pySpace c = true
    · rw [if_pos hc]
      have hceq : c = ' ' := hspace c (List.mem_cons_self _ _) hc
      have hhead : ∀ d, cs.head? = some d → pySpace d = false := by
        intro d hd
        have hpair := (List.chain'_cons'.mp hchain).1 d hd
        rcases hpair with h1 | h1
        · rw [hc] at h1
          cases h1
        · exact h1
      rw [collapseWsAux_true_eq_false cs hhead, htail, hceq]
      rfl
    · rw [if_neg hc, htail]


theorem collapseWs_eq_self (l : List Char) (hspace : allWsSpace l)
    (hchain : List.Chain' notWsWs l) : collapseWs l = l :=
  collapseWsAux_false_eq_self l hspace hchain

theorem fingerprintL_eq_pipeline (l : List Char) (h : ¬ l = []) :
    fingerprintL l = trimWs (collapseWs (pclean (joinWords
      ((splitWs (bScan hexMatch (bScan decMatch
        (quoteScan (Char.ofNat 34) (quoteScan squote
          (normWs l)))))).map transformWord)))) := by
  unfold fingerprintL
  rw [if_neg h]

theorem notWsWs_symm (a b : Char) (h : notWsWs a b) : notWsWs b a :=
  h.symm

theorem noWsPunct_symm (a b : Char) (h : noWsPunct a b) : noWsPunct b a :=
  ⟨h.2.symm, h.1.symm⟩

theorem pipeline_tail_normal_form (x : List Char) :
    (∀ c, (trimWs (collapseWs (pclean (joinWords
        ((splitWs x).map transformWord))))).head? = some c → pySpace c = false) ∧
    (∀ c, (trimWs (collapseWs (pclean (joinWords
        ((splitWs x).map transformWord))))).getLast? = some c → pySpace c = false) ∧
    List.Chain' notWsWs (trimWs (collapseWs (pclean (joinWords
      ((splitWs x).map transformWord))))) ∧
    List.Chain' noWsPunct (trimWs (collapseWs (pclean (joinWords
      ((splitWs x).map transformWord))))) := by
  have hwords : ∀ w ∈ (splitWs x).map transformWord, w ≠ [] ∧ wsFree w := by
    intro w hw
    rcases List.mem_map.mp hw with ⟨u, hu, rfl⟩
    obtain ⟨hu1, hu2⟩ := splitWs_words x u hu
    exact ⟨transformWord_ne_nil u hu1, transformWord_wsFree u hu2⟩
  have hjchain := joinWords_chain _ hwords
  have hjspace := joinWords_allWsSpace _ hwords
  obtain ⟨hp1, hp2⟩ := pclean_chain _ hjchain
  have hpspace : allWsSpace (pclean (joinWords ((splitWs x).map transformWord))) :=
    fun c hc hws => hjspace c (mem_pclean _ c hc) hws
  rw [collapseWs_eq_self _ hpspace hp1]
  refine ⟨fun c hc => trimWs_head _ c hc, fun c hc => trimWs_getLast _ c hc,
    trimWs_chain notWsWs_symm _ hp1, trimWs_chain noWsPunct_symm _ hp2⟩

theorem fingerprintL_normal_form (l : List Char) :
    (∀ c, (fingerprintL l).head? = some c → pySpace c = false) ∧
    (∀ c, (fingerprintL l).getLast? = some c → pySpace c = false) ∧
    List.Chain' notWsWs (fingerprintL l) ∧
    List.Chain' noWsPunct (fingerprintL l) := by
  by_cases h0 : l = []
  · have : fingerprintL l = [] := by
      unfold fingerprintL
      rw [if_pos h0]
    rw [this]
    refine ⟨?_, ?_, List.chain'_nil, List.chain'_nil⟩
    · intro c hc
      cases hc
    · intro c hc
      cases hc
  · rw [fingerprintL_eq_pipeline l h0]
    exact pipeline_tail_normal_form _

/-! ## Scanner fuel lemmas: the fuel bound is irrelevant once it is at
least the input length. -/

theorem qsplit_suffix_n (q : Char) : ∀ (n : Nat) (cs r : List Char), cs.length ≤ n →
    qsplit q cs = some r → r <:+ cs := by
  intro n
  induction n with
  | zero =>
    intro cs r hn h
    have h0 : cs = [] := List.eq_nil_of_length_eq_zero (Nat.le_zero.mp hn)
    subst h0
    cases h
  | succ n ih =>
    intro cs r hn h
    cases cs with
    | nil => cases h
    | cons c cs2 =>
      unfold qsplit at h
      by_cases hq : c = q
      · rw [if_pos hq] at h
        simp only [Option.some.injEq] at h
        subst h
        exact List.suffix_cons c cs2
      · rw [if_neg hq] at h
        by_cases hb : c = bslash
        · rw [if_pos hb] at h
          cases cs2 with
          | nil => cases h
          | cons d cs3 =>
            have h3 := ih cs3 r
              (by simp only [List.length_cons] at hn ⊢; omega) h
            exact h3.trans ((List.suffix_cons d cs3).trans (List.suffix_cons c (d :: cs3)))
        · rw [if_neg hb] at h
          exact (ih cs2 r (by simp only [List.length_cons] at hn; omega) h).trans
            (List.suffix_cons c cs2)

theorem qsplit_suffix (q : Char) (cs r : List Char) (h : qsplit q cs = some r) :
    r <:+ cs :=
  qsplit_suffix_n q cs.length cs r le_rfl h

theorem qsplit_length (q : Char) (cs r : List Char) (h : qsplit q cs = some r) :
    r.length ≤ cs.length :=
  (qsplit_suffix q cs r h).length_le

theorem quoteScanF_irrel (q : Char) : ∀ (f g : Nat) (l : List Char),
    l.length ≤ f → l.length ≤ g → quoteScanF q f l = quoteScanF q g l := by
  intro f
  induction f with
  | zero =>
    intro g l hf hg
    have h0 : l = [] := List.eq_nil_of_length_eq_zero (Nat.le_zero.mp hf)
    subst h0
    cases g <;> rfl
  | succ f ih =>
    intro g l hf hg
    cases l with
    | nil => cases g <;> rfl
    | cons c cs =>
      cases g with
      | zero => simp at hg
      | succ g2 =>
        simp only [List.length_cons] at hf hg
        unfold quoteScanF
        by_cases hq : c = q
        · rw [if_pos hq, if_pos hq]
          cases hsp : qsplit q cs with
          | some r =>
            dsimp only
            have hr := qsplit_length q cs r hsp
            rw [ih g2 r (by omega) (by omega)]
          | none =>
            dsimp only
            rw [ih g2 cs (by omega) (by omega)]
        · rw [if_neg hq, if_neg hq]
          rw [ih g2 cs (by omega) (by omega)]

theorem quoteScanF_eq_quoteScan (q : Char) (f : Nat) (l : List Char) (hf : l.length ≤ f) :
    quoteScanF q f l = quoteScan q l :=
  quoteScanF_irrel q f l.length l hf le_rfl

theorem bScanF_irrel (m : List Char → Option Nat) : ∀ (f g : Nat) (b : Bool)
    (l : List Char), l.length ≤ f → l.length ≤ g → bScanF m f b l = bScanF m g b l := by
  intro f
  induction f with
  | zero =>
    intro g b l hf hg
    have h0 : l = [] := List.eq_nil_of_length_eq_zero (Nat.le_zero.mp hf)
    subst h0
    cases g <;> rfl
  | succ f ih =>
    intro g b l hf hg
    cases l with
    | nil => cases g <;> rfl
    | cons c cs =>
      cases g with
      | zero => simp at hg
      | succ g2 =>
        simp only [List.length_cons] at hf hg
        unfold bScanF
        by_cases hb : b = true
        · subst hb
          rw [if_pos rfl, if_pos rfl]
          rw [ih g2 _ cs (by omega) (by omega)]
        · have hb2 : b = false := by
            cases b
            · rfl
            · exact absurd rfl hb
          subst hb2
          rw [if_neg (by simp), if_neg (by simp)]
          cases hm : m (c :: cs) with
          | some k =>
            dsimp only
            have hd : (cs.drop (k - 1)).length ≤ cs.length := by
              rw [List.length_drop]
              omega
            rw [ih g2 _ (cs.drop (k - 1)) (by omega) (by omega)]
          | none =>
            dsimp only
            rw [ih g2 _ cs (by omega) (by omega)]

theorem bScanF_eq (m : List Char → Option Nat) (f : Nat) (b : Bool) (l : List Char)
    (hf : l.length ≤ f) : bScanF m f b l = bScanF m l.length b l :=
  bScanF_irrel m f l.length b l hf le_rfl

theorem pcleanF_irrel : ∀ (f g : Nat) (l : List Char),
    l.length ≤ f → l.length ≤ g → pcleanF f l = pcleanF g l := by
  intro f
  induction f with
  | zero =>
    intro g l hf hg
    have h0 : l = [] := List.eq_nil_of_length_eq_zero (Nat.le_zero.mp hf)
    subst h0
    cases g <;> rfl
  | succ f ih =>
    intro g l hf hg
    cases l with
    | nil => cases g <;> rfl
    | cons c cs =>
      cases g with
      | zero => simp at hg
      | succ g2 =>
        simp only [List.length_cons] at hf hg
        unfold pcleanF
        by_cases hc : pySpace c = true
        · rw [if_pos hc, if_pos hc]
          cases hdrop : cs.dropWhile pySpace with
          | nil =>
            dsimp only
            rw [ih g2 cs (by omega) (by omega)]
          | cons p rest =>
            dsimp only
            by_cases hp : isPunct4 p = true
            · rw [if_pos hp, if_pos hp]
              have hlen : (rest.dropWhile pySpace).length ≤ cs.length := by
                have q1 := length_dropWhile_le pySpace rest
                have q2 := length_dropWhile_le pySpace cs
                rw [hdrop] at q2
                simp only [List.length_cons] at q2
                omega
              rw [ih g2 (rest.dropWhile pySpace) (by omega) (by omega)]
            · rw [if_neg hp, if_neg hp]
              rw [ih g2 cs (by omega) (by omega)]
        · rw [if_neg hc, if_neg hc]
          by_cases hp : isPunct4 c = true
          · rw [if_pos hp, if_pos hp]
            have hlen := length_dropWhile_le pySpace cs
            rw [ih g2 (cs.dropWhile pySpace) (by omega) (by omega)]
          · rw [if_neg hp, if_neg hp]
            rw [ih g2 cs (by omega) (by omega)]

theorem pcleanF_eq (f : Nat) (l : List Char) (hf : l.length ≤ f) :
    pcleanF f l = pclean l :=
  pcleanF_irrel f l.length l hf le_rfl

/-! ## Whitespace-stage identities on normal-form strings. -/

theorem dropWhile_eq_self_of_head (p : Char → Bool) (l : List Char)
    (h : ∀ c, l.head? = some c → p c = false) : l.dropWhile p = l := by
  cases l with
  | nil => rfl
  | cons c cs =>
    rw [List.dropWhile_cons, if_neg (by simp [h c rfl])]

theorem trimWs_eq_self (l : List Char)
    (h1 : ∀ c, l.head? = some c → pySpace c = false)
    (h2 : ∀ c, l.getLast? = some c → pySpace c = false) : trimWs l = l := by
  unfold trimWs
  rw [dropWhile_eq_self_of_head pySpace l h1]
  rw [dropWhile_eq_self_of_head pySpace l.reverse
    (fun c hc => h2 c (by rwa [List.head?_reverse] at hc))]
  exact List.reverse_reverse l

theorem mem_collapseWsAux : ∀ (b : Bool) (l : List Char) (c : Char),
    c ∈ collapseWsAux b l → c = ' ' ∨ (c ∈ l ∧ pySpace c = false) := by
  intro b l
  induction l generalizing b with
  | nil =>
    intro c h
    cases h
  | cons d ds ih =>
    intro c h
    unfold collapseWsAux at h
    by_cases hd : pySpace d = true
    · rw [if_pos hd] at h
      by_cases hb : b = true
      · rw [if_pos hb] at h
        rcases ih true c h with h1 | ⟨h2, h3⟩
        · exact Or.inl h1
        · exact Or.inr ⟨List.mem_cons_of_mem _ h2, h3⟩
      · rw [if_neg hb] at h
        rcases List.mem_cons.mp h with rfl | h2
        · exact Or.inl rfl
        · rcases ih true c h2 with h1 | ⟨h3, h4⟩
          · exact Or.inl h1
          · exact Or.inr ⟨List.mem_cons_of_mem _ h3, h4⟩
    · rw [if_neg hd] at h
      rcases List.mem_cons.mp h with rfl | h2
      · exact Or.inr ⟨List.mem_cons_self _ _, by simpa using hd⟩
      · rcases ih false c h2 with h1 | ⟨h3, h4⟩
        · exact Or.inl h1
        · exact Or.inr ⟨List.mem_cons_of_mem _ h3, h4⟩

theorem collapseWs_allWsSpace (l : List Char) : allWsSpace (collapseWs l) := by
  intro c hc hws
  rcases mem_collapseWsAux false l c hc with h1 | ⟨_, h3⟩
  · exact h1
  · rw [h3] at hws
    cases hws

theorem fingerprintL_allWsSpace (l : List Char) : allWsSpace (fingerprintL l) := by
  by_cases h0 : l = []
  · intro c hc
    unfold fingerprintL at hc
    rw [if_pos h0] at hc
    cases hc
  · rw [fingerprintL_eq_pipeline l h0]
    intro c hc hws
    exact collapseWs_allWsSpace _ c (mem_trimWs _ c hc) hws

theorem normWs_eq_self (l : List Char)
    (h1 : ∀ c, l.head? = some c → pySpace c = false)
    (h2 : ∀ c, l.getLast? = some c → pySpace c = false)
    (hsp : allWsSpace l) (hchain : List.Chain' notWsWs l) : normWs l = l := by
  unfold normWs
  rw [trimWs_eq_self l h1 h2]
  exact collapseWs_eq_self l hsp hchain

/-! ## String-literal stage: the no-matchable-quote predicate, its transfer
to the scan being the identity, its establishment by a quote pass, and its
preservation by the other quote pass. -/

/-- No matchable quoted literal anywhere: after every occurrence of the
quote character the close-scan fails. -/
def NoQ (q : Char) (t : List Char) : Prop :=
  ∀ u v, t = u ++ q :: v → qsplit q v = none

theorem noQ_nil (q : Char) : NoQ q [] := by
  intro u v h
  cases u <;> cases h

theorem noQ_cons (q c : Char) (t : List Char) (hc : c = q → qsplit q t = none)
    (ht : NoQ q t) : NoQ q (c :: t) := by
  intro u v h
  cases u with
  | nil =>
    simp only [List.nil_append, List.cons.injEq] at h
    rw [← h.2]
    exact hc h.1
  | cons a u2 =>
    simp only [List.cons_append, List.cons.injEq] at h
    exact ht u2 v h.2

theorem noQ_tail (q c : Char) (t : List Char) (h : NoQ q (c :: t)) : NoQ q t := by
  intro u v huv
  exact h (c :: u) v (by rw [huv]; rfl)

theorem noQ_head (q : Char) (t : List Char) (h : NoQ q (q :: t)) :
    qsplit q t = none :=
  h [] t rfl

theorem noQ_suffix (q : Char) (s t : List Char) (hs : s <:+ t) (h : NoQ q t) :
    NoQ q s := by
  obtain ⟨w, rfl⟩ := hs
  intro u v huv
  exact h (w ++ u) v (by rw [huv, List.append_assoc])

theorem qsplit_none_noQ (q : Char) (_hqb : q ≠ bslash) :
    ∀ (n : Nat) (cs : List Char), cs.length ≤ n → qsplit q cs = none → NoQ q cs := by
  intro n
  induction n with
  | zero =>
    intro cs hn _
    have h0 : cs = [] := List.eq_nil_of_length_eq_zero (Nat.le_zero.mp hn)
    subst h0
    exact noQ_nil q
  | succ n ih =>
    intro cs hn h
    cases cs with
    | nil => exact noQ_nil q
    | cons c cs2 =>
      simp only [List.length_cons] at hn
      unfold qsplit at h
      by_cases hq : c = q
      · rw [if_pos hq] at h
        cases h
      · rw [if_neg hq] at h
        by_cases hb : c = bslash
        · rw [if_pos hb] at h
          cases cs2 with
          | nil =>
            refine noQ_cons q c [] (fun hcq => absurd hcq hq) (noQ_nil q)
          | cons d cs3 =>
            have h3 : qsplit q cs3 = none := h
            have hno3 : NoQ q cs3 := ih cs3 (by simp only [List.length_cons] at hn; omega) h3
            refine noQ_cons q c (d :: cs3) (fun hcq => absurd hcq hq) ?_
            refine noQ_cons q d cs3 (fun _ => h3) hno3
        · rw [if_neg hb] at h
          exact noQ_cons q c cs2 (fun hcq => absurd hcq hq)
            (ih cs2 (by omega) h)

theorem noQ_scan_id (q : Char) : ∀ (fuel : Nat) (l : List Char), l.length ≤ fuel →
    NoQ q l → quoteScanF q fuel l = l := by
  intro fuel
  induction fuel with
  | zero =>
    intro l hl _
    have h0 : l = [] := List.eq_nil_of_length_eq_zero (Nat.le_zero.mp hl)
    subst h0
    rfl
  | succ f ih =>
    intro l hl hno
    cases l with
    | nil => rfl
    | cons c cs =>
      simp only [List.length_cons] at hl
      unfold quoteScanF
      by_cases hq : c = q
      · rw [if_pos hq]
        have hnone : qsplit q cs = none := hno [] cs (by rw [hq]; rfl)
        rw [hnone]
        dsimp only
        rw [ih cs (by omega) (noQ_tail q c cs hno)]
      · rw [if_neg hq]
        rw [ih cs (by omega) (noQ_tail q c cs hno)]

theorem noQ_quoteScan_eq (q : Char) (l : List Char) (h : NoQ q l) :
    quoteScan q l = l :=
  noQ_scan_id q l.length l le_rfl h

theorem qsplit_none_scan_id (q : Char) (hqb : q ≠ bslash) (fuel : Nat) (l : List Char)
    (hl : l.length ≤ fuel) (h : qsplit q l = none) : quoteScanF q fuel l = l :=
  noQ_scan_id q fuel l hl (qsplit_none_noQ q hqb l.length l le_rfl h)

theorem noQ_quoteScanF (q : Char) (hqb : q ≠ bslash) (hq2 : q ≠ '?') :
    ∀ (n : Nat) (x : List Char) (fuel : Nat), x.length ≤ n → x.length ≤ fuel →
    NoQ q (quoteScanF q fuel x) := by
  intro n
  induction n with
  | zero =>
    intro x fuel hn _
    have h0 : x = [] := List.eq_nil_of_length_eq_zero (Nat.le_zero.mp hn)
    subst h0
    cases fuel with
    | zero => exact noQ_nil q
    | succ f => exact noQ_nil q
  | succ n ih =>
    intro x fuel hn hf
    cases x with
    | nil =>
      cases fuel with
      | zero => exact noQ_nil q
      | succ f => exact noQ_nil q
    | cons c cs =>
      cases fuel with
      | zero => simp at hf
      | succ f =>
        simp only [List.length_cons] at hn hf
        unfold quoteScanF
        by_cases hq : c = q
        · rw [if_pos hq]
          cases hsp : qsplit q cs with
          | some r =>
            dsimp only
            have hr := qsplit_length q cs r hsp
            refine noQ_cons q _ _ (fun habs => absurd habs.symm hq2) ?_
            exact ih r f (by omega) (by omega)
          | none =>
            dsimp only
            rw [qsplit_none_scan_id q hqb f cs (by omega) hsp]
            exact noQ_cons q c cs (fun _ => hsp)
              (qsplit_none_noQ q hqb cs.length cs le_rfl hsp)
        · rw [if_neg hq]
          exact noQ_cons q c _ (fun hcq => absurd hcq hq)
            (ih cs f (by omega) (by omega))

theorem noQ_quoteScan (q : Char) (hqb : q ≠ bslash) (hq2 : q ≠ '?') (x : List Char) :
    NoQ q (quoteScan q x) :=
  noQ_quoteScanF q hqb hq2 x.length x x.length le_rfl le_rfl

theorem qsplit_cross (q1 q2 : Char) (h1 : q1 ≠ q2) (h2b : q2 ≠ bslash) :
    ∀ (n : Nat) (u rest : List Char), u.length ≤ n → qsplit q2 u = some rest →
    qsplit q1 u = none → qsplit q1 rest = none := by
  intro n
  induction n with
  | zero =>
    intro u rest hn hsome _
    have h0 : u = [] := List.eq_nil_of_length_eq_zero (Nat.le_zero.mp hn)
    subst h0
    cases hsome
  | succ n ih =>
    intro u rest hn hsome hnone
    cases u with
    | nil => cases hsome
    | cons c u2 =>
      simp only [List.length_cons] at hn
      unfold qsplit at hsome hnone
      by_cases hc2 : c = q2
      · subst hc2
        rw [if_pos rfl] at hsome
        simp only [Option.some.injEq] at hsome
        subst hsome
        rw [if_neg (fun h => h1 h.symm), if_neg h2b] at hnone
        exact hnone
      · rw [if_neg hc2] at hsome
        by_cases hc1 : c = q1
        · rw [if_pos hc1] at hnone
          cases hnone
        · rw [if_neg hc1] at hnone
          by_cases hcb : c = bslash
          · rw [if_pos hcb] at hsome hnone
            cases u2 with
            | nil => cases hsome
            | cons d u3 =>
              exact ih u3 rest (by simp only [List.length_cons] at hn; omega) hsome hnone
          · rw [if_neg hcb] at hsome hnone
            exact ih u2 rest (by omega) hsome hnone
theorem qsplit_bslash_cons (q d : Char) (t : List Char) (hq : bslash ≠ q) :
    qsplit q (bslash :: d :: t) = qsplit q t := by
  conv_lhs => unfold qsplit
  rw [if_neg (fun h => hq h), if_pos rfl]

theorem qsplit_other_cons (q c : Char) (t : List Char) (h1 : ¬ c = q)
    (h2 : ¬ c = bslash) : qsplit q (c :: t) = qsplit q t := by
  conv_lhs => unfold qsplit
  rw [if_neg h1, if_neg h2]

theorem qsplit_bslash_nil (q : Char) (h : ¬ bslash = q) :
    qsplit q [bslash] = none := by
  conv_lhs => unfold qsplit
  rw [if_neg h, if_pos rfl]

theorem quoteScanF_nil (q : Char) (fuel : Nat) : quoteScanF q fuel [] = [] := by
  cases fuel <;> rfl

theorem qsplit_none_otherScan (sq dq : Char) (hne : sq ≠ dq) (hsb : dq ≠ bslash)
    (hsq : sq ≠ '?') (hqb : ('?' : Char) ≠ bslash) :
    ∀ (n : Nat) (cs : List Char) (fuel : Nat), cs.length ≤ n → cs.length ≤ fuel →
    qsplit sq cs = none → qsplit sq (quoteScanF dq fuel cs) = none := by
  intro n
  induction n with
  | zero =>
    intro cs fuel hn _ _
    have h0 : cs = [] := List.eq_nil_of_length_eq_zero (Nat.le_zero.mp hn)
    subst h0
    rw [quoteScanF_nil]
    rfl
  | succ n ih =>
    intro cs fuel hn hf hnone
    cases cs with
    | nil =>
      rw [quoteScanF_nil]
      rfl
    | cons c cs2 =>
      cases fuel with
      | zero => simp at hf
      | succ f =>
        simp only [List.length_cons] at hn hf
        by_cases hcsq : c = sq
        · exfalso
          unfold qsplit at hnone
          rw [if_pos hcsq] at hnone
          cases hnone
        · by_cases hcb : c = bslash
          · subst hcb
            unfold quoteScanF
            rw [if_neg (fun h => hsb h.symm)]
            cases cs2 with
            | nil =>
              rw [quoteScanF_nil]
              exact qsplit_bslash_nil sq hcsq
            | cons d cs3 =>
              have hn3 : qsplit sq cs3 = none := by
                rwa [qsplit_bslash_cons sq d cs3 hcsq] at hnone
              cases f with
              | zero => simp at hf
              | succ f2 =>
                simp only [List.length_cons] at hn hf
                unfold quoteScanF
                by_cases hddq : d = dq
                · rw [if_pos hddq]
                  cases hsp : qsplit dq cs3 with
                  | some r =>
                    dsimp only
                    have hrnone : qsplit sq r = none :=
                      qsplit_cross sq dq hne hsb cs3.length cs3 r le_rfl hsp hn3
                    have hr := qsplit_length dq cs3 r hsp
                    show qsplit sq (bslash :: '?' :: quoteScanF dq f2 r) = none
                    rw [qsplit_bslash_cons sq _ _ hcsq]
                    exact ih r f2 (by omega) (by omega) hrnone
                  | none =>
                    dsimp only
                    show qsplit sq (bslash :: d :: quoteScanF dq f2 cs3) = none
                    rw [qsplit_bslash_cons sq _ _ hcsq]
                    exact ih cs3 f2 (by omega) (by omega) hn3
                · rw [if_neg hddq]
                  show qsplit sq (bslash :: d :: quoteScanF dq f2 cs3) = none
                  rw [qsplit_bslash_cons sq _ _ hcsq]
                  exact ih cs3 f2 (by omega) (by omega) hn3
          · have hn2 : qsplit sq cs2 = none := by
              rwa [qsplit_other_cons sq c cs2 hcsq hcb] at hnone
            unfold quoteScanF
            by_cases hcdq : c = dq
            · rw [if_pos hcdq]
              cases hsp : qsplit dq cs2 with
              | some r =>
                dsimp only
                have hrnone : qsplit sq r = none :=
                  qsplit_cross sq dq hne hsb cs2.length cs2 r le_rfl hsp hn2
                have hr := qsplit_length dq cs2 r hsp
                rw [qsplit_other_cons sq '?' _ (fun h => hsq h.symm) hqb]
                exact ih r f (by omega) (by omega) hrnone
              | none =>
                dsimp only
                rw [qsplit_other_cons sq c _ hcsq hcb]
                exact ih cs2 f (by omega) (by omega) hn2
            · rw [if_neg hcdq]
              rw [qsplit_other_cons sq c _ hcsq hcb]
              exact ih cs2 f (by omega) (by omega) hn2

theorem noQ_otherScan (sq dq : Char) (hne : sq ≠ dq) (hsb : dq ≠ bslash)
    (hsq : sq ≠ '?') (hqb : ('?' : Char) ≠ bslash) :
    ∀ (n : Nat) (t : List Char) (fuel : Nat), t.length ≤ n → t.length ≤ fuel →
    NoQ sq t → NoQ sq (quoteScanF dq fuel t) := by
  intro n
  induction n with
  | zero =>
    intro t fuel hn _ _
    have h0 : t = [] := List.eq_nil_of_length_eq_zero (Nat.le_zero.mp hn)
    subst h0
    rw [quoteScanF_nil]
    exact noQ_nil sq
  | succ n ih =>
    intro t fuel hn hf hno
    cases t with
    | nil =>
      rw [quoteScanF_nil]
      exact noQ_nil sq
    | cons c cs =>
      cases fuel with
      | zero => simp at hf
      | succ f =>
        simp only [List.length_cons] at hn hf
        unfold quoteScanF
        by_cases hcdq : c = dq
        · rw [if_pos hcdq]
          cases hsp : qsplit dq cs with
          | some r =>
            dsimp only
            have hr := qsplit_length dq cs r hsp
            refine noQ_cons sq _ _ (fun habs => absurd habs.symm hsq) ?_
            refine ih r f (by omega) (by omega) ?_
            exact noQ_suffix sq r cs (qsplit_suffix dq cs r hsp) (noQ_tail sq c cs hno)
          | none =>
            dsimp only
            refine noQ_cons sq c _
              (fun habs => absurd (habs.symm.trans hcdq) hne) ?_
            exact ih cs f (by omega) (by omega) (noQ_tail sq c cs hno)
        · rw [if_neg hcdq]
          by_cases hcsq : c = sq
          · refine noQ_cons sq c _ (fun _ => ?_) ?_
            · have hcs : qsplit sq cs = none := hno [] cs (by rw [hcsq]; rfl)
              exact qsplit_none_otherScan sq dq hne hsb hsq hqb cs.length cs f
                le_rfl (by omega) hcs
            · exact ih cs f (by omega) (by omega) (noQ_tail sq c cs hno)
          · refine noQ_cons sq c _ (fun habs => absurd habs hcsq) ?_
            exact ih cs f (by omega) (by omega) (noQ_tail sq c cs hno)

/-! ## Simulation relations: the later pipeline stages transform a string
by replacing spans with a question mark, by uppercasing characters, or by
deleting punctuation-adjacent spaces.  Each relation preserves the
no-matchable-quote predicate. -/

/-- Span replacement: disjoint nonempty spans whose characters satisfy P
each become a single question mark. -/
inductive SpanRel (P : Char → Prop) : List Char → List Char → Prop
  | nil : SpanRel P [] []
  | keep (c : Char) {t t2 : List Char} : SpanRel P t t2 → SpanRel P (c :: t) (c :: t2)
  | rep (span : List Char) {t t2 : List Char} (hne : span ≠ [])
      (hP : ∀ c ∈ span, P c) : SpanRel P t t2 → SpanRel P (span ++ t) ('?' :: t2)

/-- Case mapping: each character stays or is replaced by its uppercase. -/
inductive CaseRel : List Char → List Char → Prop
  | nil : CaseRel [] []
  | same (c : Char) {t t2 : List Char} : CaseRel t t2 → CaseRel (c :: t) (c :: t2)
  | up (c : Char) {t t2 : List Char} : CaseRel t t2 → CaseRel (c :: t) (c.toUpper :: t2)

/-- Space deletion as performed by the punctuation cleanup: a whitespace
run after a kept punctuation character is dropped, and a whitespace
character whose next retained character is punctuation is dropped. -/
inductive DelRel : List Char → List Char → Prop
  | nil : DelRel [] []
  | keep (c : Char) {t t2 : List Char} : DelRel t t2 → DelRel (c :: t) (c :: t2)
  | keepPunct (c : Char) (sps : List Char) {t t2 : List Char} (hc : isPunct4 c = true)
      (hs : ∀ x ∈ sps, pySpace x = true) :
      DelRel t t2 → DelRel (c :: (sps ++ t)) (c :: t2)
  | delBefore (c : Char) {t t2 : List Char} (hc : pySpace c = true)
      (hp : ∃ p, t2.head? = some p ∧ isPunct4 p = true) :
      DelRel t t2 → DelRel (c :: t) t2

theorem qsplit_plain_append (q : Char) : ∀ (r s : List Char),
    (∀ c ∈ r, ¬ c = q ∧ ¬ c = bslash) → qsplit q (r ++ s) = qsplit q s := by
  intro r
  induction r with
  | nil =>
    intro s _
    rfl
  | cons c r2 ih =>
    intro s h
    have hc := h c (List.mem_cons_self _ _)
    rw [List.cons_append, qsplit_other_cons q c _ hc.1 hc.2]
    exact ih s (fun d hd => h d (List.mem_cons_of_mem _ hd))

theorem spanRel_nil_left (P : Char → Prop) (t2 : List Char)
    (h : SpanRel P [] t2) : t2 = [] := by
  have aux : ∀ u u2, SpanRel P u u2 → u = [] → u2 = [] := by
    intro u u2 hr
    induction hr with
    | nil => intro _; rfl
    | keep c h2 ih => intro habs; cases habs
    | rep span hne hP h2 ih =>
      intro habs
      exact absurd (List.append_eq_nil.mp habs).1 hne
  exact aux [] t2 h rfl

theorem spanRel_nil_right (P : Char → Prop) (t : List Char)
    (h : SpanRel P t []) : t = [] := by
  cases h with
  | nil => rfl

theorem spanRel_length_le (P : Char → Prop) :
    ∀ {t t2 : List Char}, SpanRel P t t2 → t2.length ≤ t.length := by
  intro t t2 h
  induction h with
  | nil => exact le_rfl
  | keep c h2 ih => simpa using ih
  | rep span hne hP h2 ih =>
    rename_i t t2'
    simp only [List.length_cons, List.length_append]
    cases span with
    | nil => exact absurd rfl hne
    | cons a sp2 =>
      simp only [List.length_cons]
      omega

theorem spanRel_qsplit_sim (q : Char) (hq : ¬ q = '?') (hqb : ¬ ('?' : Char) = bslash)
    (P : Char → Prop) (hP : ∀ c, P c → ¬ c = q ∧ ¬ c = bslash) :
    ∀ (n : Nat) (t t2 : List Char), t.length ≤ n → SpanRel P t t2 →
    (qsplit q t = none ↔ qsplit q t2 = none) := by
  intro n
  induction n with
  | zero =>
    intro t t2 hn h
    have h0 : t = [] := List.eq_nil_of_length_eq_zero (Nat.le_zero.mp hn)
    subst h0
    rw [spanRel_nil_left P t2 h]
  | succ n ih =>
    intro t t2 hn h
    cases h with
    | nil => exact Iff.rfl
    | keep c h2 =>
      rename_i s s2
      simp only [List.length_cons] at hn
      by_cases hcq : c = q
      · subst hcq
        constructor
        · intro habs
          unfold qsplit at habs
          rw [if_pos rfl] at habs
          cases habs
        · intro habs
          unfold qsplit at habs
          rw [if_pos rfl] at habs
          cases habs
      · by_cases hcb : c = bslash
        · subst hcb
          cases h2 with
          | nil => simp
          | keep d h3 =>
            rename_i u u2
            rw [qsplit_bslash_cons q d u (fun hh => hcq hh),
              qsplit_bslash_cons q d u2 (fun hh => hcq hh)]
            exact ih u u2 (by simp only [List.length_cons] at hn; omega) h3
          | rep span hne hPs h3 =>
            rename_i u u2
            cases span with
            | nil => exact absurd rfl hne
            | cons e sp2 =>
              rw [show (e :: sp2) ++ u = e :: (sp2 ++ u) from rfl]
              rw [qsplit_bslash_cons q e _ (fun hh => hcq hh)]
              rw [qsplit_plain_append q sp2 u
                (fun d hd => hP d (hPs d (List.mem_cons_of_mem _ hd)))]
              rw [qsplit_bslash_cons q _ _ (fun hh => hcq hh)]
              exact ih u u2
                (by simp only [List.length_append, List.length_cons] at hn ⊢; omega) h3
        · rw [qsplit_other_cons q c _ hcq hcb, qsplit_other_cons q c _ hcq hcb]
          exact ih _ _ (by omega) h2
    | rep span hne hPs h2 =>
      rename_i s s2
      rw [qsplit_plain_append q span s (fun d hd => hP d (hPs d hd))]
      rw [qsplit_other_cons q '?' s2 (fun hh => hq hh.symm) hqb]
      cases span with
      | nil => exact absurd rfl hne
      | cons e sp2 =>
        refine ih s s2 ?_ h2
        simp only [List.length_append, List.length_cons] at hn
        omega

theorem spanRel_noQ (q : Char) (hq : ¬ q = '?') (hqb : ¬ ('?' : Char) = bslash)
    (P : Char → Prop) (hP : ∀ c, P c → ¬ c = q ∧ ¬ c = bslash) :
    ∀ {t t2 : List Char}, SpanRel P t t2 → NoQ q t → NoQ q t2 := by
  intro t t2 h
  induction h with
  | nil =>
    intro _
    exact noQ_nil q
  | keep c h2 ih =>
    rename_i s s2
    intro hno
    refine noQ_cons q c s2 ?_ (ih (noQ_tail q c s hno))
    intro hcq
    have hs : qsplit q s = none := hno [] s (by rw [hcq]; rfl)
    exact (spanRel_qsplit_sim q hq hqb P hP s.length s s2 le_rfl h2).mp hs
  | rep span hne hPs h2 ih =>
    rename_i s s2
    intro hno
    refine noQ_cons q '?' s2 (fun habs => absurd habs.symm hq) ?_
    refine ih (noQ_suffix q s _ ⟨span, rfl⟩ hno)
theorem toUpper_eq_iff (c q : Char) (h1 : ¬(65 ≤ q.toNat ∧ q.toNat ≤ 90))
    (h2 : ¬(97 ≤ q.toNat ∧ q.toNat ≤ 122)) : (c.toUpper = q ↔ c = q) := by
  by_cases hc : 97 ≤ c.toNat ∧ c.toNat ≤ 122
  · have hu := toUpper_toNat_lower c hc.1 hc.2
    constructor
    · intro h
      rw [char_eq_iff_toNat, hu] at h
      exact absurd (by omega : 65 ≤ q.toNat ∧ q.toNat ≤ 90) h1
    · intro h
      rw [char_eq_iff_toNat] at h
      exact absurd (by omega : 97 ≤ q.toNat ∧ q.toNat ≤ 122) h2
  · rw [toUpper_eq_self c hc]

theorem caseRel_nil_left (t2 : List Char) (h : CaseRel [] t2) : t2 = [] := by
  cases h
  rfl

theorem caseRel_qsplit_sim (q : Char) (h1 : ¬(65 ≤ q.toNat ∧ q.toNat ≤ 90))
    (h2 : ¬(97 ≤ q.toNat ∧ q.toNat ≤ 122)) (hqb : ¬ q = bslash) :
    ∀ (n : Nat) (t t2 : List Char), t.length ≤ n → CaseRel t t2 →
    (qsplit q t = none ↔ qsplit q t2 = none) := by
  have hbU : ∀ c : Char, c.toUpper = bslash ↔ c = bslash := by
    intro c
    exact toUpper_eq_iff c bslash (by decide) (by decide)
  intro n
  induction n with
  | zero =>
    intro t t2 hn h
    have h0 : t = [] := List.eq_nil_of_length_eq_zero (Nat.le_zero.mp hn)
    subst h0
    rw [caseRel_nil_left t2 h]
  | succ n ih =>
    intro t t2 hn h
    have hstep : ∀ (c c2 : Char) (u u2 : List Char), (c :: u).length ≤ n + 1 →
        CaseRel u u2 → (c = q ↔ c2 = q) → (c = bslash ↔ c2 = bslash) →
        (qsplit q (c :: u) = none ↔ qsplit q (c2 :: u2) = none) := by
      intro c c2 u u2 hlen hrel hiq hib
      simp only [List.length_cons] at hlen
      by_cases hcq : c = q
      · subst hcq
        obtain rfl : c2 = c := hiq.mp rfl
        constructor
        · intro habs
          unfold qsplit at habs
          rw [if_pos rfl] at habs
          cases habs
        · intro habs
          unfold qsplit at habs
          rw [if_pos rfl] at habs
          cases habs
      · have hc2q : ¬ c2 = q := fun hh => hcq (hiq.mpr hh)
        by_cases hcb : c = bslash
        · obtain rfl : c2 = bslash := hib.mp hcb
          subst hcb
          cases hrel with
          | nil => rw [qsplit_bslash_nil q (fun hh => hcq hh)]
          | same d h3 =>
            rename_i v v2
            rw [qsplit_bslash_cons q d v (fun hh => hcq hh),
              qsplit_bslash_cons q d v2 (fun hh => hcq hh)]
            exact ih v v2 (by simp only [List.length_cons] at hlen; omega) h3
          | up d h3 =>
            rename_i v v2
            rw [qsplit_bslash_cons q d v (fun hh => hcq hh),
              qsplit_bslash_cons q d.toUpper v2 (fun hh => hcq hh)]
            exact ih v v2 (by simp only [List.length_cons] at hlen; omega) h3
        · have hc2b : ¬ c2 = bslash := fun hh => hcb (hib.mpr hh)
          rw [qsplit_other_cons q c u hcq hcb, qsplit_other_cons q c2 u2 hc2q hc2b]
          exact ih u u2 (by omega) hrel
    cases h with
    | nil => exact Iff.rfl
    | same c h3 => exact hstep c c _ _ hn h3 Iff.rfl Iff.rfl
    | up c h3 =>
      exact hstep c c.toUpper _ _ hn h3
        (Iff.symm (toUpper_eq_iff c q h1 h2)) (Iff.symm (hbU c))

theorem caseRel_noQ (q : Char) (h1 : ¬(65 ≤ q.toNat ∧ q.toNat ≤ 90))
    (h2 : ¬(97 ≤ q.toNat ∧ q.toNat ≤ 122)) (hqb : ¬ q = bslash) :
    ∀ {t t2 : List Char}, CaseRel t t2 → NoQ q t → NoQ q t2 := by
  intro t t2 h
  induction h with
  | nil =>
    intro _
    exact noQ_nil q
  | same c h3 ih =>
    rename_i u u2
    intro hno
    refine noQ_cons q c u2 ?_ (ih (noQ_tail q c u hno))
    intro hcq
    have hs : qsplit q u = none := hno [] u (by rw [hcq]; rfl)
    exact (caseRel_qsplit_sim q h1 h2 hqb u.length u u2 le_rfl h3).mp hs
  | up c h3 ih =>
    rename_i u u2
    intro hno
    refine noQ_cons q c.toUpper u2 ?_ (ih (noQ_tail q c u hno))
    intro hcq
    have hcq2 : c = q := (toUpper_eq_iff c q h1 h2).mp hcq
    have hs : qsplit q u = none := hno [] u (by rw [hcq2]; rfl)
    exact (caseRel_qsplit_sim q h1 h2 hqb u.length u u2 le_rfl h3).mp hs

theorem delRel_nil_left (t2 : List Char) (h : DelRel [] t2) : t2 = [] := by
  cases h
  rfl

theorem delRel_qsplit_sim (q : Char) (hq1 : pySpace q = false) (hq2 : isPunct4 q = false) :
    ∀ (n : Nat) (t t2 : List Char), t.length ≤ n → DelRel t t2 →
    (qsplit q t = none ↔ qsplit q t2 = none) := by
  have hsp : ∀ c : Char, pySpace c = true → ¬ c = q ∧ ¬ c = bslash := by
    intro c hc
    constructor
    · intro hh
      rw [hh, hq1] at hc
      cases hc
    · intro hh
      rw [hh] at hc
      exact absurd hc (by decide)
  have hpu : ∀ c : Char, isPunct4 c = true → ¬ c = q ∧ ¬ c = bslash := by
    intro c hc
    constructor
    · intro hh
      rw [hh, hq2] at hc
      cases hc
    · intro hh
      rw [hh] at hc
      exact absurd hc (by decide)
  intro n
  induction n with
  | zero =>
    intro t t2 hn h
    have h0 : t = [] := List.eq_nil_of_length_eq_zero (Nat.le_zero.mp hn)
    subst h0
    rw [delRel_nil_left t2 h]
  | succ n ih =>
    intro t t2 hn h
    cases h with
    | nil => exact Iff.rfl
    | keep c h2 =>
      rename_i u u2
      simp only [List.length_cons] at hn
      by_cases hcq : c = q
      · subst hcq
        constructor
        · intro habs
          unfold qsplit at habs
          rw [if_pos rfl] at habs
          cases habs
        · intro habs
          unfold qsplit at habs
          rw [if_pos rfl] at habs
          cases habs
      · by_cases hcb : c = bslash
        · subst hcb
          cases h2 with
          | nil => rw [qsplit_bslash_nil q (fun hh => hcq hh)]
          | keep d h3 =>
            rename_i v v2
            rw [qsplit_bslash_cons q d v (fun hh => hcq hh),
              qsplit_bslash_cons q d v2 (fun hh => hcq hh)]
            exact ih v v2 (by simp only [List.length_cons] at hn; omega) h3
          | keepPunct p sps hc hs h3 =>
            rename_i v v2
            rw [qsplit_bslash_cons q p _ (fun hh => hcq hh),
              qsplit_bslash_cons q p v2 (fun hh => hcq hh)]
            rw [qsplit_plain_append q sps v (fun d hd => hsp d (hs d hd))]
            refine ih v v2 ?_ h3
            simp only [List.length_cons, List.length_append] at hn
            omega
          | delBefore d hd hp h3 =>
            rename_i v
            obtain ⟨p, hph, hppu⟩ := hp
            cases u2 with
            | nil => cases hph
            | cons p2 w =>
              have hpe : p2 = p := by simpa using hph
              have hppu2 : isPunct4 p2 = true := by rw [hpe]; exact hppu
              rw [qsplit_bslash_cons q d v (fun hh => hcq hh),
                qsplit_bslash_cons q p2 w (fun hh => hcq hh)]
              have hiv := ih v (p2 :: w) (by simp only [List.length_cons] at hn; omega) h3
              rw [qsplit_other_cons q p2 w (hpu p2 hppu2).1 (hpu p2 hppu2).2] at hiv
              exact hiv
        · rw [qsplit_other_cons q c u hcq hcb, qsplit_other_cons q c u2 hcq hcb]
          exact ih u u2 (by omega) h2
    | keepPunct c sps hc hs h2 =>
      rename_i u u2
      rw [qsplit_other_cons q c _ (hpu c hc).1 (hpu c hc).2,
        qsplit_other_cons q c u2 (hpu c hc).1 (hpu c hc).2]
      rw [qsplit_plain_append q sps u (fun d hd => hsp d (hs d hd))]
      refine ih u u2 ?_ h2
      simp only [List.length_cons, List.length_append] at hn
      omega
    | delBefore c hc hp h2 =>
      rename_i u
      rw [qsplit_other_cons q c u (hsp c hc).1 (hsp c hc).2]
      refine ih u t2 ?_ h2
      simp only [List.length_cons] at hn
      omega

theorem delRel_noQ (q : Char) (hq1 : pySpace q = false) (hq2 : isPunct4 q = false) :
    ∀ {t t2 : List Char}, DelRel t t2 → NoQ q t → NoQ q t2 := by
  intro t t2 h
  induction h with
  | nil =>
    intro _
    exact noQ_nil q
  | keep c h2 ih =>
    rename_i u u2
    intro hno
    refine noQ_cons q c u2 ?_ (ih (noQ_tail q c u hno))
    intro hcq
    have hs : qsplit q u = none := hno [] u (by rw [hcq]; rfl)
    exact (delRel_qsplit_sim q hq1 hq2 u.length u u2 le_rfl h2).mp hs
  | keepPunct c sps hc hs h2 ih =>
    rename_i u u2
    intro hno
    refine noQ_cons q c u2 ?_ ?_
    · intro hcq
      rw [hcq, hq2] at hc
      cases hc
    · exact ih (noQ_suffix q u _ ⟨c :: sps, rfl⟩ hno)
  | delBefore c hc hp h2 ih =>
    rename_i u u2
    intro hno
    exact ih (noQ_tail q c u hno)

/-- Characters that can appear inside a numeric-literal match: digits, the
decimal dot, hexadecimal digits and the hexadecimal prefix letters. -/
def numChar (c : Char) : Prop :=
  Char.isDigit c = true ∨ c = '.' ∨ isHexB c = true ∨ c = 'x' ∨ c = 'X'

theorem isDigit_toNat (c : Char) (h : Char.isDigit c = true) :
    48 ≤ c.toNat ∧ c.toNat ≤ 57 := by
  simp only [Char.isDigit, decide_eq_true_eq, Bool.and_eq_true] at h
  exact ⟨h.1, h.2⟩

theorem isHexB_toNat (c : Char) (h : isHexB c = true) :
    (48 ≤ c.toNat ∧ c.toNat ≤ 57) ∨ (97 ≤ c.toNat ∧ c.toNat ≤ 102) ∨
    (65 ≤ c.toNat ∧ c.toNat ≤ 70) := by
  unfold isHexB at h
  simp only [Bool.or_eq_true, Bool.and_eq_true, decide_eq_true_eq] at h
  rcases h with (h | ⟨h1, h2⟩) | ⟨h1, h2⟩
  · exact Or.inl (isDigit_toNat c h)
  · exact Or.inr (Or.inl ⟨h1, h2⟩)
  · exact Or.inr (Or.inr ⟨h1, h2⟩)

theorem numChar_toNat (c : Char) (h : numChar c) :
    (48 ≤ c.toNat ∧ c.toNat ≤ 57) ∨ c.toNat = 46 ∨ (97 ≤ c.toNat ∧ c.toNat ≤ 102) ∨
    (65 ≤ c.toNat ∧ c.toNat ≤ 70) ∨ c.toNat = 120 ∨ c.toNat = 88 := by
  rcases h with h | h | h | h | h
  · exact Or.inl (isDigit_toNat c h)
  · rw [h]
    exact Or.inr (Or.inl rfl)
  · rcases isHexB_toNat c h with h2 | h2 | h2
    · exact Or.inl h2
    · exact Or.inr (Or.inr (Or.inl h2))
    · exact Or.inr (Or.inr (Or.inr (Or.inl h2)))
  · rw [h]
    exact Or.inr (Or.inr (Or.inr (Or.inr (Or.inl rfl))))
  · rw [h]
    exact Or.inr (Or.inr (Or.inr (Or.inr (Or.inr rfl))))

theorem numChar_not_squote (c : Char) (h : numChar c) : ¬ c = squote ∧ ¬ c = bslash := by
  have hb := numChar_toNat c h
  constructor
  · intro hh
    rw [char_eq_iff_toNat] at hh
    rw [show squote.toNat = 39 from by decide] at hh
    omega
  · intro hh
    rw [char_eq_iff_toNat] at hh
    rw [show bslash.toNat = 92 from by decide] at hh
    omega

theorem numChar_not_dquote (c : Char) (h : numChar c) :
    ¬ c = Char.ofNat 34 ∧ ¬ c = bslash := by
  have hb := numChar_toNat c h
  constructor
  · intro hh
    rw [char_eq_iff_toNat] at hh
    rw [show (Char.ofNat 34).toNat = 34 from by decide] at hh
    omega
  · intro hh
    rw [char_eq_iff_toNat] at hh
    rw [show bslash.toNat = 92 from by decide] at hh
    omega

theorem digitRun_take (l : List Char) :
    ∀ c ∈ l.take (digitRun l), Char.isDigit c = true := by
  intro c hc
  have he : l.take (digitRun l) = l.takeWhile Char.isDigit :=
    (List.prefix_iff_eq_take.mp (List.takeWhile_prefix _)).symm
  rw [he] at hc
  exact List.mem_takeWhile_imp hc

theorem decMatch_eq (u : List Char) : decMatch u =
    (if digitRun u = 0 then none
     else match u.drop (digitRun u) with
     | dot :: r2 =>
       if dot = '.' then
         if 0 < digitRun r2 then
           if headIsWord (r2.drop (digitRun r2)) then some (digitRun u + 1)
           else some (digitRun u + 1 + digitRun r2)
         else
           if headIsWord r2 then some (digitRun u + 1) else some (digitRun u)
       else if isWordB dot then none else some (digitRun u)
     | [] => some (digitRun u)) := rfl

theorem decMatch_span (u : List Char) (k : Nat) (h : decMatch u = some k) :
    1 ≤ k ∧ ∀ c ∈ u.take k, numChar c := by
  rw [decMatch_eq] at h
  by_cases h0 : digitRun u = 0
  · rw [if_pos h0] at h
    cases h
  · rw [if_neg h0] at h
    have hd1 : ∀ c ∈ u.take (digitRun u), numChar c :=
      fun c hc => Or.inl (digitRun_take u c hc)
    cases hdrop : u.drop (digitRun u) with
    | nil =>
      rw [hdrop] at h
      dsimp only at h
      simp only [Option.some.injEq] at h
      subst h
      exact ⟨by omega, hd1⟩
    | cons dot r2 =>
      rw [hdrop] at h
      dsimp only at h
      have hdot1 : ∀ c ∈ u.take (digitRun u + 1), c ∈ u.take (digitRun u) ∨ c = dot := by
        intro c hc
        rw [List.take_add, hdrop] at hc
        rcases List.mem_append.mp hc with hc2 | hc2
        · exact Or.inl hc2
        · simp only [List.take_succ_cons, List.take_zero, List.mem_singleton] at hc2
          exact Or.inr hc2
      by_cases hdq : dot = '.'
      · rw [if_pos hdq] at h
        have hdotnum : ∀ c ∈ u.take (digitRun u + 1), numChar c := by
          intro c hc
          rcases hdot1 c hc with hc2 | hc2
          · exact hd1 c hc2
          · rw [hc2, hdq]
            exact Or.inr (Or.inl rfl)
        by_cases hd2 : 0 < digitRun r2
        · rw [if_pos hd2] at h
          by_cases hw : headIsWord (r2.drop (digitRun r2)) = true
          · rw [if_pos hw] at h
            simp only [Option.some.injEq] at h
            subst h
            exact ⟨by omega, hdotnum⟩
          · rw [if_neg hw] at h
            simp only [Option.some.injEq] at h
            subst h
            refine ⟨by omega, ?_⟩
            intro c hc
            rw [List.take_add, List.mem_append] at hc
            rcases hc with hc2 | hc2
            · exact hdotnum c hc2
            · have hdd : u.drop (digitRun u + 1) = r2 := by
                rw [← List.drop_drop 1 (digitRun u) u, hdrop]
                rfl
              rw [hdd] at hc2
              exact Or.inl (digitRun_take r2 c hc2)
        · rw [if_neg hd2] at h
          by_cases hw : headIsWord r2 = true
          · rw [if_pos hw] at h
            simp only [Option.some.injEq] at h
            subst h
            exact ⟨by omega, hdotnum⟩
          · rw [if_neg hw] at h
            simp only [Option.some.injEq] at h
            subst h
            exact ⟨by omega, hd1⟩
      · rw [if_neg hdq] at h
        by_cases hw : isWordB dot = true
        · rw [if_pos hw] at h
          cases h
        · rw [if_neg hw] at h
          simp only [Option.some.injEq] at h
          subst h
          exact ⟨by omega, hd1⟩

theorem hexMatch_span (u : List Char) (k : Nat) (h : hexMatch u = some k) :
    1 ≤ k ∧ ∀ c ∈ u.take k, numChar c := by
  cases u with
  | nil => cases h
  | cons c0 u1 =>
    cases u1 with
    | nil => cases h
    | cons c1 cs =>
      unfold hexMatch at h
      dsimp only at h
      by_cases hp : (c0 = '0' && (c1 = 'x' || c1 = 'X')) = true
      · rw [if_pos hp] at h
        by_cases hz : (cs.takeWhile isHexB).length = 0
        · rw [if_pos hz] at h
          cases h
        · rw [if_neg hz] at h
          by_cases hw : headIsWord (cs.drop (cs.takeWhile isHexB).length) = true
          · rw [if_pos hw] at h
            cases h
          · rw [if_neg hw] at h
            simp only [Option.some.injEq] at h
            subst h
            simp only [Bool.and_eq_true, Bool.or_eq_true, decide_eq_true_eq] at hp
            refine ⟨by omega, ?_⟩
            intro c hc
            rw [show (2 + (cs.takeWhile isHexB).length) =
              ((cs.takeWhile isHexB).length + 1) + 1 from by omega] at hc
            simp only [List.take_succ_cons, List.mem_cons] at hc
            rcases hc with hc2 | hc2 | hc2
            · rw [hc2, hp.1]
              exact Or.inl (by decide)
            · rcases hp.2 with hx | hx
              · rw [hc2, hx]
                exact Or.inr (Or.inr (Or.inr (Or.inl rfl)))
              · rw [hc2, hx]
                exact Or.inr (Or.inr (Or.inr (Or.inr rfl)))
            · have he : cs.take (cs.takeWhile isHexB).length = cs.takeWhile isHexB :=
                (List.prefix_iff_eq_take.mp (List.takeWhile_prefix _)).symm
              rw [he] at hc2
              exact Or.inr (Or.inr (Or.inl (List.mem_takeWhile_imp hc2)))
      · rw [if_neg hp] at h
        cases h

theorem quoteScanF_spanRel (q : Char) :
    ∀ (fuel : Nat) (l : List Char), l.length ≤ fuel →
    SpanRel (fun _ => True) l (quoteScanF q fuel l) := by
  intro fuel
  induction fuel with
  | zero =>
    intro l hn
    have h0 : l = [] := List.eq_nil_of_length_eq_zero (Nat.le_zero.mp hn)
    subst h0
    exact SpanRel.nil
  | succ fuel ih =>
    intro l hn
    cases l with
    | nil => exact SpanRel.nil
    | cons c cs =>
      simp only [List.length_cons] at hn
      unfold quoteScanF
      by_cases hcq : c = q
      · rw [if_pos hcq]
        cases hr : qsplit q cs with
        | none =>
          dsimp only
          exact SpanRel.keep c (ih cs (by omega))
        | some rest =>
          dsimp only
          obtain ⟨w, hw⟩ := qsplit_suffix q cs rest hr
          have hlen := qsplit_length q cs rest hr
          have hrel := ih rest (by omega)
          have hrep : SpanRel (fun _ => True) ((c :: w) ++ rest)
              ('?' :: quoteScanF q fuel rest) :=
            SpanRel.rep (c :: w) (by simp) (fun d _ => trivial) hrel
          rw [show (c :: w) ++ rest = c :: cs from by rw [List.cons_append, hw]] at hrep
          exact hrep
      · rw [if_neg hcq]
        exact SpanRel.keep c (ih cs (by omega))

theorem bScanF_spanRel (m : List Char → Option Nat) (P : Char → Prop)
    (hm : ∀ u k, m u = some k → 1 ≤ k ∧ ∀ c ∈ u.take k, P c) :
    ∀ (fuel : Nat) (b : Bool) (l : List Char), l.length ≤ fuel →
    SpanRel P l (bScanF m fuel b l) := by
  intro fuel
  induction fuel with
  | zero =>
    intro b l hn
    have h0 : l = [] := List.eq_nil_of_length_eq_zero (Nat.le_zero.mp hn)
    subst h0
    exact SpanRel.nil
  | succ fuel ih =>
    intro b l hn
    cases l with
    | nil => exact SpanRel.nil
    | cons c cs =>
      simp only [List.length_cons] at hn
      unfold bScanF
      by_cases hb : b = true
      · rw [hb, if_pos rfl]
        exact SpanRel.keep c (ih (isWordB c) cs (by omega))
      · rw [if_neg hb]
        cases hr : m (c :: cs) with
        | none =>
          dsimp only
          exact SpanRel.keep c (ih (isWordB c) cs (by omega))
        | some k =>
          dsimp only
          obtain ⟨hk1, hkP⟩ := hm (c :: cs) k hr
          have hdl : (cs.drop (k - 1)).length ≤ fuel := by
            have := (List.drop_sublist (k - 1) cs).length_le
            omega
          have hrel := ih (isWordB ((c :: cs).getD (k - 1) c)) (cs.drop (k - 1)) hdl
          have hrep : SpanRel P ((c :: cs).take k ++ cs.drop (k - 1))
              ('?' :: bScanF m fuel (isWordB ((c :: cs).getD (k - 1) c)) (cs.drop (k - 1))) := by
            refine SpanRel.rep ((c :: cs).take k) ?_ hkP hrel
            rw [show k = (k - 1) + 1 from by omega, List.take_succ_cons]
            exact List.cons_ne_nil c _
          rw [show (c :: cs).take k ++ cs.drop (k - 1) = c :: cs from by
            rw [show k = (k - 1) + 1 from by omega, List.take_succ_cons, Nat.add_sub_cancel,
              List.cons_append, List.take_append_drop]] at hrep
          exact hrep

theorem delRel_delSpaces (p : Char) (hp : isPunct4 p = true) :
    ∀ (sps : List Char) (t t2 : List Char),
    (∀ x ∈ sps, pySpace x = true) → t2.head? = some p →
    DelRel t t2 → DelRel (sps ++ t) t2 := by
  intro sps
  induction sps with
  | nil =>
    intro t t2 _ _ h
    exact h
  | cons c sps2 ih =>
    intro t t2 hs hh h
    refine DelRel.delBefore c (hs c (List.mem_cons_self _ _)) ⟨p, hh, hp⟩ ?_
    exact ih t t2 (fun x hx => hs x (List.mem_cons_of_mem _ hx)) hh h

theorem pcleanF_delRel : ∀ (fuel : Nat) (l : List Char), l.length ≤ fuel →
    DelRel l (pcleanF fuel l) := by
  intro fuel
  induction fuel with
  | zero =>
    intro l hn
    have h0 : l = [] := List.eq_nil_of_length_eq_zero (Nat.le_zero.mp hn)
    subst h0
    exact DelRel.nil
  | succ fuel ih =>
    intro l hn
    cases l with
    | nil => exact DelRel.nil
    | cons c cs =>
      simp only [List.length_cons] at hn
      unfold pcleanF
      by_cases hws : pySpace c = true
      · rw [if_pos hws]
        cases hdrop : cs.dropWhile pySpace with
        | nil =>
          dsimp only
          exact DelRel.keep c (ih cs (by omega))
        | cons p rest =>
          dsimp only
          by_cases hp : isPunct4 p = true
          · rw [if_pos hp]
            have hlen1 : rest.length < cs.length := by
              have h1 := (List.dropWhile_sublist (l := cs) pySpace).length_le
              rw [hdrop] at h1
              simp only [List.length_cons] at h1
              omega
            have hlen2 : (rest.dropWhile pySpace).length ≤ fuel := by
              have h2 := (List.dropWhile_sublist (l := rest) pySpace).length_le
              omega
            have inner := ih (rest.dropWhile pySpace) hlen2
            have step1 : DelRel (p :: rest) (p :: pcleanF fuel (rest.dropWhile pySpace)) := by
              have hkp := DelRel.keepPunct p (rest.takeWhile pySpace) hp
                (fun x hx => List.mem_takeWhile_imp hx) inner
              rwa [List.takeWhile_append_dropWhile] at hkp
            have hcs : cs = cs.takeWhile pySpace ++ (p :: rest) := by
              rw [← hdrop, List.takeWhile_append_dropWhile]
            have step2 : DelRel (cs.takeWhile pySpace ++ (p :: rest))
                (p :: pcleanF fuel (rest.dropWhile pySpace)) :=
              delRel_delSpaces p hp (cs.takeWhile pySpace) _ _
                (fun x hx => List.mem_takeWhile_imp hx) rfl step1
            refine DelRel.delBefore c hws ⟨p, rfl, hp⟩ ?_
            rw [hcs]
            exact step2
          · rw [if_neg hp]
            exact DelRel.keep c (ih cs (by omega))
      · rw [if_neg hws]
        by_cases hpc : isPunct4 c = true
        · rw [if_pos hpc]
          have hlen2 : (cs.dropWhile pySpace).length ≤ fuel := by
            have h2 := (List.dropWhile_sublist (l := cs) pySpace).length_le
            omega
          have hkp := DelRel.keepPunct c (cs.takeWhile pySpace) hpc
            (fun x hx => List.mem_takeWhile_imp hx) (ih (cs.dropWhile pySpace) hlen2)
          rwa [List.takeWhile_append_dropWhile] at hkp
        · rw [if_neg hpc]
          exact DelRel.keep c (ih cs (by omega))

theorem pclean_delRel (l : List Char) : DelRel l (pclean l) :=
  pcleanF_delRel l.length l le_rfl

theorem splitWsAux_ne_nil (l : List Char) : ∀ acc : List Char, acc ≠ [] →
    splitWsAux acc l ≠ [] := by
  induction l with
  | nil =>
    intro acc hacc
    unfold splitWsAux
    rw [List.isEmpty_eq_false.mpr hacc]
    exact List.cons_ne_nil _ _
  | cons c cs ih =>
    intro acc hacc
    unfold splitWsAux
    by_cases hc : pySpace c = true
    · rw [if_pos hc, List.isEmpty_eq_false.mpr hacc]
      exact List.cons_ne_nil _ _
    · rw [if_neg hc]
      exact ih (c :: acc) (List.cons_ne_nil _ _)

theorem splitWsAux_wsFree_append : ∀ (w acc r : List Char), wsFree w →
    splitWsAux acc (w ++ r) = splitWsAux (w.reverse ++ acc) r := by
  intro w
  induction w with
  | nil =>
    intro acc r _
    rfl
  | cons c w2 ih =>
    intro acc r hw
    have hc : pySpace c = false := hw c (List.mem_cons_self _ _)
    have h1 : splitWsAux acc ((c :: w2) ++ r) = splitWsAux (c :: acc) (w2 ++ r) := by
      rw [List.cons_append]
      conv_lhs => unfold splitWsAux
      rw [if_neg (by rw [hc]; exact Bool.false_ne_true)]
    rw [h1, ih (c :: acc) r (fun d hd => hw d (List.mem_cons_of_mem _ hd))]
    congr 1
    simp

theorem splitWsAux_space_cons (acc : List Char) (c : Char) (t2 : List Char)
    (hc : pySpace c = true) (hacc : acc ≠ []) :
    splitWsAux acc (c :: t2) = acc.reverse :: splitWsAux [] t2 := by
  conv_lhs => unfold splitWsAux
  rw [if_pos hc, List.isEmpty_eq_false.mpr hacc, if_neg Bool.false_ne_true]

theorem splitWs_cons_notWs (c : Char) (t : List Char) (hc : pySpace c = false) :
    splitWs (c :: t) = splitWsAux [c] t := by
  conv_lhs => unfold splitWs splitWsAux
  rw [if_neg (by rw [hc]; exact Bool.false_ne_true)]

theorem joinSplit_id : ∀ (n : Nat) (t : List Char), t.length ≤ n → allWsSpace t →
    List.Chain' notWsWs t →
    (∀ c, t.head? = some c → pySpace c = false) →
    (∀ c, t.getLast? = some c → pySpace c = false) →
    joinWords (splitWs t) = t := by
  intro n
  induction n with
  | zero =>
    intro t hn _ _ _ _
    have h0 : t = [] := List.eq_nil_of_length_eq_zero (Nat.le_zero.mp hn)
    subst h0
    rfl
  | succ n ih =>
    intro t hn hws hch hhd hlast
    cases ht : t with
    | nil => rfl
    | cons c0 t1 =>
      subst ht
      have hc0 : pySpace c0 = false := hhd c0 rfl
      have hwne : (c0 :: t1).takeWhile (fun d => !pySpace d) =
          c0 :: t1.takeWhile (fun d => !pySpace d) :=
        List.takeWhile_cons_of_pos (by rw [hc0]; rfl)
      have hsplit : (c0 :: t1) = (c0 :: t1).takeWhile (fun d => !pySpace d) ++
          (c0 :: t1).dropWhile (fun d => !pySpace d) :=
        (List.takeWhile_append_dropWhile _ _).symm
      have hwfree : wsFree ((c0 :: t1).takeWhile (fun d => !pySpace d)) := by
        intro d hd
        have := List.mem_takeWhile_imp hd
        simpa using this
      cases hr : (c0 :: t1).dropWhile (fun d => !pySpace d) with
      | nil =>
        rw [hr, List.append_nil] at hsplit
        conv_lhs => rw [hsplit]
        unfold splitWs
        rw [show ((c0 :: t1).takeWhile (fun d => !pySpace d) : List Char) =
          (c0 :: t1).takeWhile (fun d => !pySpace d) ++ [] from (List.append_nil _).symm,
          splitWsAux_wsFree_append _ [] [] hwfree]
        unfold splitWsAux
        have hj : ∀ w : List Char, joinWords [w] = w := fun w => rfl
        rw [List.append_nil, List.isEmpty_eq_false.mpr (by
          rw [hwne]
          simp : ((c0 :: t1).takeWhile (fun d => !pySpace d)).reverse ≠ []),
          if_neg Bool.false_ne_true, hj, List.reverse_reverse]
        exact hsplit.symm
      | cons c t2 =>
        have hcws : pySpace c = true := by
          have := dropWhile_head_not (fun d => !pySpace d) (c0 :: t1) c (by rw [hr]; rfl)
          simpa using this
        have hcmem : c ∈ (c0 :: t1) := by
          rw [hsplit, hr]
          exact List.mem_append_right _ (List.mem_cons_self _ _)
        have hcsp : c = ' ' := hws c hcmem hcws
        have ht2ne : t2 ≠ [] := by
          intro h0
          subst h0
          have hgl : (c0 :: t1).getLast? = some c := by
            rw [hsplit, hr]
            exact List.getLast?_concat _
          rw [hlast c hgl] at hcws
          cases hcws
        have hlen2 : t2.length ≤ n := by
          have hlen := congrArg List.length hsplit
          rw [hr] at hlen
          simp only [List.length_cons, List.length_append] at hlen hn
          omega
        have hws2 : allWsSpace t2 := by
          intro d hd hdw
          refine hws d ?_ hdw
          rw [hsplit, hr]
          exact List.mem_append_right _ (List.mem_cons_of_mem _ hd)
        have hsuf : (c :: t2) <:+ (c0 :: t1) :=
          ⟨(c0 :: t1).takeWhile (fun d => !pySpace d), by rw [← hr, List.takeWhile_append_dropWhile]⟩
        have hchc : List.Chain' notWsWs (c :: t2) := hch.suffix hsuf
        have hch2 : List.Chain' notWsWs t2 := hchc.tail
        have hhd2 : ∀ d, t2.head? = some d → pySpace d = false := by
          intro d hd
          cases t2 with
          | nil => cases hd
          | cons e t3 =>
            obtain rfl : e = d := by simpa using hd
            rcases (List.chain'_cons.mp hchc).1 with h1 | h1
            · rw [hcws] at h1
              cases h1
            · exact h1
        have hlast2 : ∀ d, t2.getLast? = some d → pySpace d = false := by
          intro d hd
          refine hlast d ?_
          rw [hsplit, hr, show ((c0 :: t1).takeWhile (fun e => !pySpace e)) ++ c :: t2 =
            (((c0 :: t1).takeWhile (fun e => !pySpace e)) ++ [c]) ++ t2 from by simp]
          rw [List.getLast?_append_of_ne_nil _ ht2ne]
          exact hd
        have hrec := ih t2 hlen2 hws2 hch2 hhd2 hlast2
        have hs2ne : splitWs t2 ≠ [] := by
          cases t2 with
          | nil => exact absurd rfl ht2ne
          | cons e t3 =>
            rw [splitWs_cons_notWs e t3 (hhd2 e rfl)]
            exact splitWsAux_ne_nil t3 [e] (List.cons_ne_nil _ _)
        conv_lhs => rw [hsplit, hr]
        unfold splitWs
        rw [splitWsAux_wsFree_append _ [] (c :: t2) hwfree, List.append_nil]
        rw [splitWsAux_space_cons _ c t2 hcws (by rw [hwne]; simp)]
        rw [List.reverse_reverse]
        cases hsp2 : splitWs t2 with
        | nil => exact absurd hsp2 hs2ne
        | cons v vs =>
          unfold splitWs at hsp2
          rw [hsp2]
          unfold joinWords
          rw [show joinWords (v :: vs) = t2 from by rw [← hsp2]; exact hrec]
          rw [← hcsp, ← hr]
          exact hsplit.symm

theorem caseRel_refl : ∀ t : List Char, CaseRel t t := by
  intro t
  induction t with
  | nil => exact CaseRel.nil
  | cons c cs ih => exact CaseRel.same c ih

theorem caseRel_append : ∀ {a a2 : List Char}, CaseRel a a2 →
    ∀ {b b2 : List Char}, CaseRel b b2 → CaseRel (a ++ b) (a2 ++ b2) := by
  intro a a2 h
  induction h with
  | nil =>
    intro b b2 hb
    exact hb
  | same c h2 ih =>
    intro b b2 hb
    exact CaseRel.same c (ih hb)
  | up c h2 ih =>
    intro b b2 hb
    exact CaseRel.up c (ih hb)

theorem caseRel_upper : ∀ w : List Char, CaseRel w (w.map Char.toUpper) := by
  intro w
  induction w with
  | nil => exact CaseRel.nil
  | cons c cs ih => exact CaseRel.up c ih

theorem toLower_eq_self (c : Char) (h : ¬(65 ≤ c.toNat ∧ c.toNat ≤ 90)) :
    c.toLower = c := by
  unfold Char.toLower
  rw [if_neg]
  simp only [ge_iff_le, Bool.and_eq_true, decide_eq_true_eq]
  exact h

theorem isAlpha_toNat (c : Char) (h : Char.isAlpha c = true) :
    (65 ≤ c.toNat ∧ c.toNat ≤ 90) ∨ (97 ≤ c.toNat ∧ c.toNat ≤ 122) := by
  simp only [Char.isAlpha, Char.isUpper, Char.isLower, Bool.or_eq_true, Bool.and_eq_true,
    decide_eq_true_eq] at h
  rcases h with ⟨h1, h2⟩ | ⟨h1, h2⟩
  · exact Or.inl ⟨h1, h2⟩
  · exact Or.inr ⟨h1, h2⟩

theorem isAlpha_of_toLower (b : Char) (h : Char.isAlpha b.toLower = true) :
    Char.isAlpha b = true := by
  by_cases hb : 65 ≤ b.toNat ∧ b.toNat ≤ 90
  · simp only [Char.isAlpha, Char.isUpper, Char.isLower, Bool.or_eq_true, Bool.and_eq_true,
      decide_eq_true_eq]
    exact Or.inl ⟨hb.1, hb.2⟩
  · rw [toLower_eq_self b hb] at h
    exact h

theorem mem_stripPunct (w : List Char) (c : Char) (h : c ∈ stripPunct w) : c ∈ w := by
  unfold stripPunct at h
  rw [List.mem_reverse] at h
  have h2 := (List.dropWhile_sublist pyPunct).subset h
  rw [List.mem_reverse] at h2
  exact (List.dropWhile_sublist pyPunct).subset h2

theorem sqlKeywords_alpha :
    ∀ kw ∈ sqlKeywords, kw ≠ [] ∧ ∀ c ∈ kw, Char.isAlpha c = true := by decide

theorem takeWhile_bound (p : Char → Bool) : ∀ (l1 : List Char) (x : Char) (l2 : List Char),
    p x = false → ((l1 ++ x :: l2).takeWhile p).length ≤ l1.length := by
  intro l1
  induction l1 with
  | nil =>
    intro x l2 hx
    rw [List.nil_append, List.takeWhile_cons_of_neg (by rw [hx]; exact Bool.false_ne_true)]
  | cons a l1t ih =>
    intro x l2 hx
    rw [List.cons_append]
    by_cases ha : p a = true
    · rw [List.takeWhile_cons_of_pos ha]
      simp only [List.length_cons]
      exact Nat.succ_le_succ (ih x l2 hx)
    · rw [List.takeWhile_cons_of_neg ha]
      simp

theorem transformWord_caseRel (w : List Char) : CaseRel w (transformWord w) := by
  unfold transformWord
  by_cases hk : sqlKeywords.contains (stripPunct (w.map Char.toLower)) = true
  · rw [if_pos hk]
    by_cases heq : w = stripPunct (w.map Char.toLower)
    · rw [if_pos heq]
      exact caseRel_upper w
    · rw [if_neg heq]
      dsimp only
      have hkw : stripPunct (w.map Char.toLower) ∈ sqlKeywords := by
        simpa using hk
      obtain ⟨hne, hal⟩ := sqlKeywords_alpha _ hkw
      obtain ⟨a, ha⟩ : ∃ a, a ∈ stripPunct (w.map Char.toLower) :=
        List.exists_mem_of_ne_nil _ hne
      have hamem : a ∈ w.map Char.toLower := mem_stripPunct _ a ha
      obtain ⟨b, hbw, hba⟩ := List.mem_map.mp hamem
      have hb : Char.isAlpha b = true := isAlpha_of_toLower b (by rw [hba]; exact hal a ha)
      have hsplitw : w = w.takeWhile (fun c => !c.isAlpha) ++
          w.dropWhile (fun c => !c.isAlpha) := (List.takeWhile_append_dropWhile _ _).symm
      have hdne : w.dropWhile (fun c => !c.isAlpha) ≠ [] := by
        intro h0
        have hall := List.dropWhile_eq_nil_iff.mp h0 b hbw
        rw [hb] at hall
        cases hall
      cases hdr : w.dropWhile (fun c => !c.isAlpha) with
      | nil => exact absurd hdr hdne
      | cons h1 rest2 =>
        have hh1 : Char.isAlpha h1 = true := by
          have hx := dropWhile_head_not (fun c => !c.isAlpha) w h1 (by rw [hdr]; rfl)
          simpa using hx
        have hsp : (w.takeWhile (fun c => !c.isAlpha)).length + 1 + rest2.length =
            w.length := by
          have hlw := congrArg List.length hsplitw
          rw [hdr] at hlw
          simp only [List.length_append, List.length_cons] at hlw
          omega
        have hep : (w.reverse.takeWhile (fun c => !c.isAlpha)).length ≤ rest2.length := by
          have hrev : w.reverse = rest2.reverse ++ h1 ::
              (w.takeWhile (fun c => !c.isAlpha)).reverse := by
            conv_lhs => rw [hsplitw, hdr]
            rw [List.reverse_append, List.reverse_cons]
            simp [List.append_assoc]
          rw [hrev]
          have hx := takeWhile_bound (fun c => !c.isAlpha) rest2.reverse h1
            ((w.takeWhile (fun c => !c.isAlpha)).reverse) (by simp [hh1])
          simpa using hx
        have hbound : (w.takeWhile (fun c => !c.isAlpha)).length +
            (w.reverse.takeWhile (fun c => !c.isAlpha)).length < w.length := by
          omega
        have hdd : (w.drop ((w.takeWhile (fun c => !c.isAlpha)).length)).drop
            (w.length - (w.reverse.takeWhile (fun c => !c.isAlpha)).length -
              (w.takeWhile (fun c => !c.isAlpha)).length) =
            w.drop (w.length - (w.reverse.takeWhile (fun c => !c.isAlpha)).length) := by
          rw [List.drop_drop]
          congr 1
          omega
        have hid : w.take ((w.takeWhile (fun c => !c.isAlpha)).length) ++
            ((w.drop ((w.takeWhile (fun c => !c.isAlpha)).length)).take
              (w.length - (w.reverse.takeWhile (fun c => !c.isAlpha)).length -
                (w.takeWhile (fun c => !c.isAlpha)).length) ++
            w.drop (w.length - (w.reverse.takeWhile (fun c => !c.isAlpha)).length)) = w := by
          rw [← hdd, List.take_append_drop, List.take_append_drop]
        have hcr := caseRel_append
          (caseRel_refl (w.take ((w.takeWhile (fun c => !c.isAlpha)).length)))
          (caseRel_append
            (caseRel_upper ((w.drop ((w.takeWhile (fun c => !c.isAlpha)).length)).take
              (w.length - (w.reverse.takeWhile (fun c => !c.isAlpha)).length -
                (w.takeWhile (fun c => !c.isAlpha)).length)))
            (caseRel_refl (w.drop
              (w.length - (w.reverse.takeWhile (fun c => !c.isAlpha)).length))))
        rw [hid, ← List.append_assoc] at hcr
        exact hcr
  · rw [if_neg hk]
    exact caseRel_refl w

theorem caseRel_joinWords : ∀ {ws ws2 : List (List Char)},
    List.Forall₂ CaseRel ws ws2 → CaseRel (joinWords ws) (joinWords ws2) := by
  intro ws ws2 h
  induction h with
  | nil => exact CaseRel.nil
  | cons h1 h2 ih =>
    cases h2 with
    | nil => exact h1
    | cons h3 h4 => exact caseRel_append h1 (CaseRel.same ' ' ih)

theorem forall2_caseRel_map : ∀ ws : List (List Char),
    List.Forall₂ CaseRel ws (ws.map transformWord) := by
  intro ws
  induction ws with
  | nil => exact List.Forall₂.nil
  | cons w ws2 ih => exact List.Forall₂.cons (transformWord_caseRel w) ih

theorem caseRel_stage6 (t : List Char) (hws : allWsSpace t)
    (hch : List.Chain' notWsWs t)
    (hhd : ∀ c, t.head? = some c → pySpace c = false)
    (hlast : ∀ c, t.getLast? = some c → pySpace c = false) :
    CaseRel t (joinWords ((splitWs t).map transformWord)) := by
  have hid := joinSplit_id t.length t le_rfl hws hch hhd hlast
  have hcr := caseRel_joinWords (forall2_caseRel_map (splitWs t))
  rwa [hid] at hcr

theorem collapseWsAux_head_true : ∀ (l : List Char) (c : Char),
    (collapseWsAux true l).head? = some c → pySpace c = false := by
  intro l
  induction l with
  | nil =>
    intro c hc
    cases hc
  | cons d ds ih =>
    intro c hc
    unfold collapseWsAux at hc
    by_cases hd : pySpace d = true
    · rw [if_pos hd, if_pos rfl] at hc
      exact ih c hc
    · rw [if_neg hd] at hc
      obtain rfl : d = c := by simpa using hc
      exact Bool.eq_false_iff.mpr hd

theorem collapseWsAux_chain : ∀ (l : List Char) (b : Bool),
    List.Chain' notWsWs (collapseWsAux b l) := by
  intro l
  induction l with
  | nil =>
    intro b
    exact List.chain'_nil
  | cons d ds ih =>
    intro b
    unfold collapseWsAux
    by_cases hd : pySpace d = true
    · rw [if_pos hd]
      by_cases hb : b = true
      · rw [if_pos hb]
        exact ih true
      · rw [if_neg hb]
        rw [List.chain'_cons']
        refine ⟨?_, ih true⟩
        intro y hy
        exact Or.inr (collapseWsAux_head_true ds y hy)
    · rw [if_neg hd]
      rw [List.chain'_cons']
      refine ⟨?_, ih false⟩
      intro y _
      exact Or.inl (Bool.eq_false_iff.mpr hd)

theorem collapseWsAux_true_nil : ∀ (l : List Char),
    collapseWsAux true l = [] → ∀ x ∈ l, pySpace x = true := by
  intro l
  induction l with
  | nil =>
    intro _ x hx
    cases hx
  | cons d ds ih =>
    intro h x hx
    unfold collapseWsAux at h
    by_cases hd : pySpace d = true
    · rw [if_pos hd, if_pos rfl] at h
      rcases List.mem_cons.mp hx with rfl | hx2
      · exact hd
      · exact ih h x hx2
    · rw [if_neg hd] at h
      cases h

theorem collapseWsAux_getLast : ∀ (l : List Char) (b : Bool) (c : Char),
    (∀ d, l.getLast? = some d → pySpace d = false) →
    (collapseWsAux b l).getLast? = some c → pySpace c = false := by
  intro l
  induction l with
  | nil =>
    intro b c _ hc
    cases hc
  | cons d ds ih =>
    intro b c hlast hc
    have htrans : ds ≠ [] → ∀ e, ds.getLast? = some e → pySpace e = false := by
      intro hne e he
      refine hlast e ?_
      rw [show (d :: ds) = [d] ++ ds from rfl, List.getLast?_append_of_ne_nil _ hne]
      exact he
    unfold collapseWsAux at hc
    by_cases hd : pySpace d = true
    · rw [if_pos hd] at hc
      by_cases hb : b = true
      · rw [if_pos hb] at hc
        cases hds : ds with
        | nil =>
          rw [hds, show collapseWsAux true [] = [] from rfl] at hc
          cases hc
        | cons e ds2 =>
          refine ih true c ?_ hc
          exact htrans (by rw [hds]; exact List.cons_ne_nil _ _)
      · rw [if_neg hb] at hc
        cases hout : collapseWsAux true ds with
        | nil =>
          rw [hout] at hc
          obtain rfl : (' ' : Char) = c := by simpa using hc
          obtain ⟨e, he⟩ : ∃ e, (d :: ds).getLast? = some e := by
            cases hgl : (d :: ds).getLast? with
            | none => simp at hgl
            | some e => exact ⟨e, rfl⟩
          have hemem := List.mem_of_mem_getLast? he
          have hews : pySpace e = true := by
            rcases List.mem_cons.mp hemem with rfl | hmem2
            · exact hd
            · exact collapseWsAux_true_nil ds hout e hmem2
          have := hlast e he
          rw [hews] at this
          cases this
        | cons f out2 =>
          rw [hout, show (' ' :: f :: out2) = [' '] ++ (f :: out2) from rfl,
            List.getLast?_append_of_ne_nil _ (List.cons_ne_nil _ _)] at hc
          rw [← hout] at hc
          refine ih true c ?_ hc
          refine htrans ?_
          intro h0
          rw [h0, show collapseWsAux true [] = [] from rfl] at hout
          cases hout
    · rw [if_neg hd] at hc
      cases hout : collapseWsAux false ds with
      | nil =>
        rw [hout] at hc
        obtain rfl : d = c := by simpa using hc
        exact Bool.eq_false_iff.mpr hd
      | cons f out2 =>
        rw [hout, show (d :: f :: out2) = [d] ++ (f :: out2) from rfl,
          List.getLast?_append_of_ne_nil _ (List.cons_ne_nil _ _)] at hc
        rw [← hout] at hc
        refine ih false c ?_ hc
        refine htrans ?_
        intro h0
        rw [h0, show collapseWsAux false [] = [] from rfl] at hout
        cases hout

theorem collapseWsAux_head_false (t : List Char)
    (hh : ∀ d, t.head? = some d → pySpace d = false) :
    ∀ c, (collapseWsAux false t).head? = some c → pySpace c = false := by
  intro c hc
  cases t with
  | nil => cases hc
  | cons d ds =>
    have hd := hh d rfl
    unfold collapseWsAux at hc
    rw [if_neg (by rw [hd]; exact Bool.false_ne_true)] at hc
    obtain rfl : d = c := by simpa using hc
    exact hd

theorem normWs_invariants (l : List Char) :
    allWsSpace (normWs l) ∧ List.Chain' notWsWs (normWs l) ∧
    (∀ c, (normWs l).head? = some c → pySpace c = false) ∧
    (∀ c, (normWs l).getLast? = some c → pySpace c = false) := by
  refine ⟨collapseWs_allWsSpace _, collapseWsAux_chain _ false, ?_, ?_⟩
  · exact collapseWsAux_head_false (trimWs l) (fun d hd => trimWs_head l d hd)
  · intro c hc
    exact collapseWsAux_getLast (trimWs l) false c (fun d hd => trimWs_getLast l d hd) hc

theorem spanRel_head (P : Char → Prop) {t t2 : List Char} (h : SpanRel P t t2) :
    ∀ c, t2.head? = some c → c = '?' ∨ t.head? = some c := by
  cases h with
  | nil =>
    intro c hc
    cases hc
  | keep d h2 =>
    intro c hc
    right
    simpa using hc
  | rep span hne hP h2 =>
    intro c hc
    left
    have := hc
    simpa using this.symm

theorem spanRel_getLast (P : Char → Prop) :
    ∀ {t t2 : List Char}, SpanRel P t t2 →
    ∀ c, t2.getLast? = some c → c = '?' ∨ t.getLast? = some c := by
  intro t t2 h
  induction h with
  | nil =>
    intro c hc
    cases hc
  | keep d h2 ih =>
    rename_i s s2
    intro c hc
    cases hs2 : s2 with
    | nil =>
      rw [hs2] at hc
      obtain rfl : d = c := by simpa using hc
      have hs : s = [] := spanRel_nil_right P s (by rw [← hs2]; exact h2)
      right
      rw [hs]
      rfl
    | cons e s2t =>
      rw [hs2, show (d :: e :: s2t) = [d] ++ (e :: s2t) from rfl,
        List.getLast?_append_of_ne_nil _ (List.cons_ne_nil _ _), ← hs2] at hc
      rcases ih c hc with h1 | h1
      · exact Or.inl h1
      · right
        have hsne : s ≠ [] := by
          intro h0
          rw [spanRel_nil_left P s2 (by rw [← h0]; exact h2)] at hs2
          cases hs2
        rw [show (d :: s) = [d] ++ s from rfl, List.getLast?_append_of_ne_nil _ hsne]
        exact h1
  | rep span hne hP h2 ih =>
    rename_i s s2
    intro c hc
    cases hs2 : s2 with
    | nil =>
      rw [hs2] at hc
      left
      simpa using hc.symm
    | cons e s2t =>
      rw [hs2, show ('?' :: e :: s2t) = ['?'] ++ (e :: s2t) from rfl,
        List.getLast?_append_of_ne_nil _ (List.cons_ne_nil _ _), ← hs2] at hc
      rcases ih c hc with h1 | h1
      · exact Or.inl h1
      · right
        have hsne : s ≠ [] := by
          intro h0
          rw [spanRel_nil_left P s2 (by rw [← h0]; exact h2)] at hs2
          cases hs2
        rw [List.getLast?_append_of_ne_nil _ hsne]
        exact h1

theorem spanRel_mem (P : Char → Prop) :
    ∀ {t t2 : List Char}, SpanRel P t t2 →
    ∀ c ∈ t2, c = '?' ∨ c ∈ t := by
  intro t t2 h
  induction h with
  | nil =>
    intro c hc
    cases hc
  | keep d h2 ih =>
    intro c hc
    rcases List.mem_cons.mp hc with rfl | hc2
    · exact Or.inr (List.mem_cons_self _ _)
    · rcases ih c hc2 with h1 | h1
      · exact Or.inl h1
      · exact Or.inr (List.mem_cons_of_mem _ h1)
  | rep span hne hP h2 ih =>
    intro c hc
    rcases List.mem_cons.mp hc with rfl | hc2
    · exact Or.inl rfl
    · rcases ih c hc2 with h1 | h1
      · exact Or.inl h1
      · exact Or.inr (List.mem_append_right _ h1)

theorem spanRel_chain (P : Char → Prop) :
    ∀ {t t2 : List Char}, SpanRel P t t2 →
    List.Chain' notWsWs t → List.Chain' notWsWs t2 := by
  intro t t2 h
  induction h with
  | nil =>
    intro _
    exact List.chain'_nil
  | keep d h2 ih =>
    rename_i s s2
    intro hch
    rw [List.chain'_cons']
    constructor
    · intro y hy
      rcases spanRel_head P h2 y hy with h1 | h1
      · rw [h1]
        exact Or.inr (by decide)
      · exact (List.chain'_cons'.mp hch).1 y h1
    · exact ih (List.chain'_cons'.mp hch).2
  | rep span hne hP h2 ih =>
    rename_i s s2
    intro hch
    rw [List.chain'_cons']
    constructor
    · intro y _
      exact Or.inl (by decide)
    · exact ih (hch.suffix ⟨span, rfl⟩)

theorem spanRel_invariants (P : Char → Prop) {t t2 : List Char} (h : SpanRel P t t2)
    (hws : allWsSpace t) (hch : List.Chain' notWsWs t)
    (hhd : ∀ c, t.head? = some c → pySpace c = false)
    (hlast : ∀ c, t.getLast? = some c → pySpace c = false) :
    allWsSpace t2 ∧ List.Chain' notWsWs t2 ∧
    (∀ c, t2.head? = some c → pySpace c = false) ∧
    (∀ c, t2.getLast? = some c → pySpace c = false) := by
  refine ⟨?_, spanRel_chain P h hch, ?_, ?_⟩
  · intro c hc hcw
    rcases spanRel_mem P h c hc with h1 | h1
    · rw [h1] at hcw
      cases hcw
    · exact hws c h1 hcw
  · intro c hc
    rcases spanRel_head P h c hc with h1 | h1
    · rw [h1]
      decide
    · exact hhd c h1
  · intro c hc
    rcases spanRel_getLast P h c hc with h1 | h1
    · rw [h1]
      decide
    · exact hlast c h1

theorem delRel_nil_right : ∀ {t : List Char}, DelRel t [] → t = [] := by
  intro t h
  cases h with
  | nil => rfl
  | delBefore c hc hp h2 =>
    obtain ⟨p, hp1, _⟩ := hp
    cases hp1

theorem delRel_head : ∀ {t t2 : List Char}, DelRel t t2 →
    ∀ c, t2.head? = some c → t.head? = some c ∨ isPunct4 c = true := by
  intro t t2 h
  induction h with
  | nil =>
    intro c hc
    cases hc
  | keep d h2 ih =>
    intro c hc
    left
    simpa using hc
  | keepPunct d sps hd hs h2 ih =>
    intro c hc
    obtain rfl : d = c := by simpa using hc
    exact Or.inr hd
  | delBefore d hd hp h2 ih =>
    intro c hc
    obtain ⟨p, hp1, hp2⟩ := hp
    rw [hc] at hp1
    obtain rfl : c = p := by simpa using hp1
    exact Or.inr hp2

theorem delRel_mem : ∀ {t t2 : List Char}, DelRel t t2 → ∀ c ∈ t2, c ∈ t := by
  intro t t2 h
  induction h with
  | nil =>
    intro c hc
    cases hc
  | keep d h2 ih =>
    intro c hc
    rcases List.mem_cons.mp hc with rfl | hc2
    · exact List.mem_cons_self _ _
    · exact List.mem_cons_of_mem _ (ih c hc2)
  | keepPunct d sps hd hs h2 ih =>
    intro c hc
    rcases List.mem_cons.mp hc with rfl | hc2
    · exact List.mem_cons_self _ _
    · exact List.mem_cons_of_mem _ (List.mem_append_right _ (ih c hc2))
  | delBefore d hd hp h2 ih =>
    intro c hc
    exact List.mem_cons_of_mem _ (ih c hc)

theorem delRel_chain : ∀ {t t2 : List Char}, DelRel t t2 →
    List.Chain' notWsWs t → List.Chain' notWsWs t2 := by
  intro t t2 h
  induction h with
  | nil =>
    intro _
    exact List.chain'_nil
  | keep d h2 ih =>
    rename_i s s2
    intro hch
    rw [List.chain'_cons']
    constructor
    · intro y hy
      rcases delRel_head h2 y hy with h1 | h1
      · exact (List.chain'_cons'.mp hch).1 y h1
      · exact Or.inr (isPunct4_not_ws y h1)
    · exact ih (List.chain'_cons'.mp hch).2
  | keepPunct d sps hd hs h2 ih =>
    rename_i s s2
    intro hch
    rw [List.chain'_cons']
    constructor
    · intro y _
      exact Or.inl (isPunct4_not_ws d hd)
    · exact ih (hch.suffix ⟨d :: sps, rfl⟩)
  | delBefore d hd hp h2 ih =>
    rename_i s
    intro hch
    exact ih hch.tail

theorem delRel_getLast : ∀ {t t2 : List Char}, DelRel t t2 →
    (∀ c, t.getLast? = some c → pySpace c = false) →
    ∀ c, t2.getLast? = some c → pySpace c = false := by
  intro t t2 h
  induction h with
  | nil =>
    intro _ c hc
    cases hc
  | keep d h2 ih =>
    rename_i s s2
    intro hlast c hc
    cases hs2 : s2 with
    | nil =>
      rw [hs2] at hc
      obtain rfl : d = c := by simpa using hc
      have hs : s = [] := delRel_nil_right (by rw [← hs2]; exact h2)
      refine hlast d ?_
      rw [hs]
      rfl
    | cons e s2t =>
      rw [hs2, show (d :: e :: s2t) = [d] ++ (e :: s2t) from rfl,
        List.getLast?_append_of_ne_nil _ (List.cons_ne_nil _ _), ← hs2] at hc
      have hsne : s ≠ [] := by
        intro h0
        rw [delRel_nil_left s2 (by rw [← h0]; exact h2)] at hs2
        cases hs2
      refine ih ?_ c hc
      intro e2 he2
      refine hlast e2 ?_
      rw [show (d :: s) = [d] ++ s from rfl, List.getLast?_append_of_ne_nil _ hsne]
      exact he2
  | keepPunct d sps hd hs h2 ih =>
    rename_i s s2
    intro hlast c hc
    cases hs2 : s2 with
    | nil =>
      rw [hs2] at hc
      obtain rfl : d = c := by simpa using hc
      exact isPunct4_not_ws d hd
    | cons e s2t =>
      rw [hs2, show (d :: e :: s2t) = [d] ++ (e :: s2t) from rfl,
        List.getLast?_append_of_ne_nil _ (List.cons_ne_nil _ _), ← hs2] at hc
      have hsne : s ≠ [] := by
        intro h0
        rw [delRel_nil_left s2 (by rw [← h0]; exact h2)] at hs2
        cases hs2
      refine ih ?_ c hc
      intro e2 he2
      refine hlast e2 ?_
      rw [show (d :: (sps ++ s)) = (d :: sps) ++ s from rfl,
        List.getLast?_append_of_ne_nil _ hsne]
      exact he2
  | delBefore d hd hp h2 ih =>
    rename_i u s
    intro hlast c hc
    have hune : u ≠ [] := by
      intro h0
      rw [h0] at h2
      have hs0 : s = [] := delRel_nil_left s h2
      rw [hs0] at hc
      cases hc
    refine ih ?_ c hc
    intro e2 he2
    refine hlast e2 ?_
    rw [show (d :: u) = [d] ++ u from rfl, List.getLast?_append_of_ne_nil _ hune]
    exact he2

theorem joinWords_ne_nil (v : List Char) (ws : List (List Char)) (hv : v ≠ []) :
    joinWords (v :: ws) ≠ [] := by
  cases ws with
  | nil => exact hv
  | cons w ws2 =>
    show v ++ ' ' :: joinWords (w :: ws2) ≠ []
    intro h0
    exact List.cons_ne_nil ' ' _ (List.append_eq_nil.mp h0).2

theorem joinWords_getLast (ws : List (List Char))
    (h : ∀ w ∈ ws, w ≠ [] ∧ wsFree w) :
    ∀ c, (joinWords ws).getLast? = some c → pySpace c = false := by
  induction ws with
  | nil =>
    intro c hc
    cases hc
  | cons v ws2 ih =>
    intro c hc
    cases ws2 with
    | nil =>
      have hv := h v (List.mem_cons_self _ _)
      have hcm : c ∈ v := List.mem_of_mem_getLast? hc
      exact hv.2 c hcm
    | cons w ws3 =>
      have hne : joinWords (w :: ws3) ≠ [] :=
        joinWords_ne_nil w ws3 (h w (List.mem_cons_of_mem _ (List.mem_cons_self _ _))).1
      rw [show joinWords (v :: w :: ws3) = v ++ ' ' :: joinWords (w :: ws3) from rfl,
        List.getLast?_append_of_ne_nil _ (List.cons_ne_nil _ _),
        show (' ' :: joinWords (w :: ws3)) = [' '] ++ joinWords (w :: ws3) from rfl,
        List.getLast?_append_of_ne_nil _ hne] at hc
      exact ih (fun u hu => h u (List.mem_cons_of_mem _ hu)) c hc

theorem pcleanF_eq_self : ∀ (fuel : Nat) (t : List Char), t.length ≤ fuel →
    List.Chain' notWsWs t → List.Chain' noWsPunct t → pcleanF fuel t = t := by
  intro fuel
  induction fuel with
  | zero =>
    intro t _ _ _
    rfl
  | succ fuel ih =>
    intro t hn h1 h2
    cases t with
    | nil => rfl
    | cons c cs =>
      simp only [List.length_cons] at hn
      unfold pcleanF
      by_cases hws : pySpace c = true
      · rw [if_pos hws]
        cases cs with
        | nil =>
          rw [show (List.dropWhile pySpace [] : List Char) = [] from rfl]
          rw [pcleanF_nil fuel]
        | cons e cs2 =>
          have hnw : notWsWs c e := (List.chain'_cons'.mp h1).1 e rfl
          have hew : pySpace e = false := by
            rcases hnw with hx | hx
            · rw [hws] at hx
              cases hx
            · exact hx
          have hdrop : List.dropWhile pySpace (e :: cs2) = e :: cs2 :=
            List.dropWhile_cons_of_neg (by rw [hew]; exact Bool.false_ne_true)
          rw [hdrop]
          dsimp only
          have hep : isPunct4 e = false := by
            have hwp : noWsPunct c e := (List.chain'_cons'.mp h2).1 e rfl
            rcases hwp.1 with hx | hx
            · rw [hws] at hx
              cases hx
            · exact hx
          rw [if_neg (by rw [hep]; exact Bool.false_ne_true)]
          rw [ih (e :: cs2) (by omega) (List.chain'_cons'.mp h1).2 (List.chain'_cons'.mp h2).2]
      · rw [if_neg hws]
        by_cases hp : isPunct4 c = true
        · rw [if_pos hp]
          have hdrop : List.dropWhile pySpace cs = cs := by
            cases cs with
            | nil => rfl
            | cons e cs2 =>
              have hwp : noWsPunct c e := (List.chain'_cons'.mp h2).1 e rfl
              have hew : pySpace e = false := by
                rcases hwp.2 with hx | hx
                · rw [hp] at hx
                  cases hx
                · exact hx
              exact List.dropWhile_cons_of_neg (by rw [hew]; exact Bool.false_ne_true)
          rw [hdrop, ih cs (by omega) h1.tail h2.tail]
        · rw [if_neg hp]
          rw [ih cs (by omega) h1.tail h2.tail]

theorem pclean_eq_self (t : List Char) (h1 : List.Chain' notWsWs t)
    (h2 : List.Chain' noWsPunct t) : pclean t = t :=
  pcleanF_eq_self t.length t le_rfl h1 h2

/-- Boundary state after scanning a prefix: the word-character status of its
last character, or the given initial state for the empty prefix. -/
def lastWordD (b : Bool) (u : List Char) : Bool :=
  match u.getLast? with
  | some c => isWordB c
  | none => b

/-- No boundary-anchored match of the matcher anywhere in the string, for
the given initial boundary state. -/
def NoBD (m : List Char → Option Nat) (b : Bool) (t : List Char) : Prop :=
  ∀ u v, t = u ++ v → lastWordD b u = false → m v = none

theorem lastWordD_cons (b : Bool) (c : Char) (u : List Char) :
    lastWordD b (c :: u) = lastWordD (isWordB c) u := by
  cases hu : u with
  | nil => rfl
  | cons d u2 =>
    unfold lastWordD
    rw [show (c :: d :: u2) = [c] ++ (d :: u2) from rfl,
      List.getLast?_append_of_ne_nil _ (List.cons_ne_nil _ _)]
    cases hgl : (d :: u2).getLast? with
    | none => simp at hgl
    | some e => rfl

theorem lastWordD_append_ne (b : Bool) (u1 u2 : List Char) (h : u2 ≠ []) :
    lastWordD b (u1 ++ u2) = lastWordD b u2 := by
  unfold lastWordD
  rw [List.getLast?_append_of_ne_nil _ h]

theorem noBD_tail (m : List Char → Option Nat) (b : Bool) (c : Char) (cs : List Char)
    (h : NoBD m b (c :: cs)) : NoBD m (isWordB c) cs := by
  intro u v huv hlw
  refine h (c :: u) v (by rw [huv]; rfl) ?_
  rw [lastWordD_cons]
  exact hlw

theorem bScanF_head_true (m : List Char → Option Nat) (fuel : Nat) (l : List Char)
    (hf : 1 ≤ fuel) : (bScanF m fuel true l).head? = l.head? := by
  cases fuel with
  | zero => omega
  | succ fuel =>
    cases l with
    | nil => rfl
    | cons c cs =>
      unfold bScanF
      rw [if_pos rfl]
      rfl

theorem bScanF_irrel2 (m : List Char → Option Nat) : ∀ (f g : Nat) (b : Bool)
    (l : List Char), l.length ≤ f → l.length ≤ g →
    bScanF m f b l = bScanF m g b l := by
  intro f g b l hf hg
  rw [bScanF_eq m f b l hf, bScanF_eq m g b l hg]

theorem bScanF_word_run (m : List Char → Option Nat) :
    ∀ (w : List Char) (fuel : Nat) (r : List Char), (∀ x ∈ w, isWordB x = true) →
    w.length + r.length ≤ fuel →
    bScanF m fuel true (w ++ r) = w ++ bScanF m r.length true r := by
  intro w
  induction w with
  | nil =>
    intro fuel r _ hf
    rw [List.nil_append, List.nil_append]
    exact bScanF_irrel2 m fuel r.length true r (by simpa using hf) le_rfl
  | cons a w2 ih =>
    intro fuel r hw hf
    simp only [List.length_cons] at hf
    cases fuel with
    | zero => omega
    | succ fuel =>
      rw [List.cons_append]
      conv_lhs => unfold bScanF
      rw [if_pos rfl, hw a (List.mem_cons_self _ _)]
      rw [ih fuel r (fun x hx => hw x (List.mem_cons_of_mem _ hx)) (by omega)]
      rfl

theorem noBD_scanF_id (m : List Char → Option Nat) :
    ∀ (fuel : Nat) (l : List Char) (b : Bool), l.length ≤ fuel → NoBD m b l →
    bScanF m fuel b l = l := by
  intro fuel
  induction fuel with
  | zero =>
    intro l b hn _
    rfl
  | succ fuel ih =>
    intro l b hn hno
    cases l with
    | nil => rfl
    | cons c cs =>
      simp only [List.length_cons] at hn
      unfold bScanF
      by_cases hb : b = true
      · rw [if_pos hb]
        rw [ih cs (isWordB c) (by omega) (noBD_tail m b c cs hno)]
      · rw [if_neg hb]
        have hbf : b = false := Bool.eq_false_iff.mpr hb
        have hm : m (c :: cs) = none := by
          refine hno [] (c :: cs) rfl ?_
          rw [show lastWordD b [] = b from rfl, hbf]
        rw [hm]
        rw [ih cs (isWordB c) (by omega) (noBD_tail m b c cs hno)]

theorem isDigit_isWordB (c : Char) (h : Char.isDigit c = true) : isWordB c = true := by
  unfold isWordB
  rw [h]
  simp

theorem decMatch_nondigit (c : Char) (h : Char.isDigit c = false) (w : List Char) :
    decMatch (c :: w) = none := by
  rw [decMatch_eq]
  rw [if_pos]
  unfold digitRun
  rw [List.takeWhile_cons_of_neg (by rw [h]; exact Bool.false_ne_true)]
  rfl

theorem decMatch_nonword (r0 : Char) (h : isWordB r0 = false) (w : List Char) :
    decMatch (r0 :: w) = none := by
  refine decMatch_nondigit r0 ?_ w
  rw [← Bool.not_eq_true]
  intro hd
  rw [isDigit_isWordB r0 hd] at h
  cases h

theorem hexMatch_nonword (r0 : Char) (h : isWordB r0 = false) (w : List Char) :
    hexMatch (r0 :: w) = none := by
  have h0 : ¬ r0 = '0' := by
    intro hh
    rw [hh] at h
    cases h
  cases w with
  | nil => rfl
  | cons c1 w2 =>
    unfold hexMatch
    dsimp only
    rw [if_neg]
    simp only [Bool.and_eq_true, decide_eq_true_eq, not_and]
    intro hh
    exact absurd hh h0

theorem decMatch_qmark (w : List Char) : decMatch ('?' :: w) = none :=
  decMatch_nonword '?' (by decide) w

theorem hexMatch_qmark (w : List Char) : hexMatch ('?' :: w) = none :=
  hexMatch_nonword '?' (by decide) w

theorem takeWhile_all_front (p : Char → Bool) : ∀ (A r : List Char),
    (∀ a ∈ A, p a = true) → (A ++ r).takeWhile p = A ++ r.takeWhile p := by
  intro A
  induction A with
  | nil =>
    intro r _
    rfl
  | cons a A2 ih =>
    intro r h
    rw [List.cons_append, List.takeWhile_cons_of_pos (h a (List.mem_cons_self _ _))]
    rw [ih r (fun x hx => h x (List.mem_cons_of_mem _ hx))]
    rfl

theorem dropWhile_eq_drop (p : Char → Bool) : ∀ (l : List Char),
    l.dropWhile p = l.drop (l.takeWhile p).length := by
  intro l
  induction l with
  | nil => rfl
  | cons c cs ih =>
    by_cases hc : p c = true
    · rw [List.dropWhile_cons_of_pos hc, List.takeWhile_cons_of_pos hc]
      rw [List.length_cons, List.drop_succ_cons]
      exact ih
    · rw [List.dropWhile_cons_of_neg hc, List.takeWhile_cons_of_neg hc]
      rfl

theorem digitRun_exact (c : Char) (w r2 : List Char) (x : Char)
    (hc : Char.isDigit c = true) (hw : ∀ a ∈ w, Char.isDigit a = true)
    (hx : Char.isDigit x = false) :
    digitRun (c :: (w ++ x :: r2)) = w.length + 1 := by
  unfold digitRun
  rw [show (c :: (w ++ x :: r2)) = (c :: w) ++ (x :: r2) from rfl]
  rw [takeWhile_all_front Char.isDigit (c :: w) (x :: r2) (by
    intro a ha
    rcases List.mem_cons.mp ha with rfl | ha2
    · exact hc
    · exact hw a ha2)]
  rw [List.takeWhile_cons_of_neg (by rw [hx]; exact Bool.false_ne_true)]
  simp

theorem decMatch_none_structure (c : Char) (cs : List Char)
    (hd : Char.isDigit c = true) (h : decMatch (c :: cs) = none) :
    ∃ w x r, cs = w ++ x :: r ∧ (∀ a ∈ w, Char.isDigit a = true) ∧
    Char.isDigit x = false ∧ ¬ x = '.' ∧ isWordB x = true := by
  rw [decMatch_eq] at h
  have hD : digitRun (c :: cs) ≠ 0 := by
    unfold digitRun
    rw [List.takeWhile_cons_of_pos hd]
    simp
  rw [if_neg hD] at h
  have hdw : (c :: cs).drop (digitRun (c :: cs)) =
      (c :: cs).dropWhile Char.isDigit := by
    rw [dropWhile_eq_drop]
    rfl
  cases hdrop : (c :: cs).drop (digitRun (c :: cs)) with
  | nil =>
    rw [hdrop] at h
    cases h
  | cons x r =>
    rw [hdrop] at h
    dsimp only at h
    have hx : Char.isDigit x = false := by
      refine dropWhile_head_not Char.isDigit (c :: cs) x ?_
      rw [← hdw, hdrop]
      rfl
    by_cases hxdot : x = '.'
    · rw [if_pos hxdot] at h
      by_cases h2 : 0 < digitRun r
      · rw [if_pos h2] at h
        by_cases h3 : headIsWord (r.drop (digitRun r)) = true
        · rw [if_pos h3] at h
          cases h
        · rw [if_neg h3] at h
          cases h
      · rw [if_neg h2] at h
        by_cases h3 : headIsWord r = true
        · rw [if_pos h3] at h
          cases h
        · rw [if_neg h3] at h
          cases h
    · rw [if_neg hxdot] at h
      by_cases hxw : isWordB x = true
      · refine ⟨cs.take (digitRun (c :: cs) - 1), x, r, ?_, ?_, hx, hxdot, hxw⟩
        · have hsplit := List.take_append_drop (digitRun (c :: cs)) (c :: cs)
          rw [hdrop] at hsplit
          have hD1 : digitRun (c :: cs) = (digitRun (c :: cs) - 1) + 1 := by omega
          rw [hD1, List.take_succ_cons] at hsplit
          have := hsplit
          rw [List.cons_append] at this
          exact ((List.cons.injEq _ _ _ _).mp this).2.symm
        · intro a ha
          have hmem : a ∈ (c :: cs).take (digitRun (c :: cs)) := by
            rw [show digitRun (c :: cs) = (digitRun (c :: cs) - 1) + 1 from by omega,
              List.take_succ_cons]
            exact List.mem_cons_of_mem _ ha
          have heq : (c :: cs).take (digitRun (c :: cs)) =
              (c :: cs).takeWhile Char.isDigit :=
            (List.prefix_iff_eq_take.mp (List.takeWhile_prefix _)).symm
          rw [heq] at hmem
          exact List.mem_takeWhile_imp hmem
      · rw [if_neg hxw] at h
        cases h

theorem decMatch_none_scan (m : List Char → Option Nat) (c : Char) (cs : List Char)
    (fuel : Nat) (hf : cs.length ≤ fuel) (h : decMatch (c :: cs) = none) :
    decMatch (c :: bScanF m fuel (isWordB c) cs) = none := by
  by_cases hd : Char.isDigit c = true
  · obtain ⟨w, x, r, hcs, hw, hns⟩ := decMatch_none_structure c cs hd h
    obtain ⟨hx, hxdot, hxw⟩ := hns
    subst hcs
    rw [isDigit_isWordB c hd]
    rw [show w ++ x :: r = (w ++ [x]) ++ r from by simp]
    rw [bScanF_word_run m (w ++ [x]) fuel r (by
      intro a ha
      rcases List.mem_append.mp ha with ha2 | ha2
      · exact isDigit_isWordB a (hw a ha2)
      · rw [List.mem_singleton.mp ha2]
        exact hxw) (by
      simp only [List.length_append, List.length_cons, List.length_singleton,
        List.length_nil] at hf ⊢
      omega)]
    rw [show (w ++ [x]) ++ bScanF m r.length true r =
      w ++ x :: bScanF m r.length true r from by simp]
    rw [decMatch_eq]
    rw [digitRun_exact c w _ x hd hw hx]
    rw [if_neg (by omega)]
    rw [show (c :: (w ++ x :: bScanF m r.length true r)) =
      (c :: w) ++ (x :: bScanF m r.length true r) from rfl]
    rw [show w.length + 1 = (c :: w).length from by simp]
    rw [List.drop_left]
    dsimp only
    rw [if_neg hxdot, if_pos hxw]
  · exact decMatch_nondigit c (Bool.eq_false_iff.mpr hd) _

theorem hexMatch_not0 (c : Char) (h : ¬ c = '0') (w : List Char) :
    hexMatch (c :: w) = none := by
  cases w with
  | nil => rfl
  | cons c1 w2 =>
    unfold hexMatch
    dsimp only
    rw [if_neg]
    simp only [Bool.and_eq_true, decide_eq_true_eq, not_and]
    intro hh
    exact absurd hh h

theorem hexMatch_badx (c1 : Char) (h : ¬ (c1 = 'x' ∨ c1 = 'X')) (w : List Char) :
    hexMatch ('0' :: c1 :: w) = none := by
  unfold hexMatch
  dsimp only
  rw [if_neg]
  simp only [Bool.and_eq_true, Bool.or_eq_true, decide_eq_true_eq, not_and]
  intro _
  exact h

theorem isHexB_isWordB (c : Char) (h : isHexB c = true) : isWordB c = true := by
  rcases isHexB_toNat c h with h2 | h2 | h2
  · unfold isWordB
    simp only [Char.isDigit, Bool.or_eq_true, Bool.and_eq_true, decide_eq_true_eq]
    exact Or.inl (Or.inr ⟨h2.1, h2.2⟩)
  · unfold isWordB
    simp only [Char.isAlpha, Char.isUpper, Char.isLower, Bool.or_eq_true, Bool.and_eq_true,
      decide_eq_true_eq]
    exact Or.inl (Or.inl (Or.inr ⟨h2.1, Nat.le_trans h2.2 (by norm_num)⟩))
  · unfold isWordB
    simp only [Char.isAlpha, Char.isUpper, Char.isLower, Bool.or_eq_true, Bool.and_eq_true,
      decide_eq_true_eq]
    exact Or.inl (Or.inl (Or.inl ⟨h2.1, Nat.le_trans h2.2 (by norm_num)⟩))

theorem hexMatch_eq3 (c0 c1 : Char) (cs : List Char) : hexMatch (c0 :: c1 :: cs) =
    (if (c0 = '0' && (c1 = 'x' || c1 = 'X')) = true then
      if (cs.takeWhile isHexB).length = 0 then none
      else if headIsWord (cs.drop (cs.takeWhile isHexB).length) = true then none
      else some (2 + (cs.takeWhile isHexB).length)
    else none) := rfl

theorem hexMatch_none_scan (m : List Char → Option Nat) (c : Char) (cs : List Char)
    (fuel : Nat) (hf : cs.length ≤ fuel) (h : hexMatch (c :: cs) = none) :
    hexMatch (c :: bScanF m fuel (isWordB c) cs) = none := by
  by_cases hc0 : c = '0'
  · subst hc0
    rw [show isWordB '0' = true from by decide]
    cases cs with
    | nil =>
      rw [show bScanF m fuel true [] = [] from by cases fuel <;> rfl]
      exact h
    | cons c1 cs2 =>
      simp only [List.length_cons] at hf
      cases fuel with
      | zero => omega
      | succ fuel =>
        by_cases hx : c1 = 'x' ∨ c1 = 'X'
        · have hc1w : isWordB c1 = true := by
            rcases hx with rfl | rfl
            · decide
            · decide
          rw [hexMatch_eq3] at h
          rw [if_pos (by
            simp only [Bool.and_eq_true, Bool.or_eq_true, decide_eq_true_eq,
              eq_self_iff_true, true_and]
            exact hx)] at h
          conv_lhs => unfold bScanF
          rw [if_pos rfl, hc1w]
          by_cases hz : (cs2.takeWhile isHexB).length = 0
          · cases hcs2 : cs2 with
            | nil =>
              rw [show bScanF m fuel true [] = [] from by cases fuel <;> rfl]
              rw [hexMatch_eq3]
              rw [if_pos (by
                simp only [Bool.and_eq_true, Bool.or_eq_true, decide_eq_true_eq,
                  eq_self_iff_true, true_and]
                exact hx)]
              simp
            | cons e cs3 =>
              have he : isHexB e = false := by
                by_cases hh : isHexB e = true
                · rw [hcs2, List.takeWhile_cons_of_pos hh] at hz
                  simp at hz
                · exact Bool.eq_false_iff.mpr hh
              rw [show bScanF m fuel true (e :: cs3) =
                e :: bScanF m (fuel - 1) (isWordB e) cs3 from by
                cases fuel with
                | zero => rfl
                | succ fuel2 =>
                  conv_lhs => unfold bScanF
                  rw [if_pos rfl]
                  rfl]
              rw [hexMatch_eq3]
              rw [if_pos (by
                simp only [Bool.and_eq_true, Bool.or_eq_true, decide_eq_true_eq,
                  eq_self_iff_true, true_and]
                exact hx)]
              rw [List.takeWhile_cons_of_neg (by rw [he]; exact Bool.false_ne_true)]
              simp
          · rw [if_neg hz] at h
            by_cases hw : headIsWord (cs2.drop (cs2.takeWhile isHexB).length) = true
            · cases hdrop : cs2.drop (cs2.takeWhile isHexB).length with
              | nil =>
                rw [hdrop] at hw
                cases hw
              | cons y r =>
                have hyw : isWordB y = true := by
                  rw [hdrop] at hw
                  exact hw
                have hyh : isHexB y = false := by
                  refine dropWhile_head_not isHexB cs2 y ?_
                  rw [dropWhile_eq_drop, hdrop]
                  rfl
                have hsplit : cs2 = cs2.takeWhile isHexB ++ y :: r := by
                  conv_lhs => rw [← List.take_append_drop
                    ((cs2.takeWhile isHexB).length) cs2, hdrop]
                  rw [← List.prefix_iff_eq_take.mp (List.takeWhile_prefix _)]
                conv_lhs => rw [hsplit]
                rw [show cs2.takeWhile isHexB ++ y :: r =
                  (cs2.takeWhile isHexB ++ [y]) ++ r from by simp]
                rw [bScanF_word_run m _ fuel r (by
                  intro a ha
                  rcases List.mem_append.mp ha with ha2 | ha2
                  · exact isHexB_isWordB a (List.mem_takeWhile_imp ha2)
                  · rw [List.mem_singleton.mp ha2]
                    exact hyw) (by
                  have hlen := congrArg List.length hsplit
                  simp only [List.length_append, List.length_cons,
                    List.length_singleton, List.length_nil] at hlen hf ⊢
                  omega)]
                rw [show (cs2.takeWhile isHexB ++ [y]) ++ bScanF m r.length true r =
                  cs2.takeWhile isHexB ++ y :: bScanF m r.length true r from by simp]
                rw [hexMatch_eq3]
                rw [if_pos (by
                  simp only [Bool.and_eq_true, Bool.or_eq_true, decide_eq_true_eq,
                    eq_self_iff_true, true_and]
                  exact hx)]
                rw [takeWhile_all_front isHexB _ _
                  (fun a ha => List.mem_takeWhile_imp ha)]
                rw [List.takeWhile_cons_of_neg (by rw [hyh]; exact Bool.false_ne_true)]
                rw [List.append_nil]
                rw [if_neg hz]
                rw [show (cs2.takeWhile isHexB).length =
                  (cs2.takeWhile isHexB).length + 0 from rfl]
                rw [List.drop_append]
                rw [if_pos (by rw [List.drop_zero]; exact hyw)]
            · rw [if_neg hw] at h
              cases h
        · rw [show bScanF m (fuel + 1) true (c1 :: cs2) =
            c1 :: bScanF m fuel (isWordB c1) cs2 from by
            conv_lhs => unfold bScanF
            rw [if_pos rfl]]
          exact hexMatch_badx c1 hx _
  · exact hexMatch_not0 c hc0 _

theorem getD_of_drop (l : List Char) (n : Nat) (x : Char) (r : List Char) (d : Char)
    (h : l.drop n = x :: r) : l.getD n d = x := by
  rw [List.getD_eq_getElem?_getD, ← List.head?_drop, h]
  rfl

theorem headIsWord_false (X : List Char) (h : headIsWord X = false) :
    X = [] ∨ ∃ y ys, X = y :: ys ∧ isWordB y = false := by
  cases X with
  | nil => exact Or.inl rfl
  | cons y ys => exact Or.inr ⟨y, ys, rfl, h⟩

theorem digitRun_le (l : List Char) : digitRun l ≤ l.length :=
  (List.takeWhile_prefix _).length_le

theorem decMatch_le (u : List Char) (k : Nat) (h : decMatch u = some k) :
    k ≤ u.length := by
  rw [decMatch_eq] at h
  by_cases h0 : digitRun u = 0
  · rw [if_pos h0] at h
    cases h
  · rw [if_neg h0] at h
    have hD := digitRun_le u
    cases hdrop : u.drop (digitRun u) with
    | nil =>
      rw [hdrop] at h
      dsimp only at h
      simp only [Option.some.injEq] at h
      omega
    | cons dot r2 =>
      rw [hdrop] at h
      dsimp only at h
      have hlen : digitRun u + 1 + r2.length = u.length := by
        have := congrArg List.length (List.take_append_drop (digitRun u) u)
        rw [hdrop] at this
        simp only [List.length_append, List.length_take, List.length_cons] at this
        omega
      have hd2 := digitRun_le r2
      by_cases hdq : dot = '.'
      · rw [if_pos hdq] at h
        by_cases h2 : 0 < digitRun r2
        · rw [if_pos h2] at h
          by_cases h3 : headIsWord (r2.drop (digitRun r2)) = true
          · rw [if_pos h3] at h
            simp only [Option.some.injEq] at h
            omega
          · rw [if_neg h3] at h
            simp only [Option.some.injEq] at h
            omega
        · rw [if_neg h2] at h
          by_cases h3 : headIsWord r2 = true
          · rw [if_pos h3] at h
            simp only [Option.some.injEq] at h
            omega
          · rw [if_neg h3] at h
            simp only [Option.some.injEq] at h
            omega
      · rw [if_neg hdq] at h
        by_cases h3 : isWordB dot = true
        · rw [if_pos h3] at h
          cases h
        · rw [if_neg h3] at h
          simp only [Option.some.injEq] at h
          omega

theorem hexMatch_le (u : List Char) (k : Nat) (h : hexMatch u = some k) :
    k ≤ u.length := by
  cases u with
  | nil => cases h
  | cons c0 u1 =>
    cases u1 with
    | nil => cases h
    | cons c1 cs =>
      rw [hexMatch_eq3] at h
      by_cases hp : (c0 = '0' && (c1 = 'x' || c1 = 'X')) = true
      · rw [if_pos hp] at h
        by_cases hz : (cs.takeWhile isHexB).length = 0
        · rw [if_pos hz] at h
          cases h
        · rw [if_neg hz] at h
          by_cases hw : headIsWord (cs.drop (cs.takeWhile isHexB).length) = true
          · rw [if_pos hw] at h
            cases h
          · rw [if_neg hw] at h
            simp only [Option.some.injEq] at h
            have := (List.takeWhile_prefix (p := isHexB) (l := cs)).length_le
            simp only [List.length_cons]
            omega
      · rw [if_neg hp] at h
        cases h

theorem decMatch_after (c : Char) (cs : List Char) (k : Nat)
    (h : decMatch (c :: cs) = some k)
    (hb : isWordB ((c :: cs).getD (k - 1) c) = true) :
    cs.drop (k - 1) = [] ∨ ∃ r0 r1, cs.drop (k - 1) = r0 :: r1 ∧ isWordB r0 = false := by
  have hrest : cs.drop (k - 1) = (c :: cs).drop k := by
    have hk := decMatch_span (c :: cs) k h
    rw [show k = (k - 1) + 1 from by omega, List.drop_succ_cons, Nat.add_sub_cancel]
  rw [hrest]
  rw [decMatch_eq] at h
  by_cases h0 : digitRun (c :: cs) = 0
  · rw [if_pos h0] at h
    cases h
  · rw [if_neg h0] at h
    cases hdrop : (c :: cs).drop (digitRun (c :: cs)) with
    | nil =>
      rw [hdrop] at h
      dsimp only at h
      simp only [Option.some.injEq] at h
      subst h
      rw [hdrop]
      exact Or.inl rfl
    | cons dot r2 =>
      rw [hdrop] at h
      dsimp only at h
      by_cases hdq : dot = '.'
      · rw [if_pos hdq] at h
        by_cases h2 : 0 < digitRun r2
        · rw [if_pos h2] at h
          by_cases h3 : headIsWord (r2.drop (digitRun r2)) = true
          · rw [if_pos h3] at h
            simp only [Option.some.injEq] at h
            subst h
            have hgd : (c :: cs).getD (digitRun (c :: cs) + 1 - 1) c = dot := by
              rw [Nat.add_sub_cancel]
              exact getD_of_drop _ _ dot r2 c hdrop
            rw [hgd, hdq] at hb
            exact absurd hb (by decide)
          · rw [if_neg h3] at h
            simp only [Option.some.injEq] at h
            subst h
            have hdd : (c :: cs).drop (digitRun (c :: cs) + 1 + digitRun r2) =
                r2.drop (digitRun r2) := by
              rw [show digitRun (c :: cs) + 1 + digitRun r2 =
                digitRun (c :: cs) + (1 + digitRun r2) from by omega]
              rw [← List.drop_drop, hdrop]
              rw [show 1 + digitRun r2 = digitRun r2 + 1 from by omega]
              rw [List.drop_succ_cons]
            rw [hdd]
            exact headIsWord_false _ (Bool.eq_false_iff.mpr h3)
        · rw [if_neg h2] at h
          by_cases h3 : headIsWord r2 = true
          · rw [if_pos h3] at h
            simp only [Option.some.injEq] at h
            subst h
            have hgd : (c :: cs).getD (digitRun (c :: cs) + 1 - 1) c = dot := by
              rw [Nat.add_sub_cancel]
              exact getD_of_drop _ _ dot r2 c hdrop
            rw [hgd, hdq] at hb
            exact absurd hb (by decide)
          · rw [if_neg h3] at h
            simp only [Option.some.injEq] at h
            subst h
            rw [hdrop, hdq]
            exact Or.inr ⟨'.', r2, rfl, by decide⟩
      · rw [if_neg hdq] at h
        by_cases h3 : isWordB dot = true
        · rw [if_pos h3] at h
          cases h
        · rw [if_neg h3] at h
          simp only [Option.some.injEq] at h
          subst h
          rw [hdrop]
          exact Or.inr ⟨dot, r2, rfl, Bool.eq_false_iff.mpr h3⟩

theorem hexMatch_after (c : Char) (cs : List Char) (k : Nat)
    (h : hexMatch (c :: cs) = some k) :
    cs.drop (k - 1) = [] ∨ ∃ r0 r1, cs.drop (k - 1) = r0 :: r1 ∧ isWordB r0 = false := by
  have hrest : cs.drop (k - 1) = (c :: cs).drop k := by
    have hk := hexMatch_span (c :: cs) k h
    rw [show k = (k - 1) + 1 from by omega, List.drop_succ_cons, Nat.add_sub_cancel]
  rw [hrest]
  cases cs with
  | nil => cases h
  | cons c1 cs2 =>
    rw [hexMatch_eq3] at h
    by_cases hp : (c = '0' && (c1 = 'x' || c1 = 'X')) = true
    · rw [if_pos hp] at h
      by_cases hz : (cs2.takeWhile isHexB).length = 0
      · rw [if_pos hz] at h
        cases h
      · rw [if_neg hz] at h
        by_cases hw : headIsWord (cs2.drop (cs2.takeWhile isHexB).length) = true
        · rw [if_pos hw] at h
          cases h
        · rw [if_neg hw] at h
          simp only [Option.some.injEq] at h
          subst h
          have hdd : (c :: c1 :: cs2).drop (2 + (cs2.takeWhile isHexB).length) =
              cs2.drop ((cs2.takeWhile isHexB).length) := by
            rw [show 2 + (cs2.takeWhile isHexB).length =
              (cs2.takeWhile isHexB).length + 1 + 1 from by omega]
            rw [List.drop_succ_cons, List.drop_succ_cons]
          rw [hdd]
          exact headIsWord_false _ (Bool.eq_false_iff.mpr hw)
    · rw [if_neg hp] at h
      cases h

theorem lastWordD_ne_nil (b b2 : Bool) (u : List Char) (h : u ≠ []) :
    lastWordD b u = lastWordD b2 u := by
  unfold lastWordD
  cases hgl : u.getLast? with
  | none =>
    cases u with
    | nil => exact absurd rfl h
    | cons d u2 => simp at hgl
  | some e => rfl

theorem lastWordD_take (b : Bool) (l : List Char) (k : Nat) (d : Char)
    (h1 : 1 ≤ k) (h2 : k ≤ l.length) :
    lastWordD b (l.take k) = isWordB (l.getD (k - 1) d) := by
  have hlt : k - 1 < l.length := by omega
  have htake : l.take k = l.take (k - 1) ++ [l.get ⟨k - 1, hlt⟩] := by
    conv_lhs => rw [show k = (k - 1) + 1 from by omega]
    rw [List.take_succ]
    congr 1
    rw [List.getElem?_eq_getElem hlt]
    rfl
  rw [htake]
  unfold lastWordD
  rw [List.getLast?_concat]
  rw [List.getD_eq_getElem?_getD, List.getElem?_eq_getElem hlt]
  rfl

theorem drop_shift (c : Char) (cs : List Char) (k : Nat) (h : 1 ≤ k) :
    cs.drop (k - 1) = (c :: cs).drop k := by
  rw [show k = (k - 1) + 1 from by omega, List.drop_succ_cons, Nat.add_sub_cancel]

theorem noBD_rest (md : List Char → Option Nat) (b : Bool) (c : Char) (cs : List Char)
    (k : Nat) (hk1 : 1 ≤ k) (hkle : k ≤ (c :: cs).length)
    (hno : NoBD md b (c :: cs)) :
    NoBD md (isWordB ((c :: cs).getD (k - 1) c)) (cs.drop (k - 1)) := by
  intro u3 v3 huv hlw
  rw [drop_shift c cs k hk1] at huv
  have hdecomp : (c :: cs) = ((c :: cs).take k ++ u3) ++ v3 := by
    rw [List.append_assoc, ← huv, List.take_append_drop]
  refine hno ((c :: cs).take k ++ u3) v3 hdecomp ?_
  cases u3 with
  | nil =>
    rw [List.append_nil]
    rw [lastWordD_take b (c :: cs) k c hk1 hkle]
    exact hlw
  | cons c3 u4 =>
    rw [lastWordD_append_ne b _ _ (List.cons_ne_nil _ _)]
    rw [lastWordD_ne_nil b (isWordB ((c :: cs).getD (k - 1) c)) _ (List.cons_ne_nil _ _)]
    exact hlw

theorem bScanF_noBD_self (m : List Char → Option Nat)
    (hm0 : m [] = none)
    (hmq : ∀ w, m ('?' :: w) = none)
    (hm3 : ∀ c cs fuel, cs.length ≤ fuel → m (c :: cs) = none →
      m (c :: bScanF m fuel (isWordB c) cs) = none)
    (hm5 : ∀ c cs k, m (c :: cs) = some k →
      isWordB ((c :: cs).getD (k - 1) c) = true →
      cs.drop (k - 1) = [] ∨ ∃ r0 r1, cs.drop (k - 1) = r0 :: r1 ∧ isWordB r0 = false)
    (hm6 : ∀ r0 w, isWordB r0 = false → m (r0 :: w) = none) :
    ∀ (fuel : Nat) (b : Bool) (l : List Char), l.length ≤ fuel →
    NoBD m b (bScanF m fuel b l) := by
  intro fuel
  induction fuel with
  | zero =>
    intro b l hn
    have h0 : l = [] := List.eq_nil_of_length_eq_zero (Nat.le_zero.mp hn)
    subst h0
    intro u v huv _
    obtain ⟨_, hv⟩ := List.append_eq_nil.mp huv.symm
    subst hv
    exact hm0
  | succ fuel ih =>
    intro b l hn
    cases l with
    | nil =>
      intro u v huv _
      obtain ⟨_, hv⟩ := List.append_eq_nil.mp huv.symm
      subst hv
      exact hm0
    | cons c cs =>
      simp only [List.length_cons] at hn
      unfold bScanF
      by_cases hb : b = true
      · rw [if_pos hb]
        intro u v huv hlw
        cases u with
        | nil =>
          rw [hb] at hlw
          cases hlw
        | cons c2 u2 =>
          rw [List.cons_append] at huv
          injection huv with h1 h2
          subst h1
          rw [hb, lastWordD_cons] at hlw
          exact ih (isWordB c) cs (by omega) u2 v h2 hlw
      · rw [if_neg hb]
        have hbf : b = false := Bool.eq_false_iff.mpr hb
        cases hm : m (c :: cs) with
        | none =>
          dsimp only
          intro u v huv hlw
          cases u with
          | nil =>
            rw [List.nil_append] at huv
            rw [← huv]
            exact hm3 c cs fuel (by omega) hm
          | cons c2 u2 =>
            rw [List.cons_append] at huv
            injection huv with h1 h2
            subst h1
            rw [hbf, lastWordD_cons] at hlw
            exact ih (isWordB c) cs (by omega) u2 v h2 hlw
        | some k =>
          dsimp only
          intro u v huv hlw
          have hrl : (cs.drop (k - 1)).length ≤ fuel := by
            have := (List.drop_sublist (k - 1) cs).length_le
            omega
          cases u with
          | nil =>
            rw [List.nil_append] at huv
            rw [← huv]
            exact hmq _
          | cons c2 u2 =>
            rw [List.cons_append] at huv
            injection huv with h1 h2
            subst h1
            rw [hbf, lastWordD_cons, show isWordB '?' = false from by decide] at hlw
            cases u2 with
            | nil =>
              rw [List.nil_append] at h2
              rw [← h2]
              by_cases hb2 : isWordB ((c :: cs).getD (k - 1) c) = true
              · rcases hm5 c cs k hm hb2 with hre | ⟨r0, r1, hre, hr0⟩
                · rw [hre]
                  rw [show bScanF m fuel (isWordB ((c :: cs).getD (k - 1) c)) [] = []
                    from by cases fuel <;> rfl]
                  exact hm0
                · rw [hre]
                  rw [hre] at hrl
                  cases fuel with
                  | zero => simp at hrl
                  | succ fuel2 =>
                    rw [show bScanF m (fuel2 + 1) (isWordB ((c :: cs).getD (k - 1) c))
                        (r0 :: r1) = r0 :: bScanF m fuel2 (isWordB r0) r1 from by
                      conv_lhs => unfold bScanF
                      rw [if_pos hb2]]
                    exact hm6 r0 _ hr0
              · have hb2f : isWordB ((c :: cs).getD (k - 1) c) = false :=
                  Bool.eq_false_iff.mpr hb2
                refine ih (isWordB ((c :: cs).getD (k - 1) c)) (cs.drop (k - 1)) hrl
                  [] _ rfl ?_
                exact hb2f
            | cons c3 u3 =>
              refine ih (isWordB ((c :: cs).getD (k - 1) c)) (cs.drop (k - 1)) hrl
                (c3 :: u3) v h2 ?_
              rw [lastWordD_ne_nil _ false _ (List.cons_ne_nil _ _)]
              exact hlw

theorem bScanF_noBD_cross (m md : List Char → Option Nat)
    (hmd0 : md [] = none)
    (hmdq : ∀ w, md ('?' :: w) = none)
    (hmd3 : ∀ c cs fuel, cs.length ≤ fuel → md (c :: cs) = none →
      md (c :: bScanF m fuel (isWordB c) cs) = none)
    (hm1 : ∀ u k, m u = some k → 1 ≤ k)
    (hmle : ∀ u k, m u = some k → k ≤ u.length)
    (hm5 : ∀ c cs k, m (c :: cs) = some k →
      isWordB ((c :: cs).getD (k - 1) c) = true →
      cs.drop (k - 1) = [] ∨ ∃ r0 r1, cs.drop (k - 1) = r0 :: r1 ∧ isWordB r0 = false)
    (hmd6 : ∀ r0 w, isWordB r0 = false → md (r0 :: w) = none) :
    ∀ (fuel : Nat) (b : Bool) (l : List Char), l.length ≤ fuel → NoBD md b l →
    NoBD md b (bScanF m fuel b l) := by
  intro fuel
  induction fuel with
  | zero =>
    intro b l hn hno
    have h0 : l = [] := List.eq_nil_of_length_eq_zero (Nat.le_zero.mp hn)
    subst h0
    intro u v huv _
    obtain ⟨_, hv⟩ := List.append_eq_nil.mp huv.symm
    subst hv
    exact hmd0
  | succ fuel ih =>
    intro b l hn hno
    cases l with
    | nil =>
      intro u v huv _
      obtain ⟨_, hv⟩ := List.append_eq_nil.mp huv.symm
      subst hv
      exact hmd0
    | cons c cs =>
      simp only [List.length_cons] at hn
      unfold bScanF
      by_cases hb : b = true
      · rw [if_pos hb]
        intro u v huv hlw
        cases u with
        | nil =>
          rw [hb] at hlw
          cases hlw
        | cons c2 u2 =>
          rw [List.cons_append] at huv
          injection huv with h1 h2
          subst h1
          rw [hb, lastWordD_cons] at hlw
          exact ih (isWordB c) cs (by omega) (noBD_tail md b c cs hno) u2 v h2 hlw
      · rw [if_neg hb]
        have hbf : b = false := Bool.eq_false_iff.mpr hb
        cases hm : m (c :: cs) with
        | none =>
          dsimp only
          intro u v huv hlw
          cases u with
          | nil =>
            rw [List.nil_append] at huv
            rw [← huv]
            have hmd : md (c :: cs) = none := by
              refine hno [] (c :: cs) rfl ?_
              rw [show lastWordD b [] = b from rfl, hbf]
            exact hmd3 c cs fuel (by omega) hmd
          | cons c2 u2 =>
            rw [List.cons_append] at huv
            injection huv with h1 h2
            subst h1
            rw [hbf, lastWordD_cons] at hlw
            exact ih (isWordB c) cs (by omega) (noBD_tail md b c cs hno) u2 v h2 hlw
        | some k =>
          dsimp only
          intro u v huv hlw
          have hrl : (cs.drop (k - 1)).length ≤ fuel := by
            have := (List.drop_sublist (k - 1) cs).length_le
            omega
          have hnor : NoBD md (isWordB ((c :: cs).getD (k - 1) c)) (cs.drop (k - 1)) :=
            noBD_rest md b c cs k (hm1 _ k hm) (hmle _ k hm) hno
          cases u with
          | nil =>
            rw [List.nil_append] at huv
            rw [← huv]
            exact hmdq _
          | cons c2 u2 =>
            rw [List.cons_append] at huv
            injection huv with h1 h2
            subst h1
            rw [hbf, lastWordD_cons, show isWordB '?' = false from by decide] at hlw
            cases u2 with
            | nil =>
              rw [List.nil_append] at h2
              rw [← h2]
              by_cases hb2 : isWordB ((c :: cs).getD (k - 1) c) = true
              · rcases hm5 c cs k hm hb2 with hre | ⟨r0, r1, hre, hr0⟩
                · rw [hre]
                  rw [show bScanF m fuel (isWordB ((c :: cs).getD (k - 1) c)) [] = []
                    from by cases fuel <;> rfl]
                  exact hmd0
                · rw [hre]
                  rw [hre] at hrl
                  cases fuel with
                  | zero => simp at hrl
                  | succ fuel2 =>
                    rw [show bScanF m (fuel2 + 1) (isWordB ((c :: cs).getD (k - 1) c))
                        (r0 :: r1) = r0 :: bScanF m fuel2 (isWordB r0) r1 from by
                      conv_lhs => unfold bScanF
                      rw [if_pos hb2]]
                    exact hmd6 r0 _ hr0
              · have hb2f : isWordB ((c :: cs).getD (k - 1) c) = false :=
                  Bool.eq_false_iff.mpr hb2
                refine ih (isWordB ((c :: cs).getD (k - 1) c)) (cs.drop (k - 1)) hrl
                  hnor [] _ rfl ?_
                exact hb2f
            | cons c3 u3 =>
              refine ih (isWordB ((c :: cs).getD (k - 1) c)) (cs.drop (k - 1)) hrl
                hnor (c3 :: u3) v h2 ?_
              rw [lastWordD_ne_nil _ false _ (List.cons_ne_nil _ _)]
              exact hlw

theorem isDigit_iff (c : Char) : Char.isDigit c = true ↔ (48 ≤ c.toNat ∧ c.toNat ≤ 57) := by
  constructor
  · exact isDigit_toNat c
  · intro h
    simp only [Char.isDigit, decide_eq_true_eq, Bool.and_eq_true]
    exact ⟨h.1, h.2⟩

theorem isAlpha_iff (c : Char) : Char.isAlpha c = true ↔
    ((65 ≤ c.toNat ∧ c.toNat ≤ 90) ∨ (97 ≤ c.toNat ∧ c.toNat ≤ 122)) := by
  constructor
  · exact isAlpha_toNat c
  · intro h
    simp only [Char.isAlpha, Char.isUpper, Char.isLower, Bool.or_eq_true, Bool.and_eq_true,
      decide_eq_true_eq]
    rcases h with h | h
    · exact Or.inl ⟨h.1, h.2⟩
    · exact Or.inr ⟨h.1, h.2⟩

theorem isHexB_iff (c : Char) : isHexB c = true ↔
    ((48 ≤ c.toNat ∧ c.toNat ≤ 57) ∨ (97 ≤ c.toNat ∧ c.toNat ≤ 102) ∨
     (65 ≤ c.toNat ∧ c.toNat ≤ 70)) := by
  constructor
  · exact isHexB_toNat c
  · intro h
    unfold isHexB
    simp only [Bool.or_eq_true, Bool.and_eq_true, decide_eq_true_eq]
    rcases h with h | h | h
    · exact Or.inl (Or.inl ((isDigit_iff c).mpr h))
    · exact Or.inl (Or.inr ⟨h.1, h.2⟩)
    · exact Or.inr ⟨h.1, h.2⟩

theorem isWordB_iff (c : Char) : isWordB c = true ↔
    ((48 ≤ c.toNat ∧ c.toNat ≤ 57) ∨ (65 ≤ c.toNat ∧ c.toNat ≤ 90) ∨
     (97 ≤ c.toNat ∧ c.toNat ≤ 122) ∨ c.toNat = 95) := by
  constructor
  · intro h
    unfold isWordB at h
    simp only [Bool.or_eq_true, decide_eq_true_eq] at h
    rcases h with (h | h) | h
    · rcases isAlpha_toNat c h with h2 | h2
      · exact Or.inr (Or.inl h2)
      · exact Or.inr (Or.inr (Or.inl h2))
    · exact Or.inl (isDigit_toNat c h)
    · rw [h]
      exact Or.inr (Or.inr (Or.inr rfl))
  · intro h
    unfold isWordB
    simp only [Bool.or_eq_true, decide_eq_true_eq]
    rcases h with h | h | h | h
    · exact Or.inl (Or.inr ((isDigit_iff c).mpr h))
    · exact Or.inl (Or.inl ((isAlpha_iff c).mpr (Or.inl h)))
    · exact Or.inl (Or.inl ((isAlpha_iff c).mpr (Or.inr h)))
    · refine Or.inr ?_
      rw [char_eq_iff_toNat, h]
      rfl

theorem isDigit_toUpper (c : Char) : Char.isDigit c.toUpper = Char.isDigit c := by
  by_cases hc : 97 ≤ c.toNat ∧ c.toNat ≤ 122
  · have hu := toUpper_toNat_lower c hc.1 hc.2
    have h1 : Char.isDigit c.toUpper = false := by
      rw [← Bool.not_eq_true, isDigit_iff, hu]
      omega
    have h2 : Char.isDigit c = false := by
      rw [← Bool.not_eq_true, isDigit_iff]
      omega
    rw [h1, h2]
  · rw [toUpper_eq_self c hc]

theorem isAlpha_toUpper (c : Char) : Char.isAlpha c.toUpper = Char.isAlpha c := by
  by_cases hc : 97 ≤ c.toNat ∧ c.toNat ≤ 122
  · have hu := toUpper_toNat_lower c hc.1 hc.2
    have h1 : Char.isAlpha c.toUpper = true := by
      rw [isAlpha_iff, hu]
      omega
    have h2 : Char.isAlpha c = true := (isAlpha_iff c).mpr (Or.inr hc)
    rw [h1, h2]
  · rw [toUpper_eq_self c hc]

theorem isHexB_toUpper (c : Char) : isHexB c.toUpper = isHexB c := by
  by_cases hc : 97 ≤ c.toNat ∧ c.toNat ≤ 122
  · have hu := toUpper_toNat_lower c hc.1 hc.2
    by_cases hh : 97 ≤ c.toNat ∧ c.toNat ≤ 102
    · have h1 : isHexB c.toUpper = true := by
        rw [isHexB_iff, hu]
        omega
      have h2 : isHexB c = true := (isHexB_iff c).mpr (Or.inr (Or.inl hh))
      rw [h1, h2]
    · have h1 : isHexB c.toUpper = false := by
        rw [← Bool.not_eq_true, isHexB_iff, hu]
        omega
      have h2 : isHexB c = false := by
        rw [← Bool.not_eq_true, isHexB_iff]
        omega
      rw [h1, h2]
  · rw [toUpper_eq_self c hc]

theorem isWordB_toUpper (c : Char) : isWordB c.toUpper = isWordB c := by
  by_cases hc : 97 ≤ c.toNat ∧ c.toNat ≤ 122
  · have hu := toUpper_toNat_lower c hc.1 hc.2
    have h1 : isWordB c.toUpper = true := by
      rw [isWordB_iff, hu]
      omega
    have h2 : isWordB c = true := (isWordB_iff c).mpr (Or.inr (Or.inr (Or.inl hc)))
    rw [h1, h2]
  · rw [toUpper_eq_self c hc]

theorem pySpace_not_word (c : Char) (h : pySpace c = true) : isWordB c = false := by
  rw [pySpace_iff_toNat] at h
  rw [← Bool.not_eq_true, isWordB_iff]
  omega

theorem isPunct4_not_word (c : Char) (h : isPunct4 c = true) : isWordB c = false := by
  rw [isPunct4_iff_toNat] at h
  rw [← Bool.not_eq_true, isWordB_iff]
  omega

theorem pySpace_not_digit (c : Char) (h : pySpace c = true) : Char.isDigit c = false := by
  rw [pySpace_iff_toNat] at h
  rw [← Bool.not_eq_true, isDigit_iff]
  omega

theorem isPunct4_not_digit (c : Char) (h : isPunct4 c = true) : Char.isDigit c = false := by
  rw [isPunct4_iff_toNat] at h
  rw [← Bool.not_eq_true, isDigit_iff]
  omega

theorem pySpace_not_hex (c : Char) (h : pySpace c = true) : isHexB c = false := by
  rw [pySpace_iff_toNat] at h
  rw [← Bool.not_eq_true, isHexB_iff]
  omega

theorem isPunct4_not_hex (c : Char) (h : isPunct4 c = true) : isHexB c = false := by
  rw [isPunct4_iff_toNat] at h
  rw [← Bool.not_eq_true, isHexB_iff]
  omega

theorem pySpace_ne_dot (c : Char) (h : pySpace c = true) : ¬ c = '.' := by
  rw [pySpace_iff_toNat] at h
  intro hh
  rw [char_eq_iff_toNat, show ('.' : Char).toNat = 46 from by decide] at hh
  omega

theorem isPunct4_ne_dot (c : Char) (h : isPunct4 c = true) : ¬ c = '.' := by
  rw [isPunct4_iff_toNat] at h
  intro hh
  rw [char_eq_iff_toNat, show ('.' : Char).toNat = 46 from by decide] at hh
  omega

theorem pySpace_ne_zero (c : Char) (h : pySpace c = true) : ¬ c = '0' := by
  rw [pySpace_iff_toNat] at h
  intro hh
  rw [char_eq_iff_toNat, show ('0' : Char).toNat = 48 from by decide] at hh
  omega

theorem isPunct4_ne_zero (c : Char) (h : isPunct4 c = true) : ¬ c = '0' := by
  rw [isPunct4_iff_toNat] at h
  intro hh
  rw [char_eq_iff_toNat, show ('0' : Char).toNat = 48 from by decide] at hh
  omega

theorem hexPrefix_toUpper (c : Char) :
    (c.toUpper = 'x' ∨ c.toUpper = 'X') ↔ (c = 'x' ∨ c = 'X') := by
  by_cases hc : 97 ≤ c.toNat ∧ c.toNat ≤ 122
  · have hu := toUpper_toNat_lower c hc.1 hc.2
    constructor
    · intro h
      rcases h with h | h
      · rw [char_eq_iff_toNat, hu, show ('x' : Char).toNat = 120 from by decide] at h
        omega
      · rw [char_eq_iff_toNat, hu, show ('X' : Char).toNat = 88 from by decide] at h
        left
        rw [char_eq_iff_toNat, show ('x' : Char).toNat = 120 from by decide]
        omega
    · intro h
      rcases h with rfl | rfl
      · right
        rw [char_eq_iff_toNat, hu]
        decide
      · exact absurd hc (by decide)
  · rw [toUpper_eq_self c hc]

theorem caseRel_run (p : Char → Bool) (hp : ∀ c, p c.toUpper = p c) :
    ∀ {a b : List Char}, CaseRel a b →
    (a.takeWhile p).length = (b.takeWhile p).length ∧
    CaseRel (a.drop ((a.takeWhile p).length)) (b.drop ((b.takeWhile p).length)) := by
  intro a b h
  induction h with
  | nil => exact ⟨rfl, CaseRel.nil⟩
  | same c h2 ih =>
    by_cases hc : p c = true
    · constructor
      · rw [List.takeWhile_cons_of_pos hc, List.takeWhile_cons_of_pos hc]
        simp only [List.length_cons]
        rw [ih.1]
      · rw [List.takeWhile_cons_of_pos hc, List.takeWhile_cons_of_pos hc]
        simp only [List.length_cons, List.drop_succ_cons]
        exact ih.2
    · constructor
      · rw [List.takeWhile_cons_of_neg hc, List.takeWhile_cons_of_neg hc]
      · rw [List.takeWhile_cons_of_neg hc, List.takeWhile_cons_of_neg hc]
        simp only [List.length_nil, List.drop_zero]
        exact CaseRel.same c h2
  | up c h2 ih =>
    by_cases hc : p c = true
    · have hcu : p c.toUpper = true := by rw [hp c]; exact hc
      constructor
      · rw [List.takeWhile_cons_of_pos hc, List.takeWhile_cons_of_pos hcu]
        simp only [List.length_cons]
        rw [ih.1]
      · rw [List.takeWhile_cons_of_pos hc, List.takeWhile_cons_of_pos hcu]
        simp only [List.length_cons, List.drop_succ_cons]
        exact ih.2
    · have hcu : ¬ p c.toUpper = true := by rw [hp c]; exact hc
      constructor
      · rw [List.takeWhile_cons_of_neg hc, List.takeWhile_cons_of_neg hcu]
      · rw [List.takeWhile_cons_of_neg hc, List.takeWhile_cons_of_neg hcu]
        simp only [List.length_nil, List.drop_zero]
        exact CaseRel.up c h2

theorem caseRel_headIsWord : ∀ {x y : List Char}, CaseRel x y →
    headIsWord x = headIsWord y := by
  intro x y h
  cases h with
  | nil => rfl
  | same c h2 => rfl
  | up c h2 =>
    show isWordB c = isWordB c.toUpper
    rw [isWordB_toUpper]

theorem caseRel_head (a b : List Char) (h : CaseRel a b) :
    (a = [] ∧ b = []) ∨ ∃ c c2 t t2, a = c :: t ∧ b = c2 :: t2 ∧
      (c2 = c ∨ c2 = c.toUpper) ∧ CaseRel t t2 := by
  cases h with
  | nil => exact Or.inl ⟨rfl, rfl⟩
  | same c h2 => exact Or.inr ⟨c, c, _, _, rfl, rfl, Or.inl rfl, h2⟩
  | up c h2 => exact Or.inr ⟨c, c.toUpper, _, _, rfl, rfl, Or.inr rfl, h2⟩

theorem decMatch_caseRel : ∀ {a b : List Char}, CaseRel a b →
    decMatch a = decMatch b := by
  intro a b h
  obtain ⟨hrun, hres⟩ := caseRel_run Char.isDigit isDigit_toUpper h
  rw [decMatch_eq, decMatch_eq]
  unfold digitRun
  rw [hrun] at hres ⊢
  by_cases h0 : (b.takeWhile Char.isDigit).length = 0
  · rw [if_pos h0, if_pos h0]
  · rw [if_neg h0, if_neg h0]
    rcases caseRel_head _ _ hres with ⟨hda, hdb⟩ | ⟨c, c2, t, t2, hda, hdb, hcc, h2⟩
    · rw [hda, hdb]
    · rw [hda, hdb]
      dsimp only
      have hdotiff : (c2 = '.') ↔ (c = '.') := by
        rcases hcc with rfl | rfl
        · exact Iff.rfl
        · exact toUpper_eq_iff c '.' (by decide) (by decide)
      have hwiff : isWordB c2 = isWordB c := by
        rcases hcc with rfl | rfl
        · rfl
        · exact isWordB_toUpper c
      by_cases hdot : c = '.'
      · rw [if_pos hdot, if_pos (hdotiff.mpr hdot)]
        obtain ⟨hrun2, hres2⟩ := caseRel_run Char.isDigit isDigit_toUpper h2
        rw [hrun2] at hres2 ⊢
        by_cases h2p : 0 < (t2.takeWhile Char.isDigit).length
        · rw [if_pos h2p, if_pos h2p]
          rw [caseRel_headIsWord hres2]
        · rw [if_neg h2p, if_neg h2p]
          rw [caseRel_headIsWord h2]
      · rw [if_neg hdot, if_neg (fun hh => hdot (hdotiff.mp hh))]
        rw [hwiff]

theorem hexMatch_caseRel : ∀ {a b : List Char}, CaseRel a b →
    hexMatch a = hexMatch b := by
  intro a b h
  rcases caseRel_head a b h with ⟨rfl, rfl⟩ | ⟨c, c2, t, t2, rfl, rfl, hc, h2⟩
  · rfl
  rcases caseRel_head t t2 h2 with ⟨rfl, rfl⟩ | ⟨d, d2, t3, t4, rfl, rfl, hd, h3⟩
  · rfl
  rw [hexMatch_eq3, hexMatch_eq3]
  have hc0 : (c2 = '0') ↔ (c = '0') := by
    rcases hc with rfl | rfl
    · exact Iff.rfl
    · exact toUpper_eq_iff c '0' (by decide) (by decide)
  have hdx : (d2 = 'x' ∨ d2 = 'X') ↔ (d = 'x' ∨ d = 'X') := by
    rcases hd with rfl | rfl
    · exact Iff.rfl
    · exact hexPrefix_toUpper d
  by_cases hcc : c = '0'
  · by_cases hdd : d = 'x' ∨ d = 'X'
    · have hpa : (c = '0' && (d = 'x' || d = 'X')) = true := by
        simp only [Bool.and_eq_true, Bool.or_eq_true, decide_eq_true_eq]
        exact ⟨hcc, hdd⟩
      have hpb : (c2 = '0' && (d2 = 'x' || d2 = 'X')) = true := by
        simp only [Bool.and_eq_true, Bool.or_eq_true, decide_eq_true_eq]
        exact ⟨hc0.mpr hcc, hdx.mpr hdd⟩
      rw [if_pos hpa, if_pos hpb]
      obtain ⟨hrun, hres⟩ := caseRel_run isHexB isHexB_toUpper h3
      rw [hrun] at hres ⊢
      by_cases hz : (t4.takeWhile isHexB).length = 0
      · rw [if_pos hz, if_pos hz]
      · rw [if_neg hz, if_neg hz]
        rw [caseRel_headIsWord hres]
    · have hpa : ¬ (c = '0' && (d = 'x' || d = 'X')) = true := by
        simp only [Bool.and_eq_true, Bool.or_eq_true, decide_eq_true_eq, not_and]
        intro _
        exact hdd
      have hpb : ¬ (c2 = '0' && (d2 = 'x' || d2 = 'X')) = true := by
        simp only [Bool.and_eq_true, Bool.or_eq_true, decide_eq_true_eq, not_and]
        intro _
        exact fun hh => hdd (hdx.mp hh)
      rw [if_neg hpa, if_neg hpb]
  · have hpa : ¬ (c = '0' && (d = 'x' || d = 'X')) = true := by
      simp only [Bool.and_eq_true, Bool.or_eq_true, decide_eq_true_eq, not_and]
      intro hh
      exact absurd hh hcc
    have hpb : ¬ (c2 = '0' && (d2 = 'x' || d2 = 'X')) = true := by
      simp only [Bool.and_eq_true, Bool.or_eq_true, decide_eq_true_eq, not_and]
      intro hh
      exact absurd (hc0.mp hh) hcc
    rw [if_neg hpa, if_neg hpb]

theorem delRel_run (p : Char → Bool) (hsp : ∀ c, pySpace c = true → p c = false)
    (hpu : ∀ c, isPunct4 c = true → p c = false) :
    ∀ {a b : List Char}, DelRel a b →
    (a.takeWhile p).length = (b.takeWhile p).length ∧
    DelRel (a.drop ((a.takeWhile p).length)) (b.drop ((b.takeWhile p).length)) := by
  intro a b h
  induction h with
  | nil => exact ⟨rfl, DelRel.nil⟩
  | keep c h2 ih =>
    by_cases hc : p c = true
    · constructor
      · rw [List.takeWhile_cons_of_pos hc, List.takeWhile_cons_of_pos hc]
        simp only [List.length_cons]
        rw [ih.1]
      · rw [List.takeWhile_cons_of_pos hc, List.takeWhile_cons_of_pos hc]
        simp only [List.length_cons, List.drop_succ_cons]
        exact ih.2
    · constructor
      · rw [List.takeWhile_cons_of_neg hc, List.takeWhile_cons_of_neg hc]
      · rw [List.takeWhile_cons_of_neg hc, List.takeWhile_cons_of_neg hc]
        simp only [List.length_nil, List.drop_zero]
        exact DelRel.keep c h2
  | keepPunct c sps hc hs h2 ih =>
    have hpc : ¬ p c = true := by
      rw [hpu c hc]
      exact Bool.false_ne_true
    constructor
    · rw [List.takeWhile_cons_of_neg hpc, List.takeWhile_cons_of_neg hpc]
    · rw [List.takeWhile_cons_of_neg hpc, List.takeWhile_cons_of_neg hpc]
      simp only [List.length_nil, List.drop_zero]
      exact DelRel.keepPunct c sps hc hs h2
  | delBefore c hc hp h2 ih =>
    rename_i t t2
    have hpc : ¬ p c = true := by
      rw [hsp c hc]
      exact Bool.false_ne_true
    obtain ⟨p2, hp1, hp2⟩ := hp
    cases t2 with
    | nil => cases hp1
    | cons q w =>
      have hqe : q = p2 := by simpa using hp1
      have hpq : ¬ p q = true := by
        rw [hqe, hpu p2 hp2]
        exact Bool.false_ne_true
      constructor
      · rw [List.takeWhile_cons_of_neg hpc, List.takeWhile_cons_of_neg hpq]
      · rw [List.takeWhile_cons_of_neg hpc, List.takeWhile_cons_of_neg hpq]
        simp only [List.length_nil, List.drop_zero]
        exact DelRel.delBefore c hc ⟨p2, hp1, hp2⟩ h2

theorem delRel_headIsWord : ∀ {x y : List Char}, DelRel x y →
    headIsWord x = headIsWord y := by
  intro x y h
  cases h with
  | nil => rfl
  | keep c h2 => rfl
  | keepPunct c sps hc hs h2 => rfl
  | delBefore c hc hp h2 =>
    rename_i t
    obtain ⟨p, hp1, hp2⟩ := hp
    cases y with
    | nil => cases hp1
    | cons p2 w =>
      have hpe : p2 = p := by simpa using hp1
      show isWordB c = isWordB p2
      rw [pySpace_not_word c hc, hpe, isPunct4_not_word p hp2]

theorem decMatch_delRel : ∀ {a b : List Char}, DelRel a b →
    decMatch a = decMatch b := by
  intro a b h
  obtain ⟨hrun, hres⟩ := delRel_run Char.isDigit pySpace_not_digit isPunct4_not_digit h
  rw [decMatch_eq, decMatch_eq]
  unfold digitRun
  rw [hrun] at hres ⊢
  by_cases h0 : (b.takeWhile Char.isDigit).length = 0
  · rw [if_pos h0, if_pos h0]
  · rw [if_neg h0, if_neg h0]
    generalize a.drop ((b.takeWhile Char.isDigit).length) = da at hres ⊢
    generalize b.drop ((b.takeWhile Char.isDigit).length) = db at hres ⊢
    cases hres with
    | nil => rfl
    | keep d h2 =>
      dsimp only
      by_cases hdot : d = '.'
      · rw [if_pos hdot, if_pos hdot]
        obtain ⟨hrun2, hres2⟩ := delRel_run Char.isDigit pySpace_not_digit
          isPunct4_not_digit h2
        rw [hrun2] at hres2 ⊢
        rename_i t t2
        by_cases h2p : 0 < (t2.takeWhile Char.isDigit).length
        · rw [if_pos h2p, if_pos h2p]
          rw [delRel_headIsWord hres2]
        · rw [if_neg h2p, if_neg h2p]
          rw [delRel_headIsWord h2]
      · rw [if_neg hdot, if_neg hdot]
    | keepPunct d sps hd hs h2 =>
      dsimp only
      have hdot : ¬ d = '.' := isPunct4_ne_dot d hd
      rw [if_neg hdot, if_neg hdot]
    | delBefore d hd hp h2 =>
      rename_i t
      obtain ⟨p2, hp1, hp2⟩ := hp
      cases db with
      | nil => cases hp1
      | cons q w =>
        have hqe : q = p2 := by simpa using hp1
        have hqd : ¬ q = '.' := by rw [hqe]; exact isPunct4_ne_dot p2 hp2
        have hdw : ¬ isWordB d = true := by
          rw [pySpace_not_word d hd]
          exact Bool.false_ne_true
        have hqw : ¬ isWordB q = true := by
          rw [hqe, isPunct4_not_word p2 hp2]
          exact Bool.false_ne_true
        dsimp only
        rw [if_neg (pySpace_ne_dot d hd), if_neg hqd, if_neg hdw, if_neg hqw]

theorem isPunct4_ne_xX (c : Char) (h : isPunct4 c = true) : ¬ (c = 'x' ∨ c = 'X') := by
  rw [isPunct4_iff_toNat] at h
  intro hh
  rcases hh with hh | hh
  · rw [char_eq_iff_toNat, show ('x' : Char).toNat = 120 from by decide] at hh
    omega
  · rw [char_eq_iff_toNat, show ('X' : Char).toNat = 88 from by decide] at hh
    omega

theorem pySpace_ne_xX (c : Char) (h : pySpace c = true) : ¬ (c = 'x' ∨ c = 'X') := by
  rw [pySpace_iff_toNat] at h
  intro hh
  rcases hh with hh | hh
  · rw [char_eq_iff_toNat, show ('x' : Char).toNat = 120 from by decide] at hh
    omega
  · rw [char_eq_iff_toNat, show ('X' : Char).toNat = 88 from by decide] at hh
    omega

theorem hexMatch_delRel : ∀ {a b : List Char}, DelRel a b →
    hexMatch a = hexMatch b := by
  intro a b h
  cases h with
  | nil => rfl
  | keep c h2 =>
    cases h2 with
    | nil => rfl
    | keep d h3 =>
      rw [hexMatch_eq3, hexMatch_eq3]
      by_cases hp : (c = '0' && (d = 'x' || d = 'X')) = true
      · rw [if_pos hp, if_pos hp]
        obtain ⟨hrun, hres⟩ := delRel_run isHexB pySpace_not_hex isPunct4_not_hex h3
        rw [hrun] at hres ⊢
        rename_i t t2
        by_cases hz : (t2.takeWhile isHexB).length = 0
        · rw [if_pos hz, if_pos hz]
        · rw [if_neg hz, if_neg hz]
          rw [delRel_headIsWord hres]
      · rw [if_neg hp, if_neg hp]
    | keepPunct d sps hd hs h3 =>
      rw [hexMatch_eq3, hexMatch_eq3]
      have hnd : ¬ (c = '0' && (d = 'x' || d = 'X')) = true := by
        simp only [Bool.and_eq_true, Bool.or_eq_true, decide_eq_true_eq, not_and]
        intro _
        exact isPunct4_ne_xX d hd
      rw [if_neg hnd, if_neg hnd]
    | delBefore d hd hp h3 =>
      rename_i u2 t
      obtain ⟨p2, hp1, hp2⟩ := hp
      cases u2 with
      | nil => cases hp1
      | cons q w =>
        have hqe : q = p2 := by simpa using hp1
        rw [hexMatch_eq3, hexMatch_eq3]
        rw [if_neg (by
          simp only [Bool.and_eq_true, Bool.or_eq_true, decide_eq_true_eq, not_and]
          intro _
          exact pySpace_ne_xX d hd)]
        rw [if_neg (by
          simp only [Bool.and_eq_true, Bool.or_eq_true, decide_eq_true_eq, not_and]
          intro _
          rw [hqe]
          exact isPunct4_ne_xX p2 hp2)]
  | keepPunct c sps hc hs h2 =>
    rw [hexMatch_not0 c (isPunct4_ne_zero c hc) _, hexMatch_not0 c (isPunct4_ne_zero c hc) _]
  | delBefore c hc hp h2 =>
    rename_i t
    obtain ⟨p2, hp1, hp2⟩ := hp
    cases b with
    | nil => cases hp1
    | cons q w =>
      have hqe : q = p2 := by simpa using hp1
      rw [hexMatch_not0 c (pySpace_ne_zero c hc) _]
      rw [hexMatch_not0 q (by rw [hqe]; exact isPunct4_ne_zero p2 hp2) _]

theorem caseRel_lastWordD : ∀ {x y : List Char}, CaseRel x y → ∀ b : Bool,
    lastWordD b x = lastWordD b y := by
  intro x y h
  induction h with
  | nil =>
    intro b
    rfl
  | same c h2 ih =>
    intro b
    rw [lastWordD_cons, lastWordD_cons]
    exact ih (isWordB c)
  | up c h2 ih =>
    intro b
    rw [lastWordD_cons, lastWordD_cons, isWordB_toUpper]
    exact ih (isWordB c)

theorem caseRel_split : ∀ {a b : List Char}, CaseRel a b → ∀ u v, b = u ++ v →
    ∃ u2 v2, a = u2 ++ v2 ∧ CaseRel u2 u ∧ CaseRel v2 v := by
  intro a b h
  induction h with
  | nil =>
    intro u v huv
    obtain ⟨hu, hv⟩ := List.append_eq_nil.mp huv.symm
    subst hu
    subst hv
    exact ⟨[], [], rfl, CaseRel.nil, CaseRel.nil⟩
  | same c h2 ih =>
    rename_i t t2
    intro u v huv
    cases u with
    | nil =>
      rw [List.nil_append] at huv
      refine ⟨[], c :: t, rfl, CaseRel.nil, ?_⟩
      rw [← huv]
      exact CaseRel.same c h2
    | cons c2 u2 =>
      rw [List.cons_append] at huv
      injection huv with h1 h2e
      obtain ⟨u3, v3, ha, hr1, hr2⟩ := ih u2 v h2e
      refine ⟨c :: u3, v3, by rw [ha]; rfl, ?_, hr2⟩
      rw [← h1]
      exact CaseRel.same c hr1
  | up c h2 ih =>
    rename_i t t2
    intro u v huv
    cases u with
    | nil =>
      rw [List.nil_append] at huv
      refine ⟨[], c :: t, rfl, CaseRel.nil, ?_⟩
      rw [← huv]
      exact CaseRel.up c h2
    | cons c2 u2 =>
      rw [List.cons_append] at huv
      injection huv with h1 h2e
      obtain ⟨u3, v3, ha, hr1, hr2⟩ := ih u2 v h2e
      refine ⟨c :: u3, v3, by rw [ha]; rfl, ?_, hr2⟩
      rw [← h1]
      exact CaseRel.up c hr1

theorem lastWordD_all_space (b : Bool) (sps : List Char)
    (hs : ∀ x ∈ sps, pySpace x = true) (hne : sps ≠ []) :
    lastWordD b sps = false := by
  unfold lastWordD
  cases hgl : sps.getLast? with
  | none =>
    cases sps with
    | nil => exact absurd rfl hne
    | cons d u2 => simp at hgl
  | some e =>
    have hmem := List.mem_of_mem_getLast? hgl
    exact pySpace_not_word e (hs e hmem)

theorem delRel_split : ∀ {a b : List Char}, DelRel a b → ∀ u v, b = u ++ v →
    ∃ u2 v2, a = u2 ++ v2 ∧ DelRel v2 v ∧
      (lastWordD false u = false → lastWordD false u2 = false) ∧
      (u2 = [] → u = []) := by
  intro a b h
  induction h with
  | nil =>
    intro u v huv
    obtain ⟨hu, hv⟩ := List.append_eq_nil.mp huv.symm
    subst hu
    subst hv
    exact ⟨[], [], rfl, DelRel.nil, fun h => h, fun _ => rfl⟩
  | keep c h2 ih =>
    rename_i s s2
    intro u v huv
    cases u with
    | nil =>
      rw [List.nil_append] at huv
      refine ⟨[], c :: s, rfl, ?_, fun h => h, fun _ => rfl⟩
      rw [← huv]
      exact DelRel.keep c h2
    | cons c2 u2 =>
      rw [List.cons_append] at huv
      injection huv with h1 h2e
      obtain ⟨u3, v3, ha, hr, hlw, hnil⟩ := ih u2 v h2e
      refine ⟨c :: u3, v3, by rw [ha]; rfl, hr, ?_,
        fun hh => absurd hh (List.cons_ne_nil _ _)⟩
      intro hfu
      rw [← h1] at hfu
      rw [lastWordD_cons] at hfu
      rw [lastWordD_cons]
      cases u3 with
      | nil =>
        rw [hnil rfl] at hfu
        exact hfu
      | cons c3 u4 =>
        rw [lastWordD_ne_nil _ false _ (List.cons_ne_nil _ _)]
        refine hlw ?_
        cases u2 with
        | nil => rfl
        | cons c4 u5 =>
          rw [lastWordD_ne_nil false (isWordB c) _ (List.cons_ne_nil _ _)]
          exact hfu
  | keepPunct c sps hc hs h2 ih =>
    rename_i s s2
    intro u v huv
    cases u with
    | nil =>
      rw [List.nil_append] at huv
      refine ⟨[], c :: (sps ++ s), rfl, ?_, fun h => h, fun _ => rfl⟩
      rw [← huv]
      exact DelRel.keepPunct c sps hc hs h2
    | cons c2 u2 =>
      rw [List.cons_append] at huv
      injection huv with h1 h2e
      obtain ⟨u3, v3, ha, hr, hlw, hnil⟩ := ih u2 v h2e
      have hasm : c :: (sps ++ s) = (c :: (sps ++ u3)) ++ v3 := by
        rw [ha, List.cons_append, List.append_assoc]
      refine ⟨c :: (sps ++ u3), v3, hasm, hr, ?_,
        fun hh => absurd hh (List.cons_ne_nil _ _)⟩
      intro hfu
      have hpre : lastWordD false u3 = false := by
        refine hlw ?_
        cases u2 with
        | nil => rfl
        | cons c4 u5 =>
          rw [← h1] at hfu
          rw [lastWordD_cons] at hfu
          rw [lastWordD_ne_nil false (isWordB c) _ (List.cons_ne_nil _ _)]
          exact hfu
      rw [lastWordD_cons]
      cases u3 with
      | nil =>
        cases hsps : sps with
        | nil =>
          show isWordB c = false
          exact isPunct4_not_word c hc
        | cons d sps2 =>
          rw [List.append_nil]
          rw [lastWordD_ne_nil (isWordB c) false _ (List.cons_ne_nil _ _)]
          exact lastWordD_all_space false (d :: sps2)
            (fun x hx => hs x (by rw [hsps]; exact hx)) (List.cons_ne_nil _ _)
      | cons c3 u4 =>
        have hne : sps ++ c3 :: u4 ≠ [] := by
          intro hh
          exact List.cons_ne_nil _ _ (List.append_eq_nil.mp hh).2
        rw [lastWordD_ne_nil (isWordB c) false _ hne]
        rw [lastWordD_append_ne false sps (c3 :: u4) (List.cons_ne_nil _ _)]
        exact hpre
  | delBefore c hc hp h2 ih =>
    rename_i s
    intro u v huv
    obtain ⟨u3, v3, ha, hr, hlw, hnil⟩ := ih u v huv
    refine ⟨c :: u3, v3, by rw [ha]; rfl, hr, ?_,
      fun hh => absurd hh (List.cons_ne_nil _ _)⟩
    intro hfu
    rw [lastWordD_cons]
    cases u3 with
    | nil =>
      show isWordB c = false
      exact pySpace_not_word c hc
    | cons c3 u4 =>
      rw [lastWordD_ne_nil (isWordB c) false _ (List.cons_ne_nil _ _)]
      exact hlw hfu

theorem caseRel_noBD (md : List Char → Option Nat)
    (hinv : ∀ {x y : List Char}, CaseRel x y → md x = md y) :
    ∀ {t t2 : List Char}, CaseRel t t2 → NoBD md false t → NoBD md false t2 := by
  intro t t2 h hno u v huv hlw
  obtain ⟨u2, v2, ha, hr1, hr2⟩ := caseRel_split h u v huv
  rw [← hinv hr2]
  refine hno u2 v2 ha ?_
  rw [caseRel_lastWordD hr1 false]
  exact hlw

theorem delRel_noBD (md : List Char → Option Nat)
    (hinv : ∀ {x y : List Char}, DelRel x y → md x = md y) :
    ∀ {t t2 : List Char}, DelRel t t2 → NoBD md false t → NoBD md false t2 := by
  intro t t2 h hno u v huv hlw
  obtain ⟨u2, v2, ha, hr, hlwi, _⟩ := delRel_split h u v huv
  rw [← hinv hr]
  exact hno u2 v2 ha (hlwi hlw)

theorem splitWs_word (w : List Char) (hne : w ≠ []) (hw : wsFree w) :
    splitWs w = [w] := by
  unfold splitWs
  rw [show w = w ++ [] from (List.append_nil w).symm, splitWsAux_wsFree_append w [] [] hw]
  unfold splitWsAux
  rw [List.append_nil, List.isEmpty_eq_false.mpr (by simpa using hne),
    if_neg Bool.false_ne_true, List.reverse_reverse, List.append_nil]

theorem splitJoin_id : ∀ (ws : List (List Char)),
    (∀ w ∈ ws, w ≠ [] ∧ wsFree w) → splitWs (joinWords ws) = ws := by
  intro ws
  induction ws with
  | nil =>
    intro _
    rfl
  | cons w ws2 ih =>
    intro h
    obtain ⟨hwne, hwfree⟩ := h w (List.mem_cons_self _ _)
    cases ws2 with
    | nil => exact splitWs_word w hwne hwfree
    | cons v ws3 =>
      show splitWs (w ++ ' ' :: joinWords (v :: ws3)) = w :: v :: ws3
      unfold splitWs
      rw [splitWsAux_wsFree_append w [] _ hwfree, List.append_nil]
      rw [splitWsAux_space_cons _ ' ' _ (by decide) (by simpa using hwne)]
      rw [List.reverse_reverse]
      congr 1
      exact ih (fun u hu => h u (List.mem_cons_of_mem _ hu))

theorem pyPunct_iff_toNat (c : Char) : pyPunct c = true ↔
    ((33 ≤ c.toNat ∧ c.toNat ≤ 47) ∨ (58 ≤ c.toNat ∧ c.toNat ≤ 64) ∨
     (91 ≤ c.toNat ∧ c.toNat ≤ 96) ∨ (123 ≤ c.toNat ∧ c.toNat ≤ 126)) := by
  unfold pyPunct
  simp only [Bool.or_eq_true, Bool.and_eq_true, decide_eq_true_eq]
  tauto

theorem pyPunct_not_alpha (c : Char) (h : pyPunct c = true) : Char.isAlpha c = false := by
  rw [pyPunct_iff_toNat] at h
  rw [← Bool.not_eq_true, isAlpha_iff]
  omega

theorem alpha_not_pyPunct (c : Char) (h : Char.isAlpha c = true) : pyPunct c = false := by
  have h2 := isAlpha_toNat c h
  rw [← Bool.not_eq_true, pyPunct_iff_toNat]
  omega

theorem pyPunct_not_upper (c : Char) (h : pyPunct c = true) :
    ¬ (65 ≤ c.toNat ∧ c.toNat ≤ 90) := by
  rw [pyPunct_iff_toNat] at h
  omega

theorem pyPunct_not_lower (c : Char) (h : pyPunct c = true) :
    ¬ (97 ≤ c.toNat ∧ c.toNat ≤ 122) := by
  rw [pyPunct_iff_toNat] at h
  omega

theorem toUpper_idem (c : Char) : c.toUpper.toUpper = c.toUpper := by
  by_cases hc : 97 ≤ c.toNat ∧ c.toNat ≤ 122
  · have hu := toUpper_toNat_lower c hc.1 hc.2
    refine toUpper_eq_self _ ?_
    omega
  · rw [toUpper_eq_self c hc]
    exact toUpper_eq_self c hc

theorem map_toUpper_idem (l : List Char) :
    (l.map Char.toUpper).map Char.toUpper = l.map Char.toUpper := by
  rw [List.map_map]
  refine List.map_congr_left ?_
  intro c _
  exact toUpper_idem c

theorem map_toLower_punct (A : List Char) (h : ∀ c ∈ A, pyPunct c = true) :
    A.map Char.toLower = A := by
  induction A with
  | nil => rfl
  | cons a A2 ih =>
    rw [List.map_cons, toLower_eq_self a (pyPunct_not_upper a (h a (List.mem_cons_self _ _))),
      ih (fun c hc => h c (List.mem_cons_of_mem _ hc))]

theorem toLower_toNat_upper (c : Char) (h1 : 65 ≤ c.toNat) (h2 : c.toNat ≤ 90) :
    c.toLower.toNat = c.toNat + 32 := by
  have hv : (c.toNat + 32).isValidChar := Or.inl (by omega)
  unfold Char.toLower
  rw [if_pos]
  · exact charOfNat_toNat _ hv
  · exact ⟨h1, h2⟩

theorem pyPunct_toLower (a : Char) (h : pyPunct a.toLower = true) : pyPunct a = true := by
  by_cases ha : 65 ≤ a.toNat ∧ a.toNat ≤ 90
  · have hl := toLower_toNat_upper a ha.1 ha.2
    rw [pyPunct_iff_toNat] at h
    omega
  · rwa [toLower_eq_self a ha] at h

theorem dropWhile_all_front (p : Char → Bool) : ∀ (A r : List Char),
    (∀ a ∈ A, p a = true) → (A ++ r).dropWhile p = r.dropWhile p := by
  intro A
  induction A with
  | nil =>
    intro r _
    rfl
  | cons a A2 ih =>
    intro r h
    rw [List.cons_append, List.dropWhile_cons_of_pos (h a (List.mem_cons_self _ _))]
    exact ih r (fun x hx => h x (List.mem_cons_of_mem _ hx))

theorem stripPunct_parse (A X B : List Char)
    (hA : ∀ c ∈ A, pyPunct c = true) (hB : ∀ c ∈ B, pyPunct c = true)
    (hXne : X ≠ []) (hX : ∀ c ∈ X, pyPunct c = false) :
    stripPunct (A ++ X ++ B) = X := by
  unfold stripPunct
  rw [List.append_assoc, dropWhile_all_front pyPunct A (X ++ B) hA]
  cases X with
  | nil => exact absurd rfl hXne
  | cons x xs =>
    have hx : ¬ pyPunct x = true := by
      rw [hX x (List.mem_cons_self _ _)]
      exact Bool.false_ne_true
    rw [List.cons_append, List.dropWhile_cons_of_neg hx, ← List.cons_append,
      List.reverse_append]
    rw [dropWhile_all_front pyPunct B.reverse (x :: xs).reverse
      (fun c hc => hB c (List.mem_reverse.mp hc))]
    have hrne : (x :: xs).reverse ≠ [] := by
      simp
    obtain ⟨y, ys, hy⟩ := List.exists_cons_of_ne_nil hrne
    have hyx : y ∈ x :: xs := by
      rw [← List.mem_reverse, hy]
      exact List.mem_cons_self _ _
    have hy2 : ¬ pyPunct y = true := by
      rw [hX y hyx]
      exact Bool.false_ne_true
    rw [hy, List.dropWhile_cons_of_neg hy2]
    rw [← hy, List.reverse_reverse]

theorem stripPunct_decomp (w : List Char) :
    ∃ A B, w = A ++ stripPunct w ++ B ∧
      (∀ c ∈ A, pyPunct c = true) ∧ (∀ c ∈ B, pyPunct c = true) := by
  refine ⟨w.takeWhile pyPunct, ((w.dropWhile pyPunct).reverse.takeWhile pyPunct).reverse,
    ?_, ?_, ?_⟩
  · unfold stripPunct
    conv_lhs => rw [← List.takeWhile_append_dropWhile pyPunct w]
    rw [List.append_assoc]
    congr 1
    conv_lhs => rw [← List.reverse_reverse (w.dropWhile pyPunct),
      ← List.takeWhile_append_dropWhile pyPunct (w.dropWhile pyPunct).reverse]
    rw [List.reverse_append]
  · exact fun c hc => List.mem_takeWhile_imp hc
  · intro c hc
    rw [List.mem_reverse] at hc
    exact List.mem_takeWhile_imp hc

theorem clean_kw_decomp (w : List Char)
    (h : sqlKeywords.contains (stripPunct (w.map Char.toLower)) = true) :
    ∃ A C B, w = A ++ C ++ B ∧
      (∀ c ∈ A, pyPunct c = true) ∧ (∀ c ∈ B, pyPunct c = true) ∧
      C ≠ [] ∧ (∀ c ∈ C, Char.isAlpha c = true) ∧
      C.map Char.toLower = stripPunct (w.map Char.toLower) := by
  have hmem : stripPunct (w.map Char.toLower) ∈ sqlKeywords := List.mem_of_elem_eq_true h
  obtain ⟨hkne, hkal⟩ := sqlKeywords_alpha _ hmem
  obtain ⟨A0, B0, hw0, hA0, hB0⟩ := stripPunct_decomp (w.map Char.toLower)
  rw [List.append_assoc] at hw0
  obtain ⟨A, r, hwAr, hAmap, hrmap⟩ := List.append_eq_map_iff.mp hw0.symm
  obtain ⟨C, B, hrCB, hCmap, hBmap⟩ := List.append_eq_map_iff.mp hrmap.symm
  refine ⟨A, C, B, by rw [hwAr, hrCB, List.append_assoc], ?_, ?_, ?_, ?_, hCmap⟩
  · intro c hc
    refine pyPunct_toLower c (hA0 _ ?_)
    rw [← hAmap]
    exact List.mem_map_of_mem _ hc
  · intro c hc
    refine pyPunct_toLower c (hB0 _ ?_)
    rw [← hBmap]
    exact List.mem_map_of_mem _ hc
  · intro hCnil
    apply hkne
    rw [← hCmap, hCnil]
    rfl
  · intro c hc
    refine isAlpha_of_toLower c (hkal _ ?_)
    rw [← hCmap]
    exact List.mem_map_of_mem _ hc

theorem takeWhile_notAlpha_parse (A C B : List Char)
    (hA : ∀ c ∈ A, pyPunct c = true) (hCne : C ≠ [])
    (hC : ∀ c ∈ C, Char.isAlpha c = true) :
    (A ++ C ++ B).takeWhile (fun c => !c.isAlpha) = A := by
  rw [List.append_assoc, takeWhile_all_front _ A (C ++ B) (fun a ha => by
    simp [pyPunct_not_alpha a (hA a ha)])]
  cases C with
  | nil => exact absurd rfl hCne
  | cons c cs =>
    have hc : ¬ (!(Char.isAlpha c)) = true := by
      simp [hC c (List.mem_cons_self _ _)]
    have h2 : List.takeWhile (fun c => !c.isAlpha) (c :: (cs ++ B)) = [] :=
      List.takeWhile_cons_of_neg hc
    rw [List.cons_append, h2, List.append_nil]

theorem transformWord_parse (A C B : List Char)
    (hA : ∀ c ∈ A, pyPunct c = true) (hB : ∀ c ∈ B, pyPunct c = true)
    (hCne : C ≠ []) (hC : ∀ c ∈ C, Char.isAlpha c = true)
    (hk : sqlKeywords.contains (stripPunct ((A ++ C ++ B).map Char.toLower)) = true)
    (hne : ¬ (A ++ C ++ B) = stripPunct ((A ++ C ++ B).map Char.toLower)) :
    transformWord (A ++ C ++ B) = A ++ C.map Char.toUpper ++ B := by
  unfold transformWord
  rw [if_pos hk, if_neg hne]
  dsimp only
  have hsp : ((A ++ C ++ B).takeWhile (fun c => !c.isAlpha)).length = A.length := by
    rw [takeWhile_notAlpha_parse A C B hA hCne hC]
  have hep : ((A ++ C ++ B).reverse.takeWhile (fun c => !c.isAlpha)).length = B.length := by
    have hrev : (A ++ C ++ B).reverse = B.reverse ++ C.reverse ++ A.reverse := by
      rw [List.reverse_append, List.reverse_append, ← List.append_assoc]
    rw [hrev, takeWhile_notAlpha_parse B.reverse C.reverse A.reverse
      (fun c hc => hB c (List.mem_reverse.mp hc)) (by simpa using hCne)
      (fun c hc => hC c (List.mem_reverse.mp hc)), List.length_reverse]
  rw [hsp, hep]
  have hlen : (A ++ C ++ B).length - B.length - A.length = C.length := by
    simp only [List.length_append]
    omega
  have hlen2 : (A ++ C ++ B).length - B.length = (A ++ C).length := by
    simp only [List.length_append]
    omega
  rw [hlen, hlen2, List.drop_left (A ++ C) B, List.append_assoc A C B,
    List.take_left A (C ++ B), List.drop_left A (C ++ B), List.take_left C B]

theorem class_prefix_unique (P Q : Char → Bool)
    (hPQ : ∀ c, P c = true → Q c = true → False) :
    ∀ (X1 Y1 X2 Y2 : List Char), X1 ++ Y1 = X2 ++ Y2 →
    (∀ c ∈ X1, P c = true) → (∀ c ∈ X2, P c = true) →
    (∀ c, Y1.head? = some c → Q c = true) → (∀ c, Y2.head? = some c → Q c = true) →
    X1 = X2 ∧ Y1 = Y2 := by
  intro X1
  induction X1 with
  | nil =>
    intro Y1 X2 Y2 heq hX1 hX2 hY1 hY2
    cases X2 with
    | nil => exact ⟨rfl, heq⟩
    | cons a A2 =>
      exfalso
      have h1 : Y1 = a :: (A2 ++ Y2) := by simpa using heq
      exact hPQ a (hX2 a (List.mem_cons_self _ _)) (hY1 a (by rw [h1]; rfl))
  | cons a A1 ih =>
    intro Y1 X2 Y2 heq hX1 hX2 hY1 hY2
    cases X2 with
    | nil =>
      exfalso
      have h1 : Y2 = a :: (A1 ++ Y1) := by simpa using heq.symm
      exact hPQ a (hX1 a (List.mem_cons_self _ _)) (hY2 a (by rw [h1]; rfl))
    | cons b X2b =>
      have hab : a = b ∧ A1 ++ Y1 = X2b ++ Y2 := by simpa using heq
      obtain ⟨hab1, heq2⟩ := hab
      obtain ⟨h1, h2⟩ := ih Y1 X2b Y2 heq2 (fun c hc => hX1 c (List.mem_cons_of_mem _ hc))
        (fun c hc => hX2 c (List.mem_cons_of_mem _ hc)) hY1 hY2
      exact ⟨by rw [hab1, h1], h2⟩

theorem head_all (p : Char → Bool) (L : List Char) (h : ∀ c ∈ L, p c = true) :
    ∀ c, L.head? = some c → p c = true := by
  intro c hc
  cases L with
  | nil => exact absurd hc (by simp)
  | cons x xs =>
    simp only [List.head?_cons, Option.some.injEq] at hc
    rw [← hc]
    exact h x (List.mem_cons_self _ _)

theorem punct_alpha_conflict : ∀ c : Char, pyPunct c = true → Char.isAlpha c = true → False := by
  intro c hp ha
  rw [pyPunct_not_alpha c hp] at ha
  exact Bool.false_ne_true ha

theorem alpha_punct_conflict : ∀ c : Char, Char.isAlpha c = true → pyPunct c = true → False :=
  fun c ha hp => punct_alpha_conflict c hp ha

theorem parse_unique (A1 C1 B1 A2 C2 B2 : List Char)
    (heq : A1 ++ C1 ++ B1 = A2 ++ C2 ++ B2)
    (hA1 : ∀ c ∈ A1, pyPunct c = true) (hC1 : ∀ c ∈ C1, Char.isAlpha c = true)
    (hB1 : ∀ c ∈ B1, pyPunct c = true)
    (hA2 : ∀ c ∈ A2, pyPunct c = true) (hC2 : ∀ c ∈ C2, Char.isAlpha c = true)
    (hB2 : ∀ c ∈ B2, pyPunct c = true)
    (hC1ne : C1 ≠ []) (hC2ne : C2 ≠ []) :
    A1 = A2 ∧ C1 = C2 ∧ B1 = B2 := by
  rw [List.append_assoc, List.append_assoc] at heq
  have hhd1 : ∀ c, (C1 ++ B1).head? = some c → Char.isAlpha c = true := by
    cases C1 with
    | nil => exact absurd rfl hC1ne
    | cons x xs =>
      intro c hc
      rw [List.cons_append, List.head?_cons, Option.some.injEq] at hc
      rw [← hc]
      exact hC1 x (List.mem_cons_self _ _)
  have hhd2 : ∀ c, (C2 ++ B2).head? = some c → Char.isAlpha c = true := by
    cases C2 with
    | nil => exact absurd rfl hC2ne
    | cons x xs =>
      intro c hc
      rw [List.cons_append, List.head?_cons, Option.some.injEq] at hc
      rw [← hc]
      exact hC2 x (List.mem_cons_self _ _)
  obtain ⟨hA, hrest⟩ := class_prefix_unique pyPunct Char.isAlpha punct_alpha_conflict
    A1 (C1 ++ B1) A2 (C2 ++ B2) heq hA1 hA2 hhd1 hhd2
  obtain ⟨hC, hB⟩ := class_prefix_unique Char.isAlpha pyPunct alpha_punct_conflict
    C1 B1 C2 B2 hrest hC1 hC2 (head_all pyPunct B1 hB1) (head_all pyPunct B2 hB2)
  exact ⟨hA, hC, hB⟩

theorem map_eq_self_mem (f : Char → Char) : ∀ (l : List Char), l.map f = l →
    ∀ c ∈ l, f c = c := by
  intro l
  induction l with
  | nil =>
    intro _ c hc
    exact absurd hc (List.not_mem_nil c)
  | cons a l2 ih =>
    intro h c hc
    rw [List.map_cons] at h
    injection h with h1 h2
    rcases List.mem_cons.mp hc with rfl | hc2
    · exact h1
    · exact ih h2 c hc2

theorem isAlpha_of_toNat (c : Char)
    (h : (65 ≤ c.toNat ∧ c.toNat ≤ 90) ∨ (97 ≤ c.toNat ∧ c.toNat ≤ 122)) :
    Char.isAlpha c = true := by
  simp only [Char.isAlpha, Char.isUpper, Char.isLower, Bool.or_eq_true, Bool.and_eq_true,
    decide_eq_true_eq]
  rcases h with ⟨h1, h2⟩ | ⟨h1, h2⟩
  · exact Or.inl ⟨h1, h2⟩
  · exact Or.inr ⟨h1, h2⟩

theorem isAlpha_toLower (c : Char) (h : Char.isAlpha c = true) :
    Char.isAlpha c.toLower = true := by
  rcases isAlpha_toNat c h with ⟨h1, h2⟩ | ⟨h1, h2⟩
  · have h3 := toLower_toNat_upper c h1 h2
    exact isAlpha_of_toNat _ (Or.inr (by omega))
  · rw [toLower_eq_self c (by omega)]
    exact h

theorem sqlKeywords_lowercase :
    ∀ kw ∈ sqlKeywords, ∀ c ∈ kw, 97 ≤ c.toNat ∧ c.toNat ≤ 122 := by decide

theorem woKw_transformWord_id (w : List Char) (h : WOKw w) : transformWord w = w := by
  by_cases hk : sqlKeywords.contains (stripPunct (w.map Char.toLower)) = true
  · obtain ⟨A, C, B, hw, hA, hB, hCne, hC, hCmap⟩ := clean_kw_decomp w hk
    have hkwmem : C.map Char.toLower ∈ sqlKeywords := by
      rw [hCmap]
      exact List.mem_of_elem_eq_true hk
    have hup : C.map Char.toUpper = C := h A C B hw hA hB hCne hC hkwmem
    by_cases hne : w = stripPunct (w.map Char.toLower)
    · exfalso
      have h1 : A ++ C ++ B = C.map Char.toLower := by
        rw [← hw, hne, ← hCmap]
      have h2 := congrArg List.length h1
      simp only [List.length_append, List.length_map] at h2
      have hAnil : A = [] := List.eq_nil_of_length_eq_zero (by omega)
      have hBnil : B = [] := List.eq_nil_of_length_eq_zero (by omega)
      rw [hAnil, hBnil, List.nil_append, List.append_nil] at h1
      obtain ⟨c, hcmem⟩ := List.exists_mem_of_ne_nil C hCne
      have hlow : Char.toLower c = c := map_eq_self_mem Char.toLower C h1.symm c hcmem
      have hupc : Char.toUpper c = c := map_eq_self_mem Char.toUpper C hup c hcmem
      rcases isAlpha_toNat c (hC c hcmem) with ⟨h1a, h2a⟩ | ⟨h1a, h2a⟩
      · have h3 := toLower_toNat_upper c h1a h2a
        rw [hlow] at h3
        omega
      · have h3 := toUpper_toNat_lower c h1a h2a
        rw [hupc] at h3
        omega
    · rw [hw] at hk hne ⊢
      rw [transformWord_parse A C B hA hB hCne hC hk hne, hup]
  · unfold transformWord
    rw [if_neg hk]

theorem transformWord_WOKw (w : List Char) : WOKw (transformWord w) := by
  intro A M B hparse hA hB hMne hM hkwM
  by_cases hk : sqlKeywords.contains (stripPunct (w.map Char.toLower)) = true
  · obtain ⟨A0, C0, B0, hw, hA0, hB0, hC0ne, hC0, hC0map⟩ := clean_kw_decomp w hk
    by_cases hne : w = stripPunct (w.map Char.toLower)
    · have ht : transformWord w = w.map Char.toUpper := by
        unfold transformWord
        rw [if_pos hk, if_pos hne]
      have hwmem : w ∈ sqlKeywords := by
        rw [hne]
        exact List.mem_of_elem_eq_true hk
      have hwchars := sqlKeywords_lowercase w hwmem
      have htchars : ∀ c ∈ transformWord w, 65 ≤ c.toNat ∧ c.toNat ≤ 90 := by
        rw [ht]
        intro c hc
        rcases List.mem_map.mp hc with ⟨d, hd, rfl⟩
        have hd2 := hwchars d hd
        have h3 := toUpper_toNat_lower d hd2.1 hd2.2
        omega
      have hAnil : A = [] := by
        cases A with
        | nil => rfl
        | cons a A2 =>
          exfalso
          have hmem : a ∈ transformWord w := by
            rw [hparse]
            exact List.mem_append.mpr (Or.inl (List.mem_append.mpr
              (Or.inl (List.mem_cons_self _ _))))
          have hp := hA a (List.mem_cons_self _ _)
          have hr := htchars a hmem
          rw [pyPunct_iff_toNat] at hp
          omega
      have hBnil : B = [] := by
        cases B with
        | nil => rfl
        | cons b B2 =>
          exfalso
          have hmem : b ∈ transformWord w := by
            rw [hparse]
            exact List.mem_append.mpr (Or.inr (List.mem_cons_self _ _))
          have hp := hB b (List.mem_cons_self _ _)
          have hr := htchars b hmem
          rw [pyPunct_iff_toNat] at hp
          omega
      have hMt : M = transformWord w := by
        rw [hparse, hAnil, hBnil, List.nil_append, List.append_nil]
      rw [hMt, ht]
      exact map_toUpper_idem w
    · have ht : transformWord w = A0 ++ C0.map Char.toUpper ++ B0 := by
        rw [hw] at hk hne ⊢
        rw [transformWord_parse A0 C0 B0 hA0 hB0 hC0ne hC0 hk hne]
      rw [ht] at hparse
      obtain ⟨hAe, hMe, hBe⟩ := parse_unique A0 (C0.map Char.toUpper) B0 A M B hparse
        hA0 (fun c hc => by
          rcases List.mem_map.mp hc with ⟨d, hd, rfl⟩
          rw [isAlpha_toUpper]
          exact hC0 d hd)
        hB0 hA hM hB (by simpa using hC0ne) hMne
      rw [← hMe]
      exact map_toUpper_idem C0
  · have ht : transformWord w = w := by
      unfold transformWord
      rw [if_neg hk]
    rw [ht] at hparse
    exfalso
    apply hk
    have hclean : stripPunct (w.map Char.toLower) = M.map Char.toLower := by
      rw [hparse, List.map_append, List.map_append, map_toLower_punct A hA,
        map_toLower_punct B hB]
      exact stripPunct_parse A (M.map Char.toLower) B hA hB (by simpa using hMne)
        (fun c hc => by
          rcases List.mem_map.mp hc with ⟨d, hd, rfl⟩
          exact alpha_not_pyPunct _ (isAlpha_toLower d (hM d hd)))
    rw [hclean]
    exact List.elem_eq_true_of_mem hkwM

/-- One list is obtained from the other by deleting some whitespace
characters, keeping everything else in order. -/
inductive SpaceSub : List Char → List Char → Prop
  | nil : SpaceSub [] []
  | keep (c : Char) {t t2 : List Char} : SpaceSub t t2 → SpaceSub (c :: t) (c :: t2)
  | del (c : Char) {t t2 : List Char} (hc : pySpace c = true) :
      SpaceSub t t2 → SpaceSub (c :: t) t2

theorem spaceSub_del_append : ∀ (sps : List Char), (∀ x ∈ sps, pySpace x = true) →
    ∀ {t t2 : List Char}, SpaceSub t t2 → SpaceSub (sps ++ t) t2 := by
  intro sps
  induction sps with
  | nil =>
    intro _ t t2 h
    exact h
  | cons d sps2 ih =>
    intro hs t t2 h
    exact SpaceSub.del d (hs d (List.mem_cons_self _ _))
      (ih (fun x hx => hs x (List.mem_cons_of_mem _ hx)) h)

theorem delRel_spaceSub : ∀ {a b : List Char}, DelRel a b → SpaceSub a b := by
  intro a b h
  induction h with
  | nil => exact SpaceSub.nil
  | keep c h2 ih => exact SpaceSub.keep c ih
  | keepPunct c sps hc hs h2 ih => exact SpaceSub.keep c (spaceSub_del_append sps hs ih)
  | delBefore c hc hp h2 ih => exact SpaceSub.del c hc ih

theorem delRel_split_zone : ∀ {a b : List Char}, DelRel a b → ∀ u v, b = u ++ v →
    ∃ u2 v2, a = u2 ++ v2 ∧ DelRel v2 v ∧ SpaceSub u2 u := by
  intro a b h
  induction h with
  | nil =>
    intro u v huv
    obtain ⟨hu, hv⟩ := List.append_eq_nil.mp huv.symm
    subst hu
    subst hv
    exact ⟨[], [], rfl, DelRel.nil, SpaceSub.nil⟩
  | keep c h2 ih =>
    rename_i s s2
    intro u v huv
    cases u with
    | nil =>
      rw [List.nil_append] at huv
      refine ⟨[], c :: s, rfl, ?_, SpaceSub.nil⟩
      rw [← huv]
      exact DelRel.keep c h2
    | cons c2 u2 =>
      rw [List.cons_append] at huv
      injection huv with h1 h2e
      obtain ⟨u3, v3, ha, hr, hss⟩ := ih u2 v h2e
      refine ⟨c :: u3, v3, by rw [ha]; rfl, hr, ?_⟩
      rw [← h1]
      exact SpaceSub.keep c hss
  | keepPunct c sps hc hs h2 ih =>
    rename_i s s2
    intro u v huv
    cases u with
    | nil =>
      rw [List.nil_append] at huv
      refine ⟨[], c :: (sps ++ s), rfl, ?_, SpaceSub.nil⟩
      rw [← huv]
      exact DelRel.keepPunct c sps hc hs h2
    | cons c2 u2 =>
      rw [List.cons_append] at huv
      injection huv with h1 h2e
      obtain ⟨u3, v3, ha, hr, hss⟩ := ih u2 v h2e
      have hasm : c :: (sps ++ s) = (c :: (sps ++ u3)) ++ v3 := by
        rw [ha, List.cons_append, List.append_assoc]
      refine ⟨c :: (sps ++ u3), v3, hasm, hr, ?_⟩
      rw [← h1]
      exact SpaceSub.keep c (spaceSub_del_append sps hs hss)
  | delBefore c hc hp h2 ih =>
    intro u v huv
    obtain ⟨u3, v3, ha, hr, hss⟩ := ih u v huv
    exact ⟨c :: u3, v3, by rw [ha]; rfl, hr, SpaceSub.del c hc hss⟩

theorem spaceSub_append_keep : ∀ {a b : List Char}, SpaceSub a b → ∀ (c : Char),
    SpaceSub (a ++ [c]) (b ++ [c]) := by
  intro a b h
  induction h with
  | nil =>
    intro c
    exact SpaceSub.keep c SpaceSub.nil
  | keep d h2 ih =>
    intro c
    exact SpaceSub.keep d (ih c)
  | del d hd h2 ih =>
    intro c
    exact SpaceSub.del d hd (ih c)

theorem spaceSub_append_del : ∀ {a b : List Char}, SpaceSub a b → ∀ (c : Char),
    pySpace c = true → SpaceSub (a ++ [c]) b := by
  intro a b h
  induction h with
  | nil =>
    intro c hc
    exact SpaceSub.del c hc SpaceSub.nil
  | keep d h2 ih =>
    intro c hc
    exact SpaceSub.keep d (ih c hc)
  | del d hd h2 ih =>
    intro c hc
    exact SpaceSub.del d hd (ih c hc)

theorem spaceSub_reverse : ∀ {a b : List Char}, SpaceSub a b →
    SpaceSub a.reverse b.reverse := by
  intro a b h
  induction h with
  | nil => exact SpaceSub.nil
  | keep d h2 ih =>
    rw [List.reverse_cons, List.reverse_cons]
    exact spaceSub_append_keep ih d
  | del d hd h2 ih =>
    rw [List.reverse_cons]
    exact spaceSub_append_del ih d hd

theorem spaceSub_zoneR : ∀ {a b : List Char}, SpaceSub a b →
    (∀ c ∈ b.takeWhile (fun d => !pySpace d), pyPunct c = true) →
    ∀ c ∈ a.takeWhile (fun d => !pySpace d), pyPunct c = true := by
  intro a b h
  induction h with
  | nil =>
    intro _ c hc
    exact absurd hc (by simp)
  | keep d h2 ih =>
    intro hz c hc
    by_cases hd : pySpace d = true
    · rw [List.takeWhile_cons_of_neg (by simp [hd])] at hc
      exact absurd hc (List.not_mem_nil c)
    · rw [List.takeWhile_cons_of_pos (by simp [hd])] at hc
      rw [List.takeWhile_cons_of_pos (by simp [hd])] at hz
      rcases List.mem_cons.mp hc with rfl | hc2
      · exact hz c (List.mem_cons_self _ _)
      · exact ih (fun x hx => hz x (List.mem_cons_of_mem _ hx)) c hc2
  | del d hd h2 ih =>
    intro hz c hc
    rw [List.takeWhile_cons_of_neg (by simp [hd])] at hc
    exact absurd hc (List.not_mem_nil c)

theorem spaceSub_zoneL : ∀ {a b : List Char}, SpaceSub a b →
    (∀ c ∈ b.reverse.takeWhile (fun d => !pySpace d), pyPunct c = true) →
    ∀ c ∈ a.reverse.takeWhile (fun d => !pySpace d), pyPunct c = true :=
  fun h => spaceSub_zoneR (spaceSub_reverse h)

theorem isPunct4_not_alpha (c : Char) (h : isPunct4 c = true) : Char.isAlpha c = false := by
  have h2 := isPunct4_not_word c h
  rw [← Bool.not_eq_true]
  intro ha
  rw [show isWordB c = (c.isAlpha || c.isDigit || c = '_') from rfl, ha] at h2
  simp at h2

theorem delRel_alpha_front : ∀ (M : List Char), (∀ c ∈ M, Char.isAlpha c = true) →
    ∀ (w2 y : List Char), DelRel w2 (M ++ y) → ∃ y2, w2 = M ++ y2 ∧ DelRel y2 y := by
  intro M
  induction M with
  | nil =>
    intro _ w2 y h
    exact ⟨w2, rfl, by simpa using h⟩
  | cons m M2 ih =>
    intro hM w2 y h
    rw [List.cons_append] at h
    cases h with
    | keep _ h2 =>
      obtain ⟨y2, hw, hr⟩ := ih (fun c hc => hM c (List.mem_cons_of_mem _ hc)) _ y h2
      exact ⟨y2, by rw [hw, List.cons_append], hr⟩
    | keepPunct _ sps hc hs h2 =>
      have := isPunct4_not_alpha m hc
      rw [hM m (List.mem_cons_self _ _)] at this
      exact Bool.noConfusion this
    | delBefore _ hc hp h2 =>
      obtain ⟨p, hp1, hp2⟩ := hp
      rw [List.head?_cons, Option.some.injEq] at hp1
      rw [← hp1] at hp2
      have := isPunct4_not_alpha m hp2
      rw [hM m (List.mem_cons_self _ _)] at this
      exact Bool.noConfusion this

theorem dropWhile_head_false (p : Char → Bool) (l : List Char) (c : Char) (cs : List Char)
    (h : l.dropWhile p = c :: cs) : p c = false := by
  have hne : l.dropWhile p ≠ [] := by
    rw [h]
    exact List.cons_ne_nil _ _
  have h2 := List.head_dropWhile_not p l hne
  simp only [h, List.head_cons] at h2
  exact h2

theorem splitWsAux_notWs_step (acc : List Char) (c : Char) (cs : List Char)
    (hc : pySpace c = false) :
    splitWsAux acc (c :: cs) = splitWsAux (c :: acc) cs := by
  conv_lhs => unfold splitWsAux
  rw [if_neg (by rw [hc]; exact Bool.false_ne_true)]

theorem splitWsAux_ws_nil_step (c : Char) (cs : List Char) (hc : pySpace c = true) :
    splitWsAux [] (c :: cs) = splitWsAux [] cs := by
  conv_lhs => unfold splitWsAux
  rw [if_pos hc]
  rfl

theorem mem_splitWsAux_seg (seg v : List Char) (hsegne : seg ≠ []) (hseg : wsFree seg)
    (hv : v = [] ∨ ∃ c v0, v = c :: v0 ∧ pySpace c = true) :
    ∀ (u acc : List Char), wsFree acc → (u = [] → acc = []) →
    (∀ c, u.getLast? = some c → pySpace c = true) →
    seg ∈ splitWsAux acc (u ++ (seg ++ v)) := by
  intro u
  induction u with
  | nil =>
    intro acc _ hann _
    rw [hann rfl, List.nil_append, splitWsAux_wsFree_append seg [] v hseg, List.append_nil]
    rcases hv with rfl | ⟨c, v0, rfl, hc⟩
    · have h1 : splitWsAux seg.reverse [] = [seg] := by
        conv_lhs => unfold splitWsAux
        rw [List.isEmpty_eq_false.mpr (by simpa using hsegne), if_neg Bool.false_ne_true,
          List.reverse_reverse]
      rw [h1]
      exact List.mem_cons_self _ _
    · rw [splitWsAux_space_cons seg.reverse c v0 hc (by simpa using hsegne),
        List.reverse_reverse]
      exact List.mem_cons_self _ _
  | cons a u2 ih =>
    intro acc hacc hann hlast
    rw [List.cons_append]
    have hlast2 : ∀ c, u2.getLast? = some c → pySpace c = true := by
      intro c hc
      apply hlast
      cases u2 with
      | nil => exact absurd hc (by simp)
      | cons b u3 =>
        rw [List.getLast?_cons_cons]
        exact hc
    by_cases ha : pySpace a = true
    · have hstep : seg ∈ splitWsAux [] (u2 ++ (seg ++ v)) :=
        ih [] (fun c hc => absurd hc (List.not_mem_nil c)) (fun _ => rfl) hlast2
      by_cases hacce : acc = []
      · rw [hacce, splitWsAux_ws_nil_step a _ ha]
        exact hstep
      · rw [splitWsAux_space_cons acc a _ ha hacce]
        exact List.mem_cons_of_mem _ hstep
    · have ha2 : pySpace a = false := by
        cases h2 : pySpace a
        · rfl
        · exact absurd h2 ha
      rw [splitWsAux_notWs_step acc a _ ha2]
      apply ih (a :: acc)
      · intro c hc
        rcases List.mem_cons.mp hc with rfl | hc2
        · exact ha2
        · exact hacc c hc2
      · intro hu2
        exfalso
        apply ha
        apply hlast a
        rw [hu2]
        simp
      · exact hlast2

theorem mem_splitWs_seg (u seg v : List Char) (hsegne : seg ≠ []) (hseg : wsFree seg)
    (hu : u = [] ∨ ∃ u0 c, u = u0 ++ [c] ∧ pySpace c = true)
    (hv : v = [] ∨ ∃ c v0, v = c :: v0 ∧ pySpace c = true) :
    seg ∈ splitWs (u ++ seg ++ v) := by
  unfold splitWs
  rw [List.append_assoc]
  apply mem_splitWsAux_seg seg v hsegne hseg hv u []
  · exact fun c hc => absurd hc (List.not_mem_nil c)
  · exact fun _ => rfl
  · intro c hc
    rcases hu with rfl | ⟨u0, d, rfl, hd⟩
    · exact absurd hc (by simp)
    · rw [List.getLast?_concat] at hc
      injection hc with h
      rw [← h]
      exact hd

theorem pyPunct_not_space (c : Char) (h : pyPunct c = true) : pySpace c = false := by
  rw [pyPunct_iff_toNat] at h
  rw [← Bool.not_eq_true, pySpace_iff_toNat]
  omega

theorem alpha_not_space (c : Char) (h : Char.isAlpha c = true) : pySpace c = false := by
  have h2 := isAlpha_toNat c h
  rw [← Bool.not_eq_true, pySpace_iff_toNat]
  omega

theorem zone_suffix_punct (x A : List Char)
    (hx : x = [] ∨ ∃ x0 c, x = x0 ++ [c] ∧ pySpace c = true)
    (hA : ∀ c ∈ A, pyPunct c = true) :
    ∀ c ∈ (x ++ A).reverse.takeWhile (fun d => !pySpace d), pyPunct c = true := by
  intro c hc
  rw [List.reverse_append] at hc
  rw [takeWhile_all_front _ A.reverse x.reverse (fun a ha => by
    simp [pyPunct_not_space a (hA a (List.mem_reverse.mp ha))])] at hc
  rcases List.mem_append.mp hc with h1 | h1
  · exact hA c (List.mem_reverse.mp h1)
  · exfalso
    rcases hx with rfl | ⟨x0, d, rfl, hd⟩
    · simp at h1
    · rw [List.reverse_append, List.reverse_singleton, List.singleton_append] at h1
      have h2 : List.takeWhile (fun d2 => !pySpace d2) (d :: x0.reverse) = [] :=
        List.takeWhile_cons_of_neg (by simp [hd])
      rw [h2] at h1
      exact List.not_mem_nil c h1

theorem zone_prefix_punct (B y : List Char)
    (hy : y = [] ∨ ∃ c y0, y = c :: y0 ∧ pySpace c = true)
    (hB : ∀ c ∈ B, pyPunct c = true) :
    ∀ c ∈ (B ++ y).takeWhile (fun d => !pySpace d), pyPunct c = true := by
  intro c hc
  rw [takeWhile_all_front _ B y (fun a ha => by
    simp [pyPunct_not_space a (hB a ha)])] at hc
  rcases List.mem_append.mp hc with h1 | h1
  · exact hB c h1
  · exfalso
    rcases hy with rfl | ⟨d, y0, rfl, hd⟩
    · simp at h1
    · have h2 : List.takeWhile (fun d2 => !pySpace d2) (d :: y0) = [] :=
        List.takeWhile_cons_of_neg (by simp [hd])
      rw [h2] at h1
      exact List.not_mem_nil c h1

theorem words_WOKw (ws : List (List Char)) (hws : ∀ w ∈ ws, w ≠ [] ∧ wsFree w)
    (hwo : ∀ w ∈ ws, WOKw w) (t2 : List Char) (hdel : DelRel (joinWords ws) t2)
    (x w2 y : List Char) (hsplit : t2 = x ++ w2 ++ y)
    (hxz : x = [] ∨ ∃ x0 c, x = x0 ++ [c] ∧ pySpace c = true)
    (hyz : y = [] ∨ ∃ c y0, y = c :: y0 ∧ pySpace c = true) :
    WOKw w2 := by
  intro A M B hparse hA hB hMne hM hkwM
  have ht2 : t2 = (x ++ A) ++ (M ++ (B ++ y)) := by
    rw [hsplit, hparse]
    simp [List.append_assoc]
  obtain ⟨u2, v2, hn6, hdv, hssu⟩ := delRel_split_zone hdel (x ++ A) (M ++ (B ++ y)) ht2
  obtain ⟨y2, hv2, hdy⟩ := delRel_alpha_front M hM v2 (B ++ y) hdv
  have hssy : SpaceSub y2 (B ++ y) := delRel_spaceSub hdy
  have hzu : ∀ c ∈ u2.reverse.takeWhile (fun d => !pySpace d), pyPunct c = true :=
    spaceSub_zoneL hssu (zone_suffix_punct x A hxz hA)
  have hzy : ∀ c ∈ y2.takeWhile (fun d => !pySpace d), pyPunct c = true :=
    spaceSub_zoneR hssy (zone_prefix_punct B y hyz hB)
  have hu2 : u2 = (u2.reverse.dropWhile (fun d => !pySpace d)).reverse ++
      (u2.reverse.takeWhile (fun d => !pySpace d)).reverse := by
    conv_lhs => rw [← List.reverse_reverse u2,
      ← List.takeWhile_append_dropWhile (fun d => !pySpace d) u2.reverse]
    rw [List.reverse_append]
  have hy2 : y2 = y2.takeWhile (fun d => !pySpace d) ++ y2.dropWhile (fun d => !pySpace d) :=
    (List.takeWhile_append_dropWhile _ y2).symm
  have hpz : (u2.reverse.dropWhile (fun d => !pySpace d)).reverse = [] ∨
      ∃ p0 c, (u2.reverse.dropWhile (fun d => !pySpace d)).reverse = p0 ++ [c] ∧
        pySpace c = true := by
    cases hp : u2.reverse.dropWhile (fun d => !pySpace d) with
    | nil =>
      left
      rfl
    | cons d rest =>
      right
      have hd := dropWhile_head_false _ _ _ _ hp
      exact ⟨rest.reverse, d, List.reverse_cons d rest, by simpa using hd⟩
  have hqz : y2.dropWhile (fun d => !pySpace d) = [] ∨
      ∃ c q0, y2.dropWhile (fun d => !pySpace d) = c :: q0 ∧ pySpace c = true := by
    cases hq : y2.dropWhile (fun d => !pySpace d) with
    | nil =>
      left
      rfl
    | cons d rest =>
      right
      have hd := dropWhile_head_false _ _ _ _ hq
      exact ⟨d, rest, rfl, by simpa using hd⟩
  have hzLpunct : ∀ c ∈ (u2.reverse.takeWhile (fun d => !pySpace d)).reverse,
      pyPunct c = true := fun c hc => hzu c (List.mem_reverse.mp hc)
  have hzRpunct : ∀ c ∈ y2.takeWhile (fun d => !pySpace d), pyPunct c = true := hzy
  have hsegfree : wsFree ((u2.reverse.takeWhile (fun d => !pySpace d)).reverse ++ M ++
      y2.takeWhile (fun d => !pySpace d)) := by
    intro c hc
    rcases List.mem_append.mp hc with h1 | h1
    · rcases List.mem_append.mp h1 with h2 | h2
      · exact pyPunct_not_space c (hzLpunct c h2)
      · exact alpha_not_space c (hM c h2)
    · exact pyPunct_not_space c (hzRpunct c h1)
  have hsegne : (u2.reverse.takeWhile (fun d => !pySpace d)).reverse ++ M ++
      y2.takeWhile (fun d => !pySpace d) ≠ [] := by
    intro hcontra
    rcases List.append_eq_nil.mp hcontra with ⟨h1, _⟩
    rcases List.append_eq_nil.mp h1 with ⟨_, h2⟩
    exact hMne h2
  have hjw : joinWords ws = (u2.reverse.dropWhile (fun d => !pySpace d)).reverse ++
      ((u2.reverse.takeWhile (fun d => !pySpace d)).reverse ++ M ++
        y2.takeWhile (fun d => !pySpace d)) ++ y2.dropWhile (fun d => !pySpace d) := by
    rw [hn6, hv2]
    conv_lhs => rw [hu2, hy2]
    simp [List.append_assoc]
  have hsegmem : (u2.reverse.takeWhile (fun d => !pySpace d)).reverse ++ M ++
      y2.takeWhile (fun d => !pySpace d) ∈ ws := by
    rw [← splitJoin_id ws hws, hjw]
    exact mem_splitWs_seg _ _ _ hsegne hsegfree hpz hqz
  exact hwo _ hsegmem (u2.reverse.takeWhile (fun d => !pySpace d)).reverse M
    (y2.takeWhile (fun d => !pySpace d)) rfl hzLpunct hzRpunct hMne hM hkwM

theorem joinWords_decomp : ∀ (ws : List (List Char)) (w : List Char), w ∈ ws →
    ∃ pre post, joinWords ws = pre ++ w ++ post ∧
      (pre = [] ∨ ∃ p0 c, pre = p0 ++ [c] ∧ pySpace c = true) ∧
      (post = [] ∨ ∃ c q0, post = c :: q0 ∧ pySpace c = true) := by
  intro ws
  induction ws with
  | nil =>
    intro w hw
    exact absurd hw (List.not_mem_nil w)
  | cons v ws2 ih =>
    intro w hw
    rcases List.mem_cons.mp hw with rfl | hw2
    · cases ws2 with
      | nil =>
        refine ⟨[], [], ?_, Or.inl rfl, Or.inl rfl⟩
        show w = [] ++ w ++ []
        rw [List.nil_append, List.append_nil]
      | cons u ws3 =>
        refine ⟨[], ' ' :: joinWords (u :: ws3), ?_, Or.inl rfl,
          Or.inr ⟨' ', joinWords (u :: ws3), rfl, by decide⟩⟩
        rw [List.nil_append]
        rfl
    · cases ws2 with
      | nil => exact absurd hw2 (List.not_mem_nil w)
      | cons u ws3 =>
        obtain ⟨pre, post, hj, hpre, hpost⟩ := ih w hw2
        refine ⟨v ++ ' ' :: pre, post, ?_, ?_, hpost⟩
        · show v ++ ' ' :: joinWords (u :: ws3) = (v ++ ' ' :: pre) ++ w ++ post
          rw [hj]
          simp [List.append_assoc]
        · right
          rcases hpre with rfl | ⟨p0, c, rfl, hc⟩
          · exact ⟨v, ' ', by simp, by decide⟩
          · exact ⟨v ++ ' ' :: p0, c, by simp [List.append_assoc], hc⟩

set_option maxHeartbeats 1600000 in
theorem fingerprintL_idem (l : List Char) :
    fingerprintL (fingerprintL l) = fingerprintL l := by
  by_cases h0 : l = []
  · have he : fingerprintL ([] : List Char) = [] := by
      unfold fingerprintL
      rw [if_pos rfl]
    rw [h0, he, he]
  · by_cases hF : fingerprintL l = []
    · rw [hF]
      unfold fingerprintL
      rw [if_pos rfl]
    · set n1 := normWs l with hn1
      set n2 := quoteScan squote n1 with hn2
      set n3 := quoteScan (Char.ofNat 34) n2 with hn3
      set n4 := bScan decMatch n3 with hn4
      set n5 := bScan hexMatch n4 with hn5
      set W6 := (splitWs n5).map transformWord with hW6
      set n6 := joinWords W6 with hn6
      obtain ⟨hs1, hc1, hh1, hl1⟩ := normWs_invariants l
      rw [← hn1] at hs1 hc1 hh1 hl1
      have hsp2 : SpanRel (fun _ => True) n1 n2 := by
        rw [hn2]
        unfold quoteScan
        exact quoteScanF_spanRel squote _ _ le_rfl
      have hsp3 : SpanRel (fun _ => True) n2 n3 := by
        rw [hn3]
        unfold quoteScan
        exact quoteScanF_spanRel (Char.ofNat 34) _ _ le_rfl
      have hsp4 : SpanRel numChar n3 n4 := by
        rw [hn4]
        unfold bScan
        exact bScanF_spanRel decMatch numChar (fun u k h => decMatch_span u k h) _ false _ le_rfl
      have hsp5 : SpanRel numChar n4 n5 := by
        rw [hn5]
        unfold bScan
        exact bScanF_spanRel hexMatch numChar (fun u k h => hexMatch_span u k h) _ false _ le_rfl
      obtain ⟨hs2, hc2, hh2, hl2⟩ := spanRel_invariants _ hsp2 hs1 hc1 hh1 hl1
      obtain ⟨hs3, hc3, hh3, hl3⟩ := spanRel_invariants _ hsp3 hs2 hc2 hh2 hl2
      obtain ⟨hs4, hc4, hh4, hl4⟩ := spanRel_invariants _ hsp4 hs3 hc3 hh3 hl3
      obtain ⟨hs5, hc5, hh5, hl5⟩ := spanRel_invariants _ hsp5 hs4 hc4 hh4 hl4
      have hcr6 : CaseRel n5 n6 := by
        rw [hn6, hW6]
        exact caseRel_stage6 n5 hs5 hc5 hh5 hl5
      have hwords : ∀ w ∈ W6, w ≠ [] ∧ wsFree w := by
        rw [hW6]
        intro w hw
        rcases List.mem_map.mp hw with ⟨u, hu, rfl⟩
        obtain ⟨hu1, hu2⟩ := splitWs_words n5 u hu
        exact ⟨transformWord_ne_nil u hu1, transformWord_wsFree u hu2⟩
      have hwo : ∀ w ∈ W6, WOKw w := by
        rw [hW6]
        intro w hw
        rcases List.mem_map.mp hw with ⟨u, hu, rfl⟩
        exact transformWord_WOKw u
      have hjchain : List.Chain' notWsWs n6 := by
        rw [hn6]
        exact joinWords_chain _ hwords
      have hjspace : allWsSpace n6 := by
        rw [hn6]
        exact joinWords_allWsSpace _ hwords
      obtain ⟨hp1, hp2⟩ := pclean_chain n6 hjchain
      have hpspace : allWsSpace (pclean n6) :=
        fun c hc hws => hjspace c (mem_pclean _ c hc) hws
      have hdel6 : DelRel n6 (pclean n6) := pclean_delRel n6
      have hpne : pclean n6 ≠ [] := by
        intro hcontra
        apply hF
        rw [fingerprintL_eq_pipeline l h0, ← hn1, ← hn2, ← hn3, ← hn4, ← hn5, ← hW6, ← hn6,
          hcontra]
        rfl
      have hn6ne : n6 ≠ [] := by
        intro hc
        apply hpne
        rw [hc]
        rfl
      have hW6ne : W6 ≠ [] := by
        intro hc
        apply hn6ne
        rw [hn6, hc]
        rfl
      have hn6head : ∀ c, n6.head? = some c → pySpace c = false := by
        intro c hc
        obtain ⟨v, ws2, hW⟩ := List.exists_cons_of_ne_nil hW6ne
        have hvmem : v ∈ W6 := by
          rw [hW]
          exact List.mem_cons_self _ _
        rw [hn6, hW, joinWords_head v ws2 (hwords v hvmem).1] at hc
        cases v with
        | nil => exact absurd rfl (hwords [] hvmem).1
        | cons d v2 =>
          rw [List.head?_cons, Option.some.injEq] at hc
          rw [← hc]
          exact (hwords _ hvmem).2 d (List.mem_cons_self _ _)
      have hn6last : ∀ c, n6.getLast? = some c → pySpace c = false := by
        rw [hn6]
        exact joinWords_getLast W6 hwords
      have hphead : ∀ c, (pclean n6).head? = some c → pySpace c = false := by
        intro c hc
        rcases delRel_head hdel6 c hc with h1 | h1
        · exact hn6head c h1
        · rw [isPunct4_iff_toNat] at h1
          rw [← Bool.not_eq_true, pySpace_iff_toNat]
          omega
      have hplast : ∀ c, (pclean n6).getLast? = some c → pySpace c = false :=
        delRel_getLast hdel6 hn6last
      have hFeq : fingerprintL l = pclean n6 := by
        rw [fingerprintL_eq_pipeline l h0, ← hn1, ← hn2, ← hn3, ← hn4, ← hn5, ← hW6, ← hn6,
          collapseWs_eq_self _ hpspace hp1]
        exact trimWs_eq_self _ hphead hplast
      have hFs : allWsSpace (fingerprintL l) := by
        rw [hFeq]
        exact hpspace
      have hFc : List.Chain' notWsWs (fingerprintL l) := by
        rw [hFeq]
        exact hp1
      have hFp : List.Chain' noWsPunct (fingerprintL l) := by
        rw [hFeq]
        exact hp2
      have hFh : ∀ c, (fingerprintL l).head? = some c → pySpace c = false := by
        rw [hFeq]
        exact hphead
      have hFl2 : ∀ c, (fingerprintL l).getLast? = some c → pySpace c = false := by
        rw [hFeq]
        exact hplast
      have hq2 : NoQ squote n2 := by
        rw [hn2]
        exact noQ_quoteScan squote (by decide) (by decide) n1
      have hq3 : NoQ squote n3 := by
        rw [hn3]
        unfold quoteScan
        exact noQ_otherScan squote (Char.ofNat 34) (by decide) (by decide) (by decide)
          (by decide) n2.length n2 n2.length le_rfl le_rfl hq2
      have hq4 : NoQ squote n4 :=
        spanRel_noQ squote (by decide) (by decide) numChar
          (fun c h => numChar_not_squote c h) hsp4 hq3
      have hq5 : NoQ squote n5 :=
        spanRel_noQ squote (by decide) (by decide) numChar
          (fun c h => numChar_not_squote c h) hsp5 hq4
      have hq6 : NoQ squote n6 :=
        caseRel_noQ squote (by decide) (by decide) (by decide) hcr6 hq5
      have hqF : NoQ squote (fingerprintL l) := by
        rw [hFeq]
        exact delRel_noQ squote (by decide) (by decide) hdel6 hq6
      have hd3 : NoQ (Char.ofNat 34) n3 := by
        rw [hn3]
        exact noQ_quoteScan (Char.ofNat 34) (by decide) (by decide) n2
      have hd4 : NoQ (Char.ofNat 34) n4 :=
        spanRel_noQ (Char.ofNat 34) (by decide) (by decide) numChar
          (fun c h => numChar_not_dquote c h) hsp4 hd3
      have hd5 : NoQ (Char.ofNat 34) n5 :=
        spanRel_noQ (Char.ofNat 34) (by decide) (by decide) numChar
          (fun c h => numChar_not_dquote c h) hsp5 hd4
      have hd6 : NoQ (Char.ofNat 34) n6 :=
        caseRel_noQ (Char.ofNat 34) (by decide) (by decide) (by decide) hcr6 hd5
      have hdF : NoQ (Char.ofNat 34) (fingerprintL l) := by
        rw [hFeq]
        exact delRel_noQ (Char.ofNat 34) (by decide) (by decide) hdel6 hd6
      have hnb4 : NoBD decMatch false n4 := by
        rw [hn4]
        unfold bScan
        exact bScanF_noBD_self decMatch rfl decMatch_qmark
          (fun c cs fuel hf h => decMatch_none_scan decMatch c cs fuel hf h)
          (fun c cs k h hb => decMatch_after c cs k h hb)
          (fun r0 w h => decMatch_nonword r0 h w)
          n3.length false n3 le_rfl
      have hnb5h : NoBD hexMatch false n5 := by
        rw [hn5]
        unfold bScan
        exact bScanF_noBD_self hexMatch rfl hexMatch_qmark
          (fun c cs fuel hf h => hexMatch_none_scan hexMatch c cs fuel hf h)
          (fun c cs k h _ => hexMatch_after c cs k h)
          (fun r0 w h => hexMatch_nonword r0 h w)
          n4.length false n4 le_rfl
      have hnb5d : NoBD decMatch false n5 := by
        rw [hn5]
        unfold bScan
        exact bScanF_noBD_cross hexMatch decMatch rfl decMatch_qmark
          (fun c cs fuel hf h => decMatch_none_scan hexMatch c cs fuel hf h)
          (fun u k h => (hexMatch_span u k h).1)
          hexMatch_le
          (fun c cs k h _ => hexMatch_after c cs k h)
          (fun r0 w h => decMatch_nonword r0 h w)
          n4.length false n4 le_rfl hnb4
      have hnb6d : NoBD decMatch false n6 :=
        caseRel_noBD decMatch (fun h => decMatch_caseRel h) hcr6 hnb5d
      have hnb6h : NoBD hexMatch false n6 :=
        caseRel_noBD hexMatch (fun h => hexMatch_caseRel h) hcr6 hnb5h
      have hnbFd : NoBD decMatch false (fingerprintL l) := by
        rw [hFeq]
        exact delRel_noBD decMatch (fun h => decMatch_delRel h) hdel6 hnb6d
      have hnbFh : NoBD hexMatch false (fingerprintL l) := by
        rw [hFeq]
        exact delRel_noBD hexMatch (fun h => hexMatch_delRel h) hdel6 hnb6h
      have hFsplit : joinWords (splitWs (fingerprintL l)) = fingerprintL l :=
        joinSplit_id (fingerprintL l).length _ le_rfl hFs hFc hFh hFl2
      have hFWOKw : ∀ w ∈ splitWs (fingerprintL l), WOKw w := by
        intro w hw
        obtain ⟨pre, post, hj, hpreflank, hpostflank⟩ :=
          joinWords_decomp (splitWs (fingerprintL l)) w hw
        rw [hFsplit] at hj
        refine words_WOKw W6 hwords hwo (fingerprintL l) ?_ pre w post hj hpreflank hpostflank
        rw [hFeq, hn6]
        exact pclean_delRel _
      have hmapid : (splitWs (fingerprintL l)).map transformWord = splitWs (fingerprintL l) := by
        have hid : (splitWs (fingerprintL l)).map transformWord =
            (splitWs (fingerprintL l)).map id :=
          List.map_congr_left (fun w hw => woKw_transformWord_id w (hFWOKw w hw))
        rw [hid, List.map_id]
      conv_lhs => rw [fingerprintL_eq_pipeline (fingerprintL l) hF]
      rw [normWs_eq_self _ hFh hFl2 hFs hFc]
      rw [noQ_quoteScan_eq squote _ hqF]
      rw [noQ_quoteScan_eq (Char.ofNat 34) _ hdF]
      have hbd : bScan decMatch (fingerprintL l) = fingerprintL l := by
        unfold bScan
        exact noBD_scanF_id decMatch _ _ false le_rfl hnbFd
      rw [hbd]
      have hbh : bScan hexMatch (fingerprintL l) = fingerprintL l := by
        unfold bScan
        exact noBD_scanF_id hexMatch _ _ false le_rfl hnbFh
      rw [hbh]
      rw [hmapid, hFsplit]
      rw [pclean_eq_self _ hFc hFp]
      rw [collapseWs_eq_self _ hFs hFc]
      exact trimWs_eq_self _ hFh hFl2

/-! ## Claim theorems -/

/-- C1: for every query string and every state of the whitelist store,
is_whitelisted returns true exactly when the fingerprint of the query is an
element of the in-memory fingerprint set, by exact string membership. -/
theorem C1_is_whitelisted_iff_fingerprint_mem (st : SQLWhitelist) (q : String) :
    st.is_whitelisted q = true ↔ fingerprint q ∈ st.whitelist := by
  simp [SQLWhitelist.is_whitelisted, fingerprint_query]

/-- C2 counterexample: the code redacts decimal literals before hexadecimal
literals, and on the input 1.0x2 this differs from the hex-first order the
specification prescribes: the code yields two question marks, the spec
order yields a dot between them. -/
theorem C2_counterexample :
    fingerprint "1.0x2" = "??" ∧ fingerprintSpecNumOrder "1.0x2" = "?.?" ∧
    fingerprint "1.0x2" ≠ fingerprintSpecNumOrder "1.0x2" := by
  refine ⟨by decide, by decide, by decide⟩

/-- C2 amended: after string-literal redaction the fingerprint replaces
every word-boundary-bounded decimal literal first and only then every
remaining hexadecimal literal, the reverse of the order claimed. -/
theorem C2_amended_decimal_first (s : String) :
    fingerprint s = String.mk (if s.toList = [] then [] else
      trimWs (collapseWs (pclean (joinWords
        ((splitWs (bScan hexMatch (bScan decMatch
          (quoteScan (Char.ofNat 34) (quoteScan squote
            (normWs s.toList)))))).map transformWord))))) := rfl

/-- C3 counterexample: fingerprint of -5 and fingerprint of -500 are the
same string, and neither is a bare question mark, contradicting the claimed
difference between them. -/
theorem C3_counterexample :
    fingerprint "-5" = fingerprint "-500" ∧ fingerprint "-5" ≠ "?" := by
  refine ⟨by decide, by decide⟩

/-- C3 amended: the numeric pattern does not consume a leading minus sign,
so -5 and -500 both fingerprint to the two-character string minus then
question mark (identical to each other, and different from the fingerprint
of their unsigned forms), while 5 and 500 both fingerprint to a bare
question mark. -/
theorem C3_amended_minus_preserved :
    fingerprint "-5" = "-?" ∧ fingerprint "-500" = "-?" ∧
    fingerprint "5" = "?" ∧ fingerprint "500" = "?" ∧
    fingerprint "-5" ≠ fingerprint "5" := by
  refine ⟨by decide, by decide, by decide, by decide, by decide⟩

/-- C4: queries differing only in a numeric literal fingerprint
identically, and the shared fingerprint is the placeholder form. -/
theorem C4_literal_invariance :
    fingerprint "SELECT * FROM users WHERE id=1" =
      fingerprint "SELECT * FROM users WHERE id=999" ∧
    fingerprint "SELECT * FROM users WHERE id=1" =
      "SELECT * FROM users WHERE id=?" := by
  refine ⟨by decide, by decide⟩

/-- The classic OR-tautology injection string, built by code because its
text contains single quotes. -/
def orTautologyQuery : String :=
  "SELECT * FROM users WHERE id=" ++ String.mk [squote, Char.ofNat 49, squote] ++
    " OR " ++ String.mk [squote, Char.ofNat 49, squote] ++ "=" ++
    String.mk [squote, Char.ofNat 49, squote]

/-- C5: the OR-tautology injection fingerprint differs from the benign
form, so the injection is not literal-equivalent to it. -/
theorem C5_tautology_not_equivalent :
    fingerprint orTautologyQuery ≠ fingerprint "SELECT * FROM users WHERE id=1" := by
  decide

/-- C6: training a store on a list of queries, saving, and constructing a
fresh store from the written snapshot preserves the is_whitelisted verdict
of every registered query. -/
theorem C6_save_load_roundtrip (qs : List String) (q : String) (_hq : q ∈ qs) :
    (SQLWhitelist.mk_store
        (some ((SQLWhitelist.add_queries (SQLWhitelist.mk_store none) qs).save_whitelist))).is_whitelisted q
      = (SQLWhitelist.add_queries (SQLWhitelist.mk_store none) qs).is_whitelisted q := by
  simp [SQLWhitelist.mk_store, SQLWhitelist.save_whitelist, SQLWhitelist.load_whitelist,
    SQLWhitelist.is_whitelisted, List.mem_dedup]

/-- C6 witness: the round trip at the concrete one-query list. -/
theorem C6_save_load_roundtrip_witness :
    ("SELECT 1" ∈ ["SELECT 1"]) ∧
    (SQLWhitelist.mk_store
        (some ((SQLWhitelist.add_queries (SQLWhitelist.mk_store none) ["SELECT 1"]).save_whitelist))).is_whitelisted "SELECT 1"
      = (SQLWhitelist.add_queries (SQLWhitelist.mk_store none) ["SELECT 1"]).is_whitelisted "SELECT 1" :=
  ⟨by decide, C6_save_load_roundtrip ["SELECT 1"] "SELECT 1" (by decide)⟩

/-- C7: loading a bare-list snapshot produces the same in-memory membership
and the same check_fingerprint verdicts as loading the structured snapshot
holding the same list. -/
theorem C7_bare_list_load_equivalent (L : List String) (count : Nat) (fp : String) :
    (SQLWhitelist.mk_store (some (.bare L))).whitelist =
      (SQLWhitelist.mk_store (some (.obj L count))).whitelist ∧
    (SQLWhitelist.mk_store (some (.bare L))).check_fingerprint fp =
      (SQLWhitelist.mk_store (some (.obj L count))).check_fingerprint fp :=
  ⟨rfl, rfl⟩

/-- C8: empty and non-string inputs fingerprint to the empty string without
an exception, a freshly constructed store rejects the empty query, and the
empty fingerprint never matches a whitelist whose entries are non-empty, so
such input is classified unsafe by default. -/
theorem C8_fail_closed (st : SQLWhitelist) (h : ∀ e ∈ st.whitelist, e ≠ "") :
    fingerprintVal (.str "") = "" ∧ fingerprintVal .nonStr = "" ∧
    (SQLWhitelist.mk_store none).is_whitelisted "" = false ∧
    st.is_whitelisted "" = false := by
  refine ⟨rfl, rfl, rfl, ?_⟩
  have hfp : fingerprint_query "" = "" := rfl
  have hn : "" ∉ st.whitelist := fun hmem => h "" hmem rfl
  simp only [SQLWhitelist.is_whitelisted, hfp]
  simpa using hn

/-- C8 witness: the fail-closed statement at a concrete non-empty store. -/
theorem C8_fail_closed_witness :
    (∀ e ∈ (SQLWhitelist.mk ["SELECT * FROM users"]).whitelist, e ≠ "") ∧
    (fingerprintVal (.str "") = "" ∧ fingerprintVal .nonStr = "" ∧
      (SQLWhitelist.mk_store none).is_whitelisted "" = false ∧
      (SQLWhitelist.mk ["SELECT * FROM users"]).is_whitelisted "" = false) :=
  ⟨by decide, C8_fail_closed (SQLWhitelist.mk ["SELECT * FROM users"]) (by decide)⟩

/-- C10: for every string input, the returned fingerprint is in normal
form: its first and last characters are not whitespace, no two consecutive
characters are both whitespace, and no whitespace character stands
immediately before or after any of the four punctuation characters
parenthesis, comma and semicolon. -/
theorem C10_fingerprint_normal_form (s : String) :
    (∀ c, (fingerprint s).toList.head? = some c → pySpace c = false) ∧
    (∀ c, (fingerprint s).toList.getLast? = some c → pySpace c = false) ∧
    List.Chain' notWsWs (fingerprint s).toList ∧
    List.Chain' noWsPunct (fingerprint s).toList := by
  have h : (fingerprint s).toList = fingerprintL s.toList := rfl
  rw [h]
  exact fingerprintL_normal_form s.toList

/-- C9: fingerprinting is idempotent: for every string q,
fingerprint (fingerprint q) equals fingerprint q, so every fingerprint is a
fixed point of the normalisation pipeline. -/
theorem C9_fingerprint_idempotent (q : String) :
    fingerprint (fingerprint q) = fingerprint q := by
  have h : fingerprint (fingerprint q) = String.mk (fingerprintL (fingerprintL q.toList)) := rfl
  rw [h, fingerprintL_idem q.toList]
  rfl
